import Mathlib

/-!
Static call graph: identity registry, builder and subgraph extraction.

A shallow embedding of `static.go` (the graph data model, `getID`, the
`add*` builder methods, `NewStatic`, `Dot` and `SubGraph`) and of the
adapter of `ssa.go` (`mainPackages`, `CallGraph`), followed by the
properties proved about them.

Conventions of the embedding.

* A Go `map[string]T` is an `AList` keyed by `String`: keys are unique, and the
  order of the entries stands for one iteration order of the Go map.
* A `*Node` stored in a map may be nil, so `Nodes` holds `Option Node`
  (`none` is the nil pointer); `SubGraph` itself stores `g.Nodes[source]`,
  which is nil when `source` is not a key.  A `*Edge` stored in `Edges` is
  taken to be non-nil (the builder stores none, and a nil edge makes the
  first loop of `SubGraph` fail at `edge.Source`).
* `idCounter` is a `uint64`: a `Nat` incremented modulo `2 ^ 64`.
* The go/types objects (`*types.Func`, `*types.Var`, `*types.Package`,
  `*types.Builtin`) are records of the observations the code makes on them.
* `build.Import(path, "", 0).Goroot` is outside the repository and is taken
  as a parameter `goroot : String → Bool`.
* The matcher is outside the repository: `NewStatic` receives the matched
  declarations, each with its matched call sites, as a list.
* The call-graph strategies of golang.org/x/tools that `ssa.go` calls, and
  the verb `%q` of `fmt.Sprintf` that `Dot` uses, are outside the repository
  and are taken as parameters; a strategy returns or panics, and
  `rta.Analyze` may return nil.  `CallGraph` also returns the list of the
  external functions it has called.
* The recursion of `dfs` is bounded by a fuel argument (the depth of the Go
  call stack); `none` means the fuel ran out.
-/

namespace Callgraph

/-! ## Data model -/

/-- Go `type ID = string`. -/
abbrev ID := String

/-- Go `type NodeType int`. -/
abbrev NodeType := Int

/-- Constant `NodeFunc NodeType = iota + 1`. -/
def NodeFunc : NodeType := 1

/-- Constant `NodeRecv`. -/
def NodeRecv : NodeType := 2

/-- Constant `NodePkg`. -/
def NodePkg : NodeType := 3

/-- What the code observes of a `*types.Package`: `Path()` and `Name()`. -/
structure Package where
  path : String
  name : String
deriving DecidableEq, Repr

/-- What the code observes of a `*types.Var` (a receiver): `Pkg()`,
`Type().String()`, `Embedded()`, `IsField()`. -/
structure Var where
  pkg : Option Package
  typeString : String
  embedded : Bool
  isField : Bool
deriving DecidableEq, Repr

/-- What the code observes of a `*types.Func`: `FullName()`, `Pkg()`, the
receiver of its signature, and whether `Parent()` is nil. -/
structure Func where
  fullName : String
  pkg : Option Package
  recv : Option Var
  parentIsNil : Bool
deriving DecidableEq, Repr

/-- What the code observes of a `*types.Builtin`. -/
structure Builtin where
  name : String
deriving DecidableEq, Repr

/-- Field `Object any` of `Node`: the union `*types.Func | *types.Var |
*types.Package`, or any other value. -/
inductive Object where
  | func (f : Func)
  | var (v : Var)
  | pkg (p : Package)
  | other
deriving DecidableEq, Repr

/-- Go `type Node struct`; the field `Type` is written `Type_`. -/
structure Node where
  ID : Callgraph.ID
  PID : Callgraph.ID
  Label : String
  Desc : String
  Attrs : List String
  Type_ : NodeType
  Object : Callgraph.Object
deriving DecidableEq, Repr

/-- Go `type Edge struct`. -/
structure Edge where
  ID : Callgraph.ID
  Source : Callgraph.ID
  Target : Callgraph.ID
  Attrs : List String
deriving DecidableEq, Repr

/-- Go `map[string]T`. -/
abbrev GoMap (V : Type) := AList (fun _ : String => V)

/-- Go `type StaticCallGraph struct`. -/
structure StaticCallGraph where
  idCounter : Nat
  idMap : GoMap ID
  Nodes : GoMap (Option Node)
  Edges : GoMap Edge
deriving DecidableEq

/-- Go `newGraph()`. -/
def newGraph : StaticCallGraph :=
  { idCounter := 0, idMap := ∅, Nodes := ∅, Edges := ∅ }

/-- Go `m[k]` on a map of pointers: nil when the key is missing. -/
def ptrAt {V : Type} (m : GoMap (Option V)) (k : String) : Option V :=
  (m.lookup k).join

/-! ## Strings -/

/-- Go `strconv.FormatUint(n, 16)`: lower-case hexadecimal, no leading zero. -/
def formatUint16 (n : Nat) : String :=
  String.mk (Nat.toDigits 16 n)

/-- Left-to-right removal of the non-overlapping occurrences of `pat`;
`skip` counts the characters of a matched occurrence still to be dropped. -/
def removeAllAux (pat : List Char) : Nat → List Char → List Char
  | _, [] => []
  | skip + 1, _ :: cs => removeAllAux pat skip cs
  | 0, c :: cs =>
    if pat.isPrefixOf (c :: cs) then removeAllAux pat (pat.length - 1) cs
    else c :: removeAllAux pat 0 cs

/-- Go `strings.ReplaceAll(s, old, "")` for a non-empty `old`. -/
def removeAll (s old : String) : String :=
  String.mk (removeAllAux old.data 0 s.data)

/-- The part of `s` after its last `'.'`, if it has one: Go
`s[strings.LastIndex(s, ".")+1:]` when the index is non-negative. -/
def afterLastDot : List Char → Option (List Char)
  | [] => none
  | c :: cs =>
    match afterLastDot cs with
    | some r => some r
    | none => if c = '.' then some cs else none

/-- Go `(*StaticCallGraph).pkgPath`. -/
def pkgPath (pkg : Option Package) : String :=
  match pkg with
  | none => ""
  | some p => if p.path = "command-line-arguments" then "" else p.path

/-- Go `(*StaticCallGraph).funName`. -/
def funName (f : Func) : String :=
  removeAll f.fullName "command-line-arguments."

/-! ## Identity registry -/

/-- Go `(*StaticCallGraph).getID`: the returned pair `(id, isNew)` and the
graph after the call. -/
def getID (g : StaticCallGraph) (fullName : String) (isNode : Bool) :
    (ID × Bool) × StaticCallGraph :=
  match g.idMap.lookup fullName with
  | some id => ((id, false), g)
  | none =>
    let c := (g.idCounter + 1) % 2 ^ 64
    let id := (if isNode then "n" else "e") ++ formatUint16 c
    ((id, true), { g with idCounter := c, idMap := g.idMap.insert fullName id })

/-! ## Builder -/

/-- The closure `inGoRoot` of `addNode`. -/
def inGoRoot (goroot : String → Bool) (pkg : Option Package) : Bool :=
  match pkg with
  | none => true
  | some _ => goroot (pkgPath pkg)

/-- Go `(*StaticCallGraph).addPkgNode`. -/
def addPkgNode (g : StaticCallGraph) (pkg : Option Package) : ID × StaticCallGraph :=
  match pkg with
  | none => ("", g)
  | some p =>
    let path := pkgPath pkg
    let fullName := "pkg ~ " ++ path
    let r := getID g fullName true
    let id := r.1.1
    let g1 := r.2
    if r.1.2 = false then (id, g1)
    else
      let node : Node :=
        { ID := id, PID := "", Label := p.name, Desc := path, Attrs := ["package"],
          Type_ := NodePkg, Object := Object.pkg p }
      (id, { g1 with Nodes := g1.Nodes.insert id (some node) })

/-- Go `(*StaticCallGraph).addRecvTypeNode`. -/
def addRecvTypeNode (g : StaticCallGraph) (recv : Var) : ID × StaticCallGraph :=
  let tyStr := recv.typeString
  let fullName := "recv ~ " ++ pkgPath recv.pkg ++ " ~ " ++ tyStr
  let r := getID g fullName true
  let id := r.1.1
  let g1 := r.2
  if r.1.2 = false then (id, g1)
  else
    let p := addPkgNode g1 recv.pkg
    let pid := p.1
    let g2 := p.2
    let label :=
      match afterLastDot tyStr.data with
      | some r => String.mk r
      | none => tyStr
    let attrs := ["type"] ++ (if recv.embedded then ["embedded"] else [])
      ++ (if recv.isField then ["field"] else [])
    let node : Node :=
      { ID := id, PID := pid, Label := label, Desc := "", Attrs := attrs,
        Type_ := NodeRecv, Object := Object.var recv }
    (id, { g2 with Nodes := g2.Nodes.insert id (some node) })

/-- Go `(*StaticCallGraph).addNode`. Both branches of the `LastIndex` test
assign `funcName` to the label, and the two `if false` blocks are dead. -/
def addNode (goroot : String → Bool) (g : StaticCallGraph) (f : Func) :
    ID × StaticCallGraph :=
  let funcName := funName f
  let fullName := "func ~ " ++ funcName
  let r := getID g fullName true
  let id := r.1.1
  let g1 := r.2
  if r.1.2 = false then (id, g1)
  else
    let attrs := (if inGoRoot goroot f.pkg then ["go_root"] else [])
      ++ (if f.parentIsNil then ["global"] else [])
    let node : Node :=
      { ID := id, PID := "", Label := funcName, Desc := "", Attrs := attrs,
        Type_ := NodeFunc, Object := Object.func f }
    (id, { g1 with Nodes := g1.Nodes.insert id (some node) })

/-- Go `(*StaticCallGraph).addDynamicEdge`: `return "" // TODO`. -/
def addDynamicEdge (g : StaticCallGraph) (_caller : Func) (_callee : Var) :
    ID × StaticCallGraph :=
  ("", g)

/-- Go `(*StaticCallGraph).addBuiltinEdge`: `return "" // TODO`. -/
def addBuiltinEdge (g : StaticCallGraph) (_caller : Func) (_callee : Builtin) :
    ID × StaticCallGraph :=
  ("", g)

/-- Go `(*StaticCallGraph).addStaticEdge`. The call expression is not used
by the code. The id is requested with `isNode = true`, as in the source. -/
def addStaticEdge (goroot : String → Bool) (g : StaticCallGraph) (caller callee : Func) :
    ID × StaticCallGraph :=
  let fullName := "call " ++ funName caller ++ " -> " ++ funName callee
  let r := getID g fullName true
  let id := r.1.1
  let g1 := r.2
  if r.1.2 = false then (id, g1)
  else
    let a := addNode goroot g1 caller
    let b := addNode goroot a.2 callee
    let cEdge : Edge :=
      { ID := id, Source := a.1, Target := b.1, Attrs := ["static"] }
    (id, { b.2 with Edges := b.2.Edges.insert id cEdge })

/-- A builder operation on the graph. -/
inductive Op where
  | addNode (f : Func)
  | addRecvTypeNode (recv : Var)
  | addPkgNode (pkg : Option Package)
  | addStaticEdge (caller callee : Func)
deriving DecidableEq, Repr

/-- The graph after one builder operation. -/
def Op.apply (goroot : String → Bool) (g : StaticCallGraph) : Op → StaticCallGraph
  | Op.addNode f => (Callgraph.addNode goroot g f).2
  | Op.addRecvTypeNode r => (Callgraph.addRecvTypeNode g r).2
  | Op.addPkgNode p => (Callgraph.addPkgNode g p).2
  | Op.addStaticEdge a b => (Callgraph.addStaticEdge goroot g a b).2

/-- The graph after a sequence of builder operations. -/
def runOps (goroot : String → Bool) (ops : List Op) (g : StaticCallGraph) : StaticCallGraph :=
  ops.foldl (Op.apply goroot) g

/-- The graph after a sequence of `getID` calls. -/
def runGetID (calls : List (String × Bool)) (g : StaticCallGraph) : StaticCallGraph :=
  calls.foldl (fun acc c => (getID acc c.1 c.2).2) g

/-- The ids returned by a sequence of `getID` calls, in call order. -/
def getIDs : List (String × Bool) → StaticCallGraph → List ID
  | [], _ => []
  | c :: cs, g => (getID g c.1 c.2).1.1 :: getIDs cs (getID g c.1 c.2).2

/-! ## NewStatic -/

/-- The result of `typeutil.Callee(info, callExpr)`: nil, or a
`types.Object` of one of the three kinds the switch knows, or another one. -/
inductive CalleeObj where
  | nil
  | func (f : Func)
  | var (v : Var)
  | builtin (b : Builtin)
  | other
deriving DecidableEq, Repr

/-- A call site matched by `CallExprPattern`: its resolved callee and the
text `ShowNodeWithPos` prints for it. -/
structure CallSite where
  callee : CalleeObj
  shown : String
deriving DecidableEq, Repr

/-- A declaration matched by `FunDeclPattern`: its function object and the
call sites matched inside it, in match order. -/
structure Decl where
  caller : Func
  calls : List CallSite
deriving DecidableEq, Repr

/-- Go `type StaticFlags struct`; the two patterns belong to the matcher and
show in the model as the matched declarations and call sites. -/
structure StaticFlags where
  ShowOrphanedNode : Bool
deriving DecidableEq, Repr

/-- Go `type StaticOption func(*StaticFlags)`. -/
abbrev StaticOption := StaticFlags → StaticFlags

/-- Go `WithShowOrphanedNode()`. -/
def WithShowOrphanedNode : StaticOption :=
  fun flags => { flags with ShowOrphanedNode := true }

/-- The flags `NewStatic` starts from (`ShowOrphanedNode: false`) after the
loop `for _, opt := range opts { opt(flags) }`. -/
def applyOpts (opts : List StaticOption) : StaticFlags :=
  opts.foldl (fun fl opt => opt fl) { ShowOrphanedNode := false }

/-- The state threaded through the callbacks of `NewStatic`: the graph and
the lines written by `errLog`. -/
structure Build where
  graph : StaticCallGraph
  log : List String
deriving DecidableEq

/-- The inner callback of `NewStatic`, run on one matched call site; an
error is the panic of the `default` branch. -/
def onCall (goroot : String → Bool) (printErrors : Bool) (caller : Func) (b : Build)
    (c : CallSite) : Except String Build :=
  match c.callee with
  | CalleeObj.nil =>
    if printErrors then
      Except.ok { b with log := b.log ++ ["empty callee object: " ++ c.shown] }
    else Except.ok b
  | CalleeObj.func callee =>
    Except.ok { b with graph := (addStaticEdge goroot b.graph caller callee).2 }
  | CalleeObj.var callee =>
    Except.ok { b with graph := (addDynamicEdge b.graph caller callee).2 }
  | CalleeObj.builtin callee =>
    Except.ok { b with graph := (addBuiltinEdge b.graph caller callee).2 }
  | CalleeObj.other => Except.error "unreachable"

/-- The inner `ctx.Match` loop over the call sites of one declaration. -/
def onCalls (goroot : String → Bool) (printErrors : Bool) (caller : Func) :
    List CallSite → Build → Except String Build
  | [], b => Except.ok b
  | c :: cs, b =>
    match onCall goroot printErrors caller b c with
    | Except.error e => Except.error e
    | Except.ok b1 => onCalls goroot printErrors caller cs b1

/-- The outer callback of `NewStatic`, run on one matched declaration. -/
def onDecl (goroot : String → Bool) (printErrors : Bool) (flags : StaticFlags) (b : Build)
    (d : Decl) : Except String Build :=
  let b1 : Build :=
    if flags.ShowOrphanedNode then { b with graph := (addNode goroot b.graph d.caller).2 }
    else b
  onCalls goroot printErrors d.caller d.calls b1

/-- The outer `m.Match` loop over the matched declarations. -/
def onDecls (goroot : String → Bool) (printErrors : Bool) (flags : StaticFlags) :
    List Decl → Build → Except String Build
  | [], b => Except.ok b
  | d :: ds, b =>
    match onDecl goroot printErrors flags b d with
    | Except.error e => Except.error e
    | Except.ok b1 => onDecls goroot printErrors flags ds b1

/-- Go `NewStatic(m, opts...)`: `printErrors` is `m.Loader.Flags.PrintErrors`
and `decls` is what the matcher delivers. The result is the graph together
with the lines written to the error log, or the panic message. -/
def NewStatic (goroot : String → Bool) (printErrors : Bool) (opts : List StaticOption)
    (decls : List Decl) : Except String Build :=
  onDecls goroot printErrors (applyOpts opts) decls { graph := newGraph, log := [] }

/-! ## SubGraph -/

/-- The local type `pair` of `SubGraph`: an edge id and the target node id. -/
abbrev Pair := ID × ID

/-- The first loop of `SubGraph`: `edges[edge.Source] = append(edges[edge.Source],
pair{eid, edge.Target})` for every entry of `g.Edges`. -/
def buildEdges (es : List (Sigma fun _ : String => Edge)) (init : GoMap (List Pair)) :
    GoMap (List Pair) :=
  es.foldl (fun edges it =>
    edges.insert it.2.Source (((edges.lookup it.2.Source).getD []) ++ [(it.1, it.2.Target)]))
    init

/-- Go `edges[source]`: the nil slice when the key is missing. -/
def outEdges (edges : GoMap (List Pair)) (source : ID) : List Pair :=
  (edges.lookup source).getD []

/-- The closure `findRoots` of `SubGraph`. -/
def findRoots (g : StaticCallGraph) (rootPred : Option Node → Bool) : List ID :=
  g.Nodes.entries.filterMap (fun it => if rootPred it.2 then some it.1 else none)

/-- The state of the traversal: the subgraph built so far, and the list of
the nodes expanded so far (a record of the run, not a variable of the code). -/
structure Walk where
  subGraph : StaticCallGraph
  expanded : List ID
deriving DecidableEq

/-- The statement `subGraph.Edges[it.edgeID] = g.Edges[it.edgeID]`; the id
comes from ranging over `g.Edges`, so the lookup finds the edge. -/
def copyEdge (g : StaticCallGraph) (eid : ID) (w : Walk) : Walk :=
  match g.Edges.lookup eid with
  | some e => { w with subGraph := { w.subGraph with Edges := w.subGraph.Edges.insert eid e } }
  | none => w

/-- The statement `subGraph.Nodes[source] = g.Nodes[source]`, which starts
the expansion of `source`. -/
def markNode (g : StaticCallGraph) (source : ID) (w : Walk) : Walk :=
  { subGraph := { w.subGraph with Nodes := w.subGraph.Nodes.insert source (ptrAt g.Nodes source) },
    expanded := w.expanded ++ [source] }

/-- A `for` loop that copies each edge of the list and calls `visit` on its
target. -/
def walkEdges (visit : ID → Walk → Option Walk) (g : StaticCallGraph) :
    List Pair → Walk → Option Walk
  | [], w => some w
  | it :: rest, w =>
    match visit it.2 (copyEdge g it.1 w) with
    | none => none
    | some w1 => walkEdges visit g rest w1

/-- The closure `dfs` of `SubGraph`, with the recursion depth bounded by the
first argument. -/
def dfs (g : StaticCallGraph) (edges : GoMap (List Pair)) : Nat → ID → Walk → Option Walk
  | 0, _, _ => none
  | fuel + 1, source, w =>
    if (ptrAt w.subGraph.Nodes source).isSome then some w
    else walkEdges (dfs g edges fuel) g (outEdges edges source) (markNode g source w)

/-- The last loop of `SubGraph`: `dfs(root)` for every root. -/
def walkRoots (visit : ID → Walk → Option Walk) : List ID → Walk → Option Walk
  | [], w => some w
  | r :: rest, w =>
    match visit r w with
    | none => none
    | some w1 => walkRoots visit rest w1

/-- Go `(*StaticCallGraph).SubGraph` together with the record of expanded
nodes. -/
def SubGraphWalk (fuel : Nat) (g : StaticCallGraph) (rootPred : Option Node → Bool) :
    Option Walk :=
  walkRoots (dfs g (buildEdges g.Edges.entries ∅) fuel) (findRoots g rootPred)
    { subGraph := newGraph, expanded := [] }

/-- Go `(*StaticCallGraph).SubGraph`. -/
def SubGraph (fuel : Nat) (g : StaticCallGraph) (rootPred : Option Node → Bool) :
    Option StaticCallGraph :=
  (SubGraphWalk fuel g rootPred).map Walk.subGraph


/-! ## Dot -/

/-- The text `Dot` writes before the nodes. -/
def dotHeader : String :=
  "\ndigraph callgraph \x7b\n\toutputorder=edgesfirst\n\tgraph[rankdir=LR, center=true]\n" ++
  "\tnode [color=grey, style=filled, fontname=\"Sans serif\", fontsize=13]\n" ++
  "\tedge[arrowsize=0.6, arrowhead=vee, color=gray]\n\n"

/-- The body of the first loop of `Dot` for one entry of `g.Nodes`: the line
written, or the panic. `quote` is the verb `%q` of `fmt.Sprintf`, which is
outside the repository. A nil node fails at `node.Type`, a `NodeFunc` node
whose `Object` is not a `*types.Func` fails at the type assertion, and a
`Type` outside the three constants reaches `panic("unreached")`; the
assertion `f.Type().(*types.Signature)` holds for every `*types.Func`. -/
def dotNode (quote : String → String) (id : ID) (v : Option Node) : Except String String :=
  match v with
  | none => Except.error "nil pointer dereference"
  | some node =>
    if node.Type_ = NodeFunc then
      match node.Object with
      | Object.func f =>
        let color := if f.recv.isNone then "lightblue" else "lightpink"
        Except.ok ("\t" ++ id ++ " [label=" ++ quote node.Label ++ ", fontsize=13, color="
          ++ quote color ++ ", target=\"_top\"]\n")
      | _ => Except.error "interface conversion"
    else if node.Type_ = NodeRecv then
      Except.ok ("\t" ++ id ++ " [label=" ++ quote node.Label ++ ", fontcolor="
        ++ quote "#3182bd" ++ ", target=\"_top\"]\n")
    else if node.Type_ = NodePkg then
      Except.ok ("\t" ++ id ++ " [label=" ++ quote node.Label ++ ", fontcolor="
        ++ quote "#3182bd" ++ ", target=\"_top\"]\n")
    else Except.error "unreached"

/-- The first loop of `Dot`, over the entries of `g.Nodes`; `dot` is the
text written so far. -/
def dotNodes (quote : String → String) :
    List (Sigma fun _ : String => Option Node) → String → Except String String
  | [], dot => Except.ok dot
  | it :: rest, dot =>
    match dotNode quote it.1 it.2 with
    | Except.error e => Except.error e
    | Except.ok line => dotNodes quote rest (dot ++ line)

/-- The second loop of `Dot`, over the entries of `g.Edges`. -/
def dotEdges : List (Sigma fun _ : String => Edge) → String → String
  | [], dot => dot
  | it :: rest, dot => dotEdges rest (dot ++ "\t" ++ it.2.Source ++ " -> " ++ it.2.Target ++ "\n")

/-- Go `(*StaticCallGraph).Dot`: the text, or the panic. -/
def Dot (quote : String → String) (g : StaticCallGraph) : Except String String :=
  match dotNodes quote g.Nodes.entries dotHeader with
  | Except.error e => Except.error e
  | Except.ok dot => Except.ok (dotEdges g.Edges.entries dot ++ "\x7d")

/-! ## The adapter of `ssa.go` -/

/-- Go `type Algo uint64`. -/
abbrev Algo := Nat

/-- Constant `Static Algo = iota`. -/
def Static : Algo := 0

/-- Constant `CHA`. -/
def CHA : Algo := 1

/-- Constant `RTA`. -/
def RTA : Algo := 2

/-- Constant `VTA`. -/
def VTA : Algo := 3

/-- What the code observes of a `*ssa.Function`. -/
structure SSAFunction where
  name : String
deriving DecidableEq, Repr

/-- What the code observes of a `*ssa.Package`: `Pkg.Name()` and the members
that are functions, by name. -/
structure SSAPackage where
  pkgName : String
  funcs : List (String × SSAFunction)
deriving DecidableEq, Repr

/-- Go `(*ssa.Package).Func(name)`: nil when no function has that name. -/
def SSAPackage.Func (p : SSAPackage) (name : String) : Option SSAFunction :=
  p.funcs.lookup name

/-- Go `type SSACallGraph struct`; `Prog` is a value of the external type
`*ssa.Program`, and a package pointer may be nil. -/
structure SSACallGraph (P : Type) where
  Prog : P
  Pkgs : List (Option SSAPackage)
  Mains : List (Option SSAPackage)

/-- The functions of golang.org/x/tools the adapter calls, over the external
types `P` (program), `Fs` (set of functions) and `G` (call graph):
`static.CallGraph`, `cha.CallGraph`, `rta.Analyze`, `vta.CallGraph`,
`ssautil.AllFunctions` and `(*Graph).DeleteSyntheticNodes`. Each of them
returns or panics (`Except.error` with the panic message). `rta.Analyze`
returns a pointer to a result, which may be nil (`none`; x/tools returns nil
when it is given no root); `some cg` is a result whose field `CallGraph` is
`cg`. -/
structure Strategies (P Fs G : Type) where
  staticCallGraph : P → Except String G
  chaCallGraph : P → Except String G
  rtaAnalyze : List (Option SSAFunction) → Bool → Except String (Option G)
  vtaCallGraph : Fs → G → Except String G
  allFunctions : P → Except String Fs
  deleteSyntheticNodes : G → Except String G

/-- The condition of the loop of `mainPackages`. -/
def isMain (p : Option SSAPackage) : Bool :=
  match p with
  | none => false
  | some q => q.pkgName == "main" && (q.Func "main").isSome

/-- Go `(*SSACallGraph).mainPackages`: the loop that appends to `mains`. -/
def mainPackages {P : Type} (c : SSACallGraph P) : List (Option SSAPackage) :=
  c.Pkgs.foldl (fun mains p => if isMain p then mains ++ [p] else mains) []

/-- The loop of the `RTA` case: `roots = append(roots, main.Func("init"),
main.Func("main"))` for every main package; `none` is the nil pointer
dereference at a nil package. -/
def rtaRoots : List (Option SSAPackage) → List (Option SSAFunction) →
    Option (List (Option SSAFunction))
  | [], roots => some roots
  | none :: _, _ => none
  | some m :: rest, roots => rtaRoots rest (roots ++ [m.Func "init", m.Func "main"])

/-- Go `(*SSACallGraph).CallGraph`: the list of the external functions it
has called, in call order (a record of the run), and the graph or the panic
message. A panic of an external function ends the run with its message; the
nil result of `rta.Analyze` is dereferenced by `.CallGraph`. -/
def CallGraph {P Fs G : Type} (s : Strategies P Fs G) (c : SSACallGraph P) (algo : Algo) :
    List String × Except String G :=
  if algo = Static then
    match s.staticCallGraph c.Prog with
    | Except.error e => (["static.CallGraph"], Except.error e)
    | Except.ok cg => (["static.CallGraph", "DeleteSyntheticNodes"], s.deleteSyntheticNodes cg)
  else if algo = CHA then
    match s.chaCallGraph c.Prog with
    | Except.error e => (["cha.CallGraph"], Except.error e)
    | Except.ok cg => (["cha.CallGraph", "DeleteSyntheticNodes"], s.deleteSyntheticNodes cg)
  else if algo = RTA then
    match rtaRoots c.Mains [] with
    | none => ([], Except.error "nil pointer dereference")
    | some roots =>
      match s.rtaAnalyze roots true with
      | Except.error e => (["rta.Analyze"], Except.error e)
      | Except.ok none => (["rta.Analyze"], Except.error "nil pointer dereference")
      | Except.ok (some cg) =>
        (["rta.Analyze", "DeleteSyntheticNodes"], s.deleteSyntheticNodes cg)
  else if algo = VTA then
    match s.allFunctions c.Prog with
    | Except.error e => (["ssautil.AllFunctions"], Except.error e)
    | Except.ok fs =>
      match s.chaCallGraph c.Prog with
      | Except.error e => (["ssautil.AllFunctions", "cha.CallGraph"], Except.error e)
      | Except.ok cha =>
        match s.vtaCallGraph fs cha with
        | Except.error e =>
          (["ssautil.AllFunctions", "cha.CallGraph", "vta.CallGraph"], Except.error e)
        | Except.ok cg =>
          (["ssautil.AllFunctions", "cha.CallGraph", "vta.CallGraph", "DeleteSyntheticNodes"],
            s.deleteSyntheticNodes cg)
  else ([], Except.error "unsupported algo")

/-! ## Specification vocabulary -/

/-- The value of a hexadecimal digit character (`0` for any other character). -/
def hexDigitVal (c : Char) : Nat :=
  ((List.range 16).find? (fun k => Nat.digitChar k = c)).getD 0

/-- The number a list of hexadecimal digit characters denotes, most significant digit first. -/
def hexVal (l : List Char) : Nat :=
  l.foldl (fun acc c => acc * 16 + hexDigitVal c) 0

/-- The prefix `getID` puts before the counter: `"n"` when `isNode`, else `"e"`. -/
def idPrefix (isNode : Bool) : String := if isNode then "n" else "e"

/-- The entries of `idMap`, newest first: the entry added as the `k`-th one
holds a prefix followed by the hexadecimal rendering of `k` modulo `2 ^ 64`. -/
def Numbered : List (Sigma fun _ : String => ID) → Prop
  | [] => True
  | e :: rest => (∃ b : Bool, e.2 = idPrefix b ++ formatUint16 ((rest.length + 1) % 2 ^ 64))
      ∧ Numbered rest

/-- The invariant of the registry: the counter is the number of registered
names modulo `2 ^ 64`, and the ids were handed out in order. -/
def RegInv (g : StaticCallGraph) : Prop :=
  g.idCounter = g.idMap.entries.length % 2 ^ 64 ∧ Numbered g.idMap.entries

/-- The registry key of a function node: `fmt.Sprintf("func ~ %s", x)`. -/
def funcKey (x : String) : String := "func ~ " ++ x

/-- The registry key of a static edge: `fmt.Sprintf("call %s -> %s", x, y)`. -/
def callKey (x y : String) : String := "call " ++ x ++ " -> " ++ y

/-- The invariant of the builder that needs no bound on the registry: the
registry invariant; every key of `Nodes` is the id of a registered name that
is not an edge key (edge keys are the names that start with `c`); every
entry of `Nodes` holds a node; every edge was registered under the key of a
caller and a callee whose function keys map to its `Source` and `Target`;
and the id of every registered function key holds a node. -/
structure BInv (g : StaticCallGraph) : Prop where
  reg : RegInv g
  nodes : ∀ id, id ∈ g.Nodes →
    ∃ name, g.idMap.lookup name = some id ∧ name.data.head? ≠ some 'c'
  nonnil : ∀ id v, g.Nodes.lookup id = some v → v ≠ none
  edges : ∀ id e, g.Edges.lookup id = some e → ∃ x y,
    g.idMap.lookup (callKey x y) = some id ∧ g.idMap.lookup (funcKey x) = some e.Source ∧
    g.idMap.lookup (funcKey y) = some e.Target
  funcs : ∀ x id, g.idMap.lookup (funcKey x) = some id →
    ∃ node, g.Nodes.lookup id = some (some node)

/-- The relation between the graph before and after builder operations:
registered names keep their ids, the registry does not lose entries, keys of
`Nodes` stay keys, and an entry of `Nodes` or `Edges` changes only under the
id of a name that was registered in between. -/
structure Grows (g g1 : StaticCallGraph) : Prop where
  idMap_mono : ∀ n id, g.idMap.lookup n = some id → g1.idMap.lookup n = some id
  length_le : g.idMap.entries.length ≤ g1.idMap.entries.length
  nodes_mem : ∀ id, id ∈ g.Nodes → id ∈ g1.Nodes
  nodes : ∀ id, g1.Nodes.lookup id = g.Nodes.lookup id ∨
    ∃ n, g.idMap.lookup n = none ∧ g1.idMap.lookup n = some id
  edges : ∀ id, g1.Edges.lookup id = g.Edges.lookup id ∨
    ∃ n, g.idMap.lookup n = none ∧ g1.idMap.lookup n = some id

/-- The common shape of `addNode` and `addPkgNode`: with result `r`, either
`key` was registered and the graph is unchanged, or `key` is registered now
and a node satisfying `P`, whose `ID` is the new id, is stored under it. -/
def Registers (g : StaticCallGraph) (key : String) (P : Node → Prop)
    (r : ID × StaticCallGraph) : Prop :=
  (∃ id, g.idMap.lookup key = some id ∧ r = (id, g)) ∨
  (g.idMap.lookup key = none ∧ ∃ node : Node, P node ∧ node.ID = (getID g key true).1.1 ∧
    r = ((getID g key true).1.1,
      { (getID g key true).2 with
        Nodes := (getID g key true).2.Nodes.insert (getID g key true).1.1 (some node) }))

/-- Every registered function key leads to the function node of that name. -/
def FuncNodes (g : StaticCallGraph) : Prop :=
  ∀ x id, g.idMap.lookup (funcKey x) = some id →
    ∃ node, g.Nodes.lookup id = some (some node) ∧ node.ID = id ∧ node.Label = x ∧
      node.Type_ = NodeFunc

/-- Every registered edge key whose caller name has no `'>'` leads to the
edge from the caller's node to the callee's node. -/
def CallEdges (g : StaticCallGraph) : Prop :=
  ∀ x y id, '>' ∉ x.data → g.idMap.lookup (callKey x y) = some id →
    ∃ e, g.Edges.lookup id = some e ∧ e.ID = id ∧ e.Attrs = ["static"] ∧
      g.idMap.lookup (funcKey x) = some e.Source ∧ g.idMap.lookup (funcKey y) = some e.Target

/-- The caller names of the static edges an operation adds contain no `'>'`;
no Go identifier or import path contains that character. -/
def Op.CallerPlain : Op → Prop
  | Op.addStaticEdge a _ => '>' ∉ (funName a).data
  | _ => True

/-- The builder operations the inner callback performs on one call site. -/
def callOps (caller : Func) : List CallSite → List Op
  | [] => []
  | c :: cs =>
    match c.callee with
    | CalleeObj.func callee => Op.addStaticEdge caller callee :: callOps caller cs
    | _ => callOps caller cs

/-- The builder operations the outer callback performs on one declaration. -/
def declOps (flags : StaticFlags) (d : Decl) : List Op :=
  (if flags.ShowOrphanedNode then [Op.addNode d.caller] else []) ++ callOps d.caller d.calls

/-- The builder operations of a whole run of `NewStatic`. -/
def buildOps (flags : StaticFlags) : List Decl → List Op
  | [] => []
  | d :: ds => declOps flags d ++ buildOps flags ds

/-! ## Sample inputs -/

/-- The package of a stand-alone set of files. -/
def samplePkg : Package := { path := "command-line-arguments", name := "main" }

/-- A package-level function `A`. -/
def sampleA : Func :=
  { fullName := "command-line-arguments.A", pkg := some samplePkg, recv := none,
    parentIsNil := true }

/-- A package-level function `B`. -/
def sampleB : Func :=
  { fullName := "command-line-arguments.B", pkg := some samplePkg, recv := none,
    parentIsNil := true }

/-- A receiver variable of type `T`. -/
def sampleRecv : Var :=
  { pkg := some samplePkg, typeString := "command-line-arguments.T", embedded := false,
    isField := false }

/-- No package lies in GOROOT. -/
def noGoroot : String → Bool := fun _ => false

/-! ## Vocabulary for subgraph extraction -/

/-- The node `id` is reachable in `g` from a root: a root is an entry of
`g.Nodes` whose value satisfies `rootPred`, and a step follows an edge of
`g.Edges` from its `Source` to its `Target`. -/
inductive Reach (g : StaticCallGraph) (rootPred : Option Node → Bool) : ID → Prop where
  | root (id : ID) (v : Option Node) (h : g.Nodes.lookup id = some v) (hp : rootPred v = true) :
      Reach g rootPred id
  | step (eid : ID) (e : Edge) (hr : Reach g rootPred e.Source)
      (he : g.Edges.lookup eid = some e) : Reach g rootPred e.Target

/-- The edge `eid` lies on a path from a root: it is an edge of `g` whose
`Source` is reachable. -/
def OnPath (g : StaticCallGraph) (rootPred : Option Node → Bool) (eid : ID) : Prop :=
  ∃ e, g.Edges.lookup eid = some e ∧ Reach g rootPred e.Source

/-- Every entry of `Nodes` holds a node, and the `Target` of every edge is a
key of `Nodes` (holding a node). -/
def TargetsExist (g : StaticCallGraph) : Prop :=
  (∀ it ∈ g.Nodes.entries, it.2.isSome = true) ∧
  (∀ it ∈ g.Edges.entries, (ptrAt g.Nodes it.2.Target).isSome = true)

/-- All outgoing edges of `n` in `g` are in the subgraph of `w`, with their
targets. -/
def Done (g : StaticCallGraph) (w : Walk) (n : ID) : Prop :=
  ∀ eid e, g.Edges.lookup eid = some e → e.Source = n →
    eid ∈ w.subGraph.Edges ∧ e.Target ∈ w.subGraph.Nodes

/-- The subgraph of `w1` contains the keys of the subgraph of `w`. -/
def Extends (w w1 : Walk) : Prop :=
  (∀ id, id ∈ w.subGraph.Nodes → id ∈ w1.subGraph.Nodes) ∧
  (∀ eid, eid ∈ w.subGraph.Edges → eid ∈ w1.subGraph.Edges)

/-- The invariant of the traversal of `g`: the subgraph holds nodes and edges
of `g`, under their ids, each node key is reachable and each edge key lies on
a path from a root, and the expanded nodes are the keys of the nodes, each
expanded once. -/
structure WInv (g : StaticCallGraph) (rootPred : Option Node → Bool) (w : Walk) : Prop where
  nodes_val : ∀ id v, w.subGraph.Nodes.lookup id = some v →
    v.isSome = true ∧ g.Nodes.lookup id = some v
  edges_val : ∀ eid e, w.subGraph.Edges.lookup eid = some e → g.Edges.lookup eid = some e
  sound_nodes : ∀ id, id ∈ w.subGraph.Nodes → Reach g rootPred id
  sound_edges : ∀ eid, eid ∈ w.subGraph.Edges → OnPath g rootPred eid
  expanded_iff : ∀ id, id ∈ w.expanded ↔ id ∈ w.subGraph.Nodes
  expanded_nodup : w.expanded.Nodup

/-- What a call `dfs(source)` from state `w` establishes in its final state
`w1`. -/
structure DfsPost (g : StaticCallGraph) (rootPred : Option Node → Bool) (source : ID)
    (w w1 : Walk) : Prop where
  inv : WInv g rootPred w1
  ext : Extends w w1
  mem : source ∈ w1.subGraph.Nodes
  done : ∀ n, n ∈ w1.subGraph.Nodes → n ∉ w.subGraph.Nodes → Done g w1 n

/-- The keys of `g.Nodes` that are not yet keys of the subgraph of `w`. -/
def unvisited (g : StaticCallGraph) (w : Walk) : Finset ID :=
  g.Nodes.keys.toFinset.filter (fun k => k ∉ w.subGraph.Nodes)

/-- The root predicate that selects the node labelled `s`. -/
def labelIs (s : String) : Option Node → Bool
  | some n => n.Label == s
  | none => false

instance (g : StaticCallGraph) : Decidable (TargetsExist g) := by
  unfold TargetsExist
  infer_instance

/-- A function node for `f` under the id `id`, as a client may build it. -/
def sampleNode (id : ID) (f : Func) : Node :=
  { ID := id, PID := "", Label := funName f, Desc := "", Attrs := [], Type_ := NodeFunc,
    Object := Object.func f }

/-- The graph of the mutual recursion of `A` and `B`, as the builder makes
it: nodes `n2` (`A`) and `n3` (`B`), edges `n1` (`A` to `B`) and `n4` (`B`
to `A`). -/
def mutualAB : StaticCallGraph :=
  runOps noGoroot [Op.addStaticEdge sampleA sampleB, Op.addStaticEdge sampleB sampleA] newGraph

/-- A graph with one node `A`, an edge from `A` to the id `X`, which is not
a key of `Nodes`, and an edge from `X` to `X`. -/
def danglingLoop : StaticCallGraph :=
  { idCounter := 0, idMap := ∅,
    Nodes := (∅ : GoMap (Option Node)).insert "A" (some (sampleNode "A" sampleA)),
    Edges := ((∅ : GoMap Edge).insert "e1" (Edge.mk "e1" "A" "X" [])).insert "e2"
      (Edge.mk "e2" "X" "X" []) }

/-- A graph with one node `A`, an edge from `A` to `X`, and edges from `X`
to `Y` and from `Y` to `X`, where `X` and `Y` are not keys of `Nodes`. -/
def danglingCycle : StaticCallGraph :=
  { idCounter := 0, idMap := ∅,
    Nodes := (∅ : GoMap (Option Node)).insert "A" (some (sampleNode "A" sampleA)),
    Edges := (((∅ : GoMap Edge).insert "e1" (Edge.mk "e1" "A" "X" [])).insert "e2"
      (Edge.mk "e2" "X" "Y" [])).insert "e3" (Edge.mk "e3" "Y" "X" []) }

/-- A graph with one node `A` and two edges from `A` to `X`, which is not a
key of `Nodes`. -/
def danglingTwice : StaticCallGraph :=
  { idCounter := 0, idMap := ∅,
    Nodes := (∅ : GoMap (Option Node)).insert "A" (some (sampleNode "A" sampleA)),
    Edges := ((∅ : GoMap Edge).insert "e1" (Edge.mk "e1" "A" "X" [])).insert "e2"
      (Edge.mk "e2" "A" "X" []) }

/-! ## Vocabulary for the properties of `NewStatic`, `Dot` and `funName` -/

/-- The call sites whose callee object is not nil. -/
def resolvedCalls (cs : List CallSite) : List CallSite :=
  cs.filter (fun c => decide (c.callee ≠ CalleeObj.nil))

/-- The declaration without its call sites of nil callee object. -/
def dropUnresolved (d : Decl) : Decl :=
  { d with calls := resolvedCalls d.calls }

/-- The lines `errLog` writes for the call sites of nil callee object, one
per such call site, in match order. -/
def callDiagnostics : List CallSite → List String
  | [] => []
  | c :: cs =>
    if c.callee = CalleeObj.nil then ("empty callee object: " ++ c.shown) :: callDiagnostics cs
    else callDiagnostics cs

/-- The diagnostics of all matched declarations, in match order. -/
def declDiagnostics : List Decl → List String
  | [] => []
  | d :: ds => callDiagnostics d.calls ++ declDiagnostics ds

/-- The node's `Object` is of the variant its `Type` names. -/
def KindMatches (node : Node) : Prop :=
  (node.Type_ = NodeFunc ∧ ∃ f, node.Object = Object.func f) ∨
  (node.Type_ = NodeRecv ∧ ∃ v, node.Object = Object.var v) ∨
  (node.Type_ = NodePkg ∧ ∃ p, node.Object = Object.pkg p)

/-- Every entry of `Nodes` holds a node whose kind matches its symbol. -/
def Kinds (g : StaticCallGraph) : Prop :=
  ∀ id v, g.Nodes.lookup id = some v → ∃ node, v = some node ∧ KindMatches node

/-- Every key of `Nodes` is the `Source` or the `Target` of an edge. -/
def Incident (g : StaticCallGraph) : Prop :=
  ∀ id, id ∈ g.Nodes → ∃ eid e, g.Edges.lookup eid = some e ∧ (e.Source = id ∨ e.Target = id)

/-- The operation is an `addStaticEdge`. -/
def Op.IsEdge : Op → Prop
  | Op.addStaticEdge _ _ => True
  | _ => False

/-- The value is none of the four constants of `Algo`. -/
def Unsupported (algo : Algo) : Prop :=
  algo ≠ Static ∧ algo ≠ CHA ∧ algo ≠ RTA ∧ algo ≠ VTA

/-- No external function panics with the message `msg`. -/
def Strategies.Avoids {P Fs G : Type} (s : Strategies P Fs G) (msg : String) : Prop :=
  (∀ p, s.staticCallGraph p ≠ Except.error msg) ∧
  (∀ p, s.chaCallGraph p ≠ Except.error msg) ∧
  (∀ roots b, s.rtaAnalyze roots b ≠ Except.error msg) ∧
  (∀ fs cg, s.vtaCallGraph fs cg ≠ Except.error msg) ∧
  (∀ p, s.allFunctions p ≠ Except.error msg) ∧
  (∀ cg, s.deleteSyntheticNodes cg ≠ Except.error msg)

/-- The placeholder qualifier that `funName` removes. -/
def placeholder : String := "command-line-arguments."

/-- The list `pat` occurs in the list `l` as a block of consecutive
characters. -/
def occursIn (pat : List Char) : List Char → Bool
  | [] => pat.isEmpty
  | c :: cs => pat.isPrefixOf (c :: cs) || occursIn pat cs

/-- The string contains an occurrence of the placeholder qualifier. -/
def HasPlaceholder (s : String) : Prop :=
  occursIn placeholder.data s.data = true

/-- The characters of the placeholder qualifier before its final dot. -/
def placeholderStem : String := "command-line-arguments"

/-- Every occurrence of `pat` in the list stands at its front or follows a
character that is not in `excl`; `prev` is the character before the list,
if there is one. -/
def guardedFrom (pat excl : List Char) : Option Char → List Char → Bool
  | _, [] => true
  | prev, c :: cs =>
    (!(pat.isPrefixOf (c :: cs)) ||
      (match prev with
        | none => true
        | some d => !(decide (d ∈ excl)))) &&
    guardedFrom pat excl (some c) cs

/-- Every occurrence of the placeholder qualifier in the string stands at
its front or follows a character that does not occur in
`command-line-arguments` (such as `(`, `*`, `[`, `,`, `/` or `.`). -/
def Guarded (s : String) : Prop :=
  guardedFrom placeholder.data placeholderStem.data none s.data = true

/-- A method `M` with a pointer receiver of type `T`. -/
def samplePtrMethod : Func :=
  { fullName := "(*command-line-arguments.T).M", pkg := some samplePkg,
    recv := some { sampleRecv with typeString := "*command-line-arguments.T" },
    parentIsNil := true }

/-- A function of the package `command-line-command-line-arguments.arguments`. -/
def sampleNested : Func :=
  { fullName := "command-line-command-line-arguments.arguments.A",
    pkg := some { path := "command-line-command-line-arguments.arguments", name := "arguments" },
    recv := none, parentIsNil := true }

/-- A graph state that holds a node under the id `n1` while its registry is
empty and its counter is 0. -/
def strayNode : StaticCallGraph :=
  { idCounter := 0, idMap := ∅,
    Nodes := (∅ : GoMap (Option Node)).insert "n1" (some (sampleNode "n1" sampleB)),
    Edges := ∅ }

/-- The verb `%q` on strings without a character to escape. -/
def plainQuote (s : String) : String := "\"" ++ s ++ "\""

/-- A `main` package with the functions `init` and `main`. -/
def sampleMain : SSAPackage :=
  { pkgName := "main", funcs := [("init", { name := "init" }), ("main", { name := "main" })] }

/-- A package named `main` without a function `main`. -/
def sampleNoEntry : SSAPackage :=
  { pkgName := "main", funcs := [("init", { name := "init" })] }

/-- A library package with a function `main`. -/
def sampleLib : SSAPackage :=
  { pkgName := "lib", funcs := [("main", { name := "main" })] }

/-- Strategies over graphs that are lists of edge labels, each returning a
graph that names it; as in x/tools, `rta.Analyze` returns nil when it is
given no root, and it panics on a nil root. -/
def sampleStrategies : Strategies Unit Unit (List String) :=
  { staticCallGraph := fun _ => Except.ok ["static"],
    chaCallGraph := fun _ => Except.ok ["cha"],
    rtaAnalyze := fun roots _ =>
      if roots.isEmpty then Except.ok none
      else if roots.any Option.isNone then Except.error "nil pointer dereference"
      else Except.ok (some ("rta" :: roots.map (fun r => (r.map (fun f => f.name)).getD "nil"))),
    vtaCallGraph := fun _ g => Except.ok ("vta" :: g),
    allFunctions := fun _ => Except.ok (),
    deleteSyntheticNodes := fun g => Except.ok (g.filter (fun s => s != "synthetic")) }

/-- A call graph adapter without main packages (a library). -/
def sampleNoMains : SSACallGraph Unit :=
  { Prog := (), Pkgs := [some sampleLib], Mains := [] }

/-- A call graph adapter with one main package. -/
def sampleOneMain : SSACallGraph Unit :=
  { Prog := (), Pkgs := [some sampleMain, some sampleLib], Mains := [some sampleMain] }


/-! ## The identity registry -/

theorem getID_of_lookup_some {g : StaticCallGraph} {name : String} {id : ID} (b : Bool)
    (h : g.idMap.lookup name = some id) : getID g name b = ((id, false), g) := by
  simp [getID, h]

theorem getID_lookup_self (g : StaticCallGraph) (name : String) (b : Bool) :
    (getID g name b).2.idMap.lookup name = some (getID g name b).1.1 := by
  unfold getID
  cases h : g.idMap.lookup name with
  | some id => simpa using h
  | none => simp

theorem getID_lookup_mono (g : StaticCallGraph) (name : String) (b : Bool) {n : String} {id : ID}
    (h : g.idMap.lookup n = some id) : (getID g name b).2.idMap.lookup n = some id := by
  unfold getID
  cases h1 : g.idMap.lookup name with
  | some id1 => simpa using h
  | none =>
    have hne : n ≠ name := by
      rintro rfl
      rw [h1] at h
      exact absurd h (by simp)
    simp [AList.lookup_insert_ne hne, h]

/-! ## Hexadecimal rendering -/

theorem hexDigitVal_digitChar : ∀ k, k < 16 → hexDigitVal (Nat.digitChar k) = k := by
  decide

theorem hexVal_append_singleton (l : List Char) (c : Char) :
    hexVal (l ++ [c]) = hexVal l * 16 + hexDigitVal c := by
  simp [hexVal, List.foldl_append]

theorem toDigitsCore_spec (fuel : Nat) : ∀ (n : Nat) (ds : List Char), n < fuel →
    ∃ l, Nat.toDigitsCore 16 fuel n ds = l ++ ds ∧ hexVal l = n := by
  induction fuel with
  | zero => intro n ds h; omega
  | succ fuel ih =>
    intro n ds h
    simp only [Nat.toDigitsCore]
    split
    · rename_i h0
      refine ⟨[Nat.digitChar (n % 16)], by simp, ?_⟩
      have : hexVal [Nat.digitChar (n % 16)] = hexDigitVal (Nat.digitChar (n % 16)) := by
        simp [hexVal]
      rw [this, hexDigitVal_digitChar _ (Nat.mod_lt _ (by decide))]
      omega
    · rename_i h0
      have hlt : n / 16 < fuel := by omega
      obtain ⟨l, hl, hv⟩ := ih (n / 16) (Nat.digitChar (n % 16) :: ds) hlt
      refine ⟨l ++ [Nat.digitChar (n % 16)], by simp [hl], ?_⟩
      rw [hexVal_append_singleton, hv, hexDigitVal_digitChar _ (Nat.mod_lt _ (by decide))]
      omega

theorem hexVal_toDigits (n : Nat) : hexVal (Nat.toDigits 16 n) = n := by
  obtain ⟨l, hl, hv⟩ := toDigitsCore_spec (n + 1) n [] (Nat.lt_succ_self n)
  simp only [Nat.toDigits, hl, List.append_nil, hv]

theorem formatUint16_injective {a b : Nat} (h : formatUint16 a = formatUint16 b) : a = b := by
  have h1 : Nat.toDigits 16 a = Nat.toDigits 16 b := by
    simpa [formatUint16] using congrArg String.data h
  have := congrArg hexVal h1
  simpa [hexVal_toDigits] using this

theorem prefixed_id_injective {p q : Bool} {a b : Nat}
    (h : idPrefix p ++ formatUint16 a = idPrefix q ++ formatUint16 b) : a = b := by
  have hd := congrArg String.data h
  simp only [String.data_append] at hd
  have hp : ∀ r : Bool, ∃ c, (idPrefix r).data = [c] := by
    intro r; cases r <;> exact ⟨_, rfl⟩
  obtain ⟨c1, h1⟩ := hp p
  obtain ⟨c2, h2⟩ := hp q
  rw [h1, h2] at hd
  simp only [List.singleton_append, List.cons.injEq] at hd
  exact formatUint16_injective (String.ext hd.2)


/-! ## The registry invariant -/

theorem regInv_newGraph : RegInv newGraph := by
  simp [RegInv, newGraph, Numbered]

theorem entries_insert_of_lookup_none {V : Type} (m : GoMap V) (k : String) (v : V)
    (h : m.lookup k = none) : (m.insert k v).entries = ⟨k, v⟩ :: m.entries := by
  exact AList.insert_entries_of_neg (AList.lookup_eq_none.mp h)

theorem regInv_getID (g : StaticCallGraph) (name : String) (b : Bool) (h : RegInv g) :
    RegInv (getID g name b).2 := by
  unfold getID
  cases h1 : g.idMap.lookup name with
  | some id => simpa using h
  | none =>
    obtain ⟨hc, hn⟩ := h
    dsimp only [RegInv]
    rw [entries_insert_of_lookup_none _ _ _ h1]
    simp only [List.length_cons, Numbered]
    refine ⟨?_, ⟨b, ?_⟩, hn⟩
    · rw [hc]; simp [Nat.add_mod]
    · rw [hc]; cases b <;> simp [idPrefix, Nat.add_mod]

theorem numbered_bound : ∀ (l : List (Sigma fun _ : String => ID)), Numbered l →
    l.length < 2 ^ 64 → ∀ e ∈ l, ∃ (b : Bool) (k : Nat), k < l.length ∧
      e.2 = idPrefix b ++ formatUint16 (k + 1) := by
  intro l
  induction l with
  | nil => intro _ _ e he; simp at he
  | cons x rest ih =>
    intro hn hlen e he
    simp only [Numbered] at hn
    simp only [List.length_cons] at hlen
    rcases List.mem_cons.mp he with rfl | hmem
    · obtain ⟨b, hb⟩ := hn.1
      refine ⟨b, rest.length, by simp, ?_⟩
      rw [hb, Nat.mod_eq_of_lt hlen]
    · obtain ⟨b, k, hk, hid⟩ := ih hn.2 (by omega) e hmem
      exact ⟨b, k, by simp; omega, hid⟩

theorem numbered_injective : ∀ (l : List (Sigma fun _ : String => ID)), Numbered l →
    l.length < 2 ^ 64 → ∀ e1 ∈ l, ∀ e2 ∈ l, e1.2 = e2.2 → e1 = e2 := by
  intro l
  induction l with
  | nil => intro _ _ e he; simp at he
  | cons x rest ih =>
    intro hn hlen e1 h1 e2 h2 heq
    have hn0 := hn
    simp only [Numbered] at hn
    simp only [List.length_cons] at hlen
    obtain ⟨b, hb⟩ := hn.1
    rw [Nat.mod_eq_of_lt hlen] at hb
    have hrest : ∀ e ∈ rest, e.2 ≠ x.2 := by
      intro e he hex
      obtain ⟨b2, k, hk, hid⟩ := numbered_bound rest hn.2 (by omega) e he
      rw [hid, hb] at hex
      have := prefixed_id_injective hex
      omega
    rcases List.mem_cons.mp h1 with rfl | m1 <;> rcases List.mem_cons.mp h2 with rfl | m2
    · rfl
    · exact absurd heq.symm (hrest e2 m2)
    · exact absurd heq (hrest e1 m1)
    · exact ih hn.2 (by omega) e1 m1 e2 m2 heq

theorem lookup_mem_entries {V : Type} {m : GoMap V} {k : String} {v : V}
    (h : m.lookup k = some v) : (⟨k, v⟩ : Sigma fun _ : String => V) ∈ m.entries :=
  AList.mem_lookup_iff.mp h

/-- Under the invariant, a registry of fewer than `2 ^ 64` names maps
distinct names to distinct ids. -/
theorem regInv_injective {g : StaticCallGraph} (h : RegInv g)
    (hlen : g.idMap.entries.length < 2 ^ 64) {a b : String} {ia ib : ID}
    (ha : g.idMap.lookup a = some ia) (hb : g.idMap.lookup b = some ib) (hid : ia = ib) :
    a = b := by
  have := numbered_injective _ h.2 hlen _ (lookup_mem_entries ha) _ (lookup_mem_entries hb) hid
  exact congrArg Sigma.fst this

theorem regInv_runGetID (calls : List (String × Bool)) : ∀ g, RegInv g →
    RegInv (runGetID calls g) := by
  induction calls with
  | nil => intro g h; simpa [runGetID] using h
  | cons c cs ih =>
    intro g h
    simp only [runGetID, List.foldl_cons]
    exact ih _ (regInv_getID g c.1 c.2 h)

theorem runGetID_lookup_mono (calls : List (String × Bool)) : ∀ (g : StaticCallGraph)
    {n : String} {id : ID}, g.idMap.lookup n = some id →
    (runGetID calls g).idMap.lookup n = some id := by
  induction calls with
  | nil => intro g n id h; simpa [runGetID] using h
  | cons c cs ih =>
    intro g n id h
    simp only [runGetID, List.foldl_cons]
    exact ih _ (getID_lookup_mono g c.1 c.2 h)

theorem getIDs_registered (calls : List (String × Bool)) : ∀ (g : StaticCallGraph),
    ∀ p ∈ List.zip calls (getIDs calls g), (runGetID calls g).idMap.lookup p.1.1 = some p.2 := by
  induction calls with
  | nil => intro g p hp; simp [getIDs] at hp
  | cons c cs ih =>
    intro g p hp
    simp only [getIDs, List.zip_cons_cons, List.mem_cons] at hp
    simp only [runGetID, List.foldl_cons]
    rcases hp with rfl | hp
    · exact runGetID_lookup_mono cs _ (getID_lookup_self g c.1 c.2)
    · exact ih _ p hp


/-! ## Registry keys -/

theorem string_append_left_cancel {s x y : String} (h : s ++ x = s ++ y) : x = y := by
  have hd := congrArg String.data h
  simp only [String.data_append] at hd
  exact String.ext (List.append_cancel_left hd)

theorem funcKey_injective {x y : String} (h : funcKey x = funcKey y) : x = y :=
  string_append_left_cancel h

theorem funcKey_head (x : String) : (funcKey x).data.head? = some 'f' := by
  simp [funcKey, String.data_append]

theorem callKey_head (x y : String) : (callKey x y).data.head? = some 'c' := by
  simp [callKey, String.data_append]

theorem pkgKey_head (x : String) : ("pkg ~ " ++ x).data.head? = some 'p' := by
  simp [String.data_append]

theorem recvKey_head (x y : String) : ("recv ~ " ++ x ++ " ~ " ++ y).data.head? = some 'r' := by
  simp [String.data_append]

theorem funcKey_ne_callKey (x a b : String) : funcKey x ≠ callKey a b := by
  intro h
  have := congrArg (fun s : String => s.data.head?) h
  simp [funcKey_head, callKey_head] at this

/-! ## Effect of `getID` on the graph -/

theorem getID_nodes (g : StaticCallGraph) (n : String) (b : Bool) :
    (getID g n b).2.Nodes = g.Nodes := by
  unfold getID
  cases g.idMap.lookup n <;> rfl

theorem getID_edges (g : StaticCallGraph) (n : String) (b : Bool) :
    (getID g n b).2.Edges = g.Edges := by
  unfold getID
  cases g.idMap.lookup n <;> rfl

theorem getID_old {g : StaticCallGraph} {n : String} {b : Bool}
    (h : (getID g n b).1.2 = false) : (getID g n b).2 = g := by
  unfold getID at h ⊢
  cases h1 : g.idMap.lookup n with
  | some id => rfl
  | none => simp [h1] at h

theorem getID_new {g : StaticCallGraph} {n : String} {b : Bool}
    (h : ¬ (getID g n b).1.2 = false) : g.idMap.lookup n = none := by
  unfold getID at h
  cases h1 : g.idMap.lookup n with
  | some id => simp [h1] at h
  | none => rfl

theorem getID_lookup_ne (g : StaticCallGraph) (n : String) (b : Bool) {m : String}
    (h : m ≠ n) : (getID g n b).2.idMap.lookup m = g.idMap.lookup m := by
  unfold getID
  cases h1 : g.idMap.lookup n with
  | some id => rfl
  | none => simp [AList.lookup_insert_ne h]

theorem getID_length (g : StaticCallGraph) (n : String) (b : Bool) :
    g.idMap.entries.length ≤ (getID g n b).2.idMap.entries.length := by
  unfold getID
  cases h1 : g.idMap.lookup n with
  | some id => exact le_refl _
  | none =>
    dsimp only
    rw [entries_insert_of_lookup_none _ _ _ h1]
    simp

theorem mem_insert_self {V : Type} (m : GoMap V) (k : String) (v : V) : k ∈ m.insert k v :=
  (AList.mem_insert m).mpr (Or.inl rfl)

theorem mem_insert_of_mem {V : Type} {m : GoMap V} {k : String} (k1 : String) (v : V)
    (h : k ∈ m) : k ∈ m.insert k1 v :=
  (AList.mem_insert m).mpr (Or.inr h)

theorem mem_of_lookup {V : Type} {m : GoMap V} {k : String} {v : V}
    (h : m.lookup k = some v) : k ∈ m := by
  by_contra hk
  rw [AList.lookup_eq_none.mpr hk] at h
  exact absurd h (by simp)

theorem lookup_insert_cases {V : Type} (m : GoMap V) (k : String) (v : V) (k1 : String) :
    (k1 = k ∧ (m.insert k v).lookup k1 = some v) ∨
    (k1 ≠ k ∧ (m.insert k v).lookup k1 = m.lookup k1) := by
  by_cases h : k1 = k
  · subst h; exact Or.inl ⟨rfl, AList.lookup_insert m⟩
  · exact Or.inr ⟨h, AList.lookup_insert_ne h⟩

/-! ## The builder invariant -/

theorem binv_newGraph : BInv newGraph where
  reg := regInv_newGraph
  nodes := by intro id h; exact absurd h (by simp [newGraph])
  nonnil := by intro id v h; simp [newGraph] at h
  edges := by intro id e h; simp [newGraph] at h
  funcs := by intro x id h; simp [newGraph] at h

/-- Registering a name that is not a function key keeps the invariant. -/
theorem binv_getID {g : StaticCallGraph} (h : BInv g) (n : String) (b : Bool)
    (hn : ∀ x, n ≠ funcKey x) : BInv (getID g n b).2 where
  reg := regInv_getID g n b h.reg
  nodes := by
    intro id hid
    rw [getID_nodes] at hid
    obtain ⟨name, h1, h2⟩ := h.nodes id hid
    exact ⟨name, getID_lookup_mono g n b h1, h2⟩
  nonnil := by rw [getID_nodes]; exact h.nonnil
  edges := by
    intro id e he
    rw [getID_edges] at he
    obtain ⟨x, y, h1, h2, h3⟩ := h.edges id e he
    exact ⟨x, y, getID_lookup_mono g n b h1, getID_lookup_mono g n b h2,
      getID_lookup_mono g n b h3⟩
  funcs := by
    intro x id hx
    rw [getID_lookup_ne g n b (hn x).symm] at hx
    rw [getID_nodes]
    exact h.funcs x id hx

/-- Storing a node under the id of a registered name that is not an edge
key keeps the invariant. -/
theorem binv_insert_node {g : StaticCallGraph} (h : BInv g) {n : String} {id : ID}
    (hreg : g.idMap.lookup n = some id) (hn : n.data.head? ≠ some 'c') (node : Node) :
    BInv { g with Nodes := g.Nodes.insert id (some node) } where
  reg := h.reg
  nodes := by
    intro id1 hid
    rcases (AList.mem_insert _).mp hid with rfl | hmem
    · exact ⟨n, hreg, hn⟩
    · exact h.nodes id1 hmem
  nonnil := by
    intro id1 v hv
    rcases lookup_insert_cases g.Nodes id (some node) id1 with ⟨_, h1⟩ | ⟨_, h1⟩
    · dsimp only at hv
      rw [h1] at hv
      cases hv
      simp
    · dsimp only at hv
      rw [h1] at hv
      exact h.nonnil id1 v hv
  edges := h.edges
  funcs := by
    intro x id1 hx
    obtain ⟨nd, hnd⟩ := h.funcs x id1 hx
    rcases lookup_insert_cases g.Nodes id (some node) id1 with ⟨_, h1⟩ | ⟨_, h1⟩
    · exact ⟨node, h1⟩
    · exact ⟨nd, by dsimp only; rw [h1]; exact hnd⟩


/-! ## Growth of the graph -/

theorem Grows.same (g : StaticCallGraph) : Grows g g where
  idMap_mono := fun _ _ h => h
  length_le := le_refl _
  nodes_mem := fun _ h => h
  nodes := fun _ => Or.inl rfl
  edges := fun _ => Or.inl rfl

theorem lookup_none_of_mono {g g1 : StaticCallGraph}
    (hm : ∀ n id, g.idMap.lookup n = some id → g1.idMap.lookup n = some id)
    {n : String} (h : g1.idMap.lookup n = none) : g.idMap.lookup n = none := by
  cases h1 : g.idMap.lookup n with
  | none => rfl
  | some id => rw [hm n id h1] at h; exact absurd h (by simp)

theorem Grows.andThen {g g1 g2 : StaticCallGraph} (h1 : Grows g g1) (h2 : Grows g1 g2) :
    Grows g g2 where
  idMap_mono := fun n id h => h2.idMap_mono n id (h1.idMap_mono n id h)
  length_le := le_trans h1.length_le h2.length_le
  nodes_mem := fun id h => h2.nodes_mem id (h1.nodes_mem id h)
  nodes := by
    intro id
    rcases h2.nodes id with e2 | ⟨n, hn, hn2⟩
    · rcases h1.nodes id with e1 | ⟨n, hn, hn1⟩
      · exact Or.inl (e2.trans e1)
      · exact Or.inr ⟨n, hn, h2.idMap_mono n id hn1⟩
    · exact Or.inr ⟨n, lookup_none_of_mono h1.idMap_mono hn, hn2⟩
  edges := by
    intro id
    rcases h2.edges id with e2 | ⟨n, hn, hn2⟩
    · rcases h1.edges id with e1 | ⟨n, hn, hn1⟩
      · exact Or.inl (e2.trans e1)
      · exact Or.inr ⟨n, hn, h2.idMap_mono n id hn1⟩
    · exact Or.inr ⟨n, lookup_none_of_mono h1.idMap_mono hn, hn2⟩

theorem grows_getID (g : StaticCallGraph) (n : String) (b : Bool) : Grows g (getID g n b).2 where
  idMap_mono := fun _ _ h => getID_lookup_mono g n b h
  length_le := getID_length g n b
  nodes_mem := by rw [getID_nodes]; exact fun _ h => h
  nodes := by rw [getID_nodes]; exact fun _ => Or.inl rfl
  edges := by rw [getID_edges]; exact fun _ => Or.inl rfl

/-- Storing a node under the id a fresh name has just received. -/
theorem grows_register_node (g : StaticCallGraph) (n : String) (b : Bool)
    (hnew : g.idMap.lookup n = none) (node : Node) :
    Grows g { (getID g n b).2 with
      Nodes := (getID g n b).2.Nodes.insert (getID g n b).1.1 (some node) } where
  idMap_mono := fun _ _ h => getID_lookup_mono g n b h
  length_le := getID_length g n b
  nodes_mem := by
    intro id h
    rw [getID_nodes]
    exact mem_insert_of_mem _ _ h
  nodes := by
    intro id
    rw [getID_nodes]
    rcases lookup_insert_cases g.Nodes (getID g n b).1.1 (some node) id with ⟨h1, _⟩ | ⟨_, h2⟩
    · exact Or.inr ⟨n, hnew, by rw [h1]; exact getID_lookup_self g n b⟩
    · exact Or.inl h2
  edges := by rw [getID_edges]; exact fun _ => Or.inl rfl

theorem binv_register_node {g : StaticCallGraph} (h : BInv g) (n : String) (b : Bool)
    (hn : n.data.head? ≠ some 'c') (node : Node) :
    BInv { (getID g n b).2 with
      Nodes := (getID g n b).2.Nodes.insert (getID g n b).1.1 (some node) } where
  reg := regInv_getID g n b h.reg
  nodes := by
    intro id hid
    rw [getID_nodes] at hid
    rcases (AList.mem_insert _).mp hid with rfl | hmem
    · exact ⟨n, getID_lookup_self g n b, hn⟩
    · obtain ⟨name, h1, h2⟩ := h.nodes id hmem
      exact ⟨name, getID_lookup_mono g n b h1, h2⟩
  nonnil := by
    intro id v hv
    rw [getID_nodes] at hv
    rcases lookup_insert_cases g.Nodes (getID g n b).1.1 (some node) id with ⟨_, h1⟩ | ⟨_, h1⟩
    · dsimp only at hv
      rw [h1] at hv
      cases hv
      simp
    · dsimp only at hv
      rw [h1] at hv
      exact h.nonnil id v hv
  edges := by
    intro id e he
    rw [getID_edges] at he
    obtain ⟨x, y, h1, h2, h3⟩ := h.edges id e he
    exact ⟨x, y, getID_lookup_mono g n b h1, getID_lookup_mono g n b h2,
      getID_lookup_mono g n b h3⟩
  funcs := by
    intro x id hx
    rw [getID_nodes]
    rcases lookup_insert_cases g.Nodes (getID g n b).1.1 (some node) id with ⟨_, h1⟩ | ⟨hne, h1⟩
    · exact ⟨node, h1⟩
    · dsimp only
      rw [h1]
      by_cases hk : funcKey x = n
      · subst hk
        rw [getID_lookup_self] at hx
        exact absurd (Option.some.inj hx).symm hne
      · rw [getID_lookup_ne g n b hk] at hx
        exact h.funcs x id hx

/-! ## Operations that register one node -/

theorem Registers.registered {g : StaticCallGraph} {key : String} {P : Node → Prop}
    {r : ID × StaticCallGraph} (h : Registers g key P r) : r.2.idMap.lookup key = some r.1 := by
  rcases h with ⟨id, h1, h2⟩ | ⟨_, node, _, _, h2⟩
  · rw [h2]; exact h1
  · rw [h2]; exact getID_lookup_self g _ true

theorem Registers.lookup_ne {g : StaticCallGraph} {key : String} {P : Node → Prop}
    {r : ID × StaticCallGraph} (h : Registers g key P r) {m : String} (hm : m ≠ key) :
    r.2.idMap.lookup m = g.idMap.lookup m := by
  rcases h with ⟨id, h1, h2⟩ | ⟨_, node, _, _, h2⟩
  · rw [h2]
  · rw [h2]; exact getID_lookup_ne g _ true hm

theorem Registers.grows {g : StaticCallGraph} {key : String} {P : Node → Prop}
    {r : ID × StaticCallGraph} (h : Registers g key P r) : Grows g r.2 := by
  rcases h with ⟨id, h1, h2⟩ | ⟨hnew, node, _, _, h2⟩
  · rw [h2]; exact Grows.same g
  · rw [h2]; exact grows_register_node g _ true hnew node

theorem Registers.binv {g : StaticCallGraph} {key : String} {P : Node → Prop}
    {r : ID × StaticCallGraph} (h : Registers g key P r) (hg : BInv g)
    (hk : key.data.head? ≠ some 'c') : BInv r.2 := by
  rcases h with ⟨id, h1, h2⟩ | ⟨hnew, node, _, _, h2⟩
  · rw [h2]; exact hg
  · rw [h2]; exact binv_register_node hg _ true hk node

theorem Registers.edges {g : StaticCallGraph} {key : String} {P : Node → Prop}
    {r : ID × StaticCallGraph} (h : Registers g key P r) : r.2.Edges = g.Edges := by
  rcases h with ⟨id, h1, h2⟩ | ⟨hnew, node, _, _, h2⟩
  · rw [h2]
  · rw [h2]; exact getID_edges g _ true

/-- The node stored under the id that the operation returns, when the key
was not registered before. -/
theorem Registers.node_of_new {g : StaticCallGraph} {key : String} {P : Node → Prop}
    {r : ID × StaticCallGraph} (h : Registers g key P r) (hnew : g.idMap.lookup key = none) :
    ∃ node, P node ∧ node.ID = r.1 ∧ r.2.Nodes.lookup r.1 = some (some node) := by
  rcases h with ⟨id, h1, h2⟩ | ⟨_, node, hP, hid, h2⟩
  · rw [hnew] at h1; exact absurd h1 (by simp)
  · refine ⟨node, hP, ?_, ?_⟩
    · rw [h2]; exact hid
    · rw [h2]; exact AList.lookup_insert _

theorem registers_of_getID (g : StaticCallGraph) (key : String) (P : Node → Prop) (node : Node)
    (hP : P node) (hid : node.ID = (getID g key true).1.1) (r : ID × StaticCallGraph)
    (hr : r = if (getID g key true).1.2 = false then ((getID g key true).1.1, (getID g key true).2)
      else ((getID g key true).1.1, { (getID g key true).2 with
        Nodes := (getID g key true).2.Nodes.insert (getID g key true).1.1 (some node) })) :
    Registers g key P r := by
  by_cases h : (getID g key true).1.2 = false
  · left
    have hg := getID_old h
    have hs := getID_lookup_self g key true
    rw [hg] at hs
    refine ⟨_, hs, ?_⟩
    rw [hr, if_pos h, hg]
  · right
    refine ⟨getID_new h, node, hP, hid, ?_⟩
    rw [hr, if_neg h]

/-! ## `addNode` -/

theorem addNode_registers (goroot : String → Bool) (g : StaticCallGraph) (f : Func) :
    Registers g (funcKey (funName f))
      (fun node => node.Label = funName f ∧ node.Type_ = NodeFunc ∧ node.Object = Object.func f)
      (addNode goroot g f) :=
  registers_of_getID g _ _
    { ID := (getID g (funcKey (funName f)) true).1.1, PID := "", Label := funName f, Desc := "",
      Attrs := (if inGoRoot goroot f.pkg then ["go_root"] else [])
        ++ (if f.parentIsNil then ["global"] else []),
      Type_ := NodeFunc, Object := Object.func f }
    ⟨rfl, rfl, rfl⟩ rfl _ rfl

theorem binv_addNode (goroot : String → Bool) {g : StaticCallGraph} (h : BInv g) (f : Func) :
    BInv (addNode goroot g f).2 :=
  (addNode_registers goroot g f).binv h (by rw [funcKey_head]; simp)

/-! ## `addPkgNode` -/

theorem addPkgNode_none (g : StaticCallGraph) : addPkgNode g none = ("", g) := rfl

theorem addPkgNode_registers (g : StaticCallGraph) (p : Package) :
    Registers g ("pkg ~ " ++ pkgPath (some p))
      (fun node => node.Label = p.name ∧ node.Type_ = NodePkg ∧ node.Object = Object.pkg p)
      (addPkgNode g (some p)) :=
  registers_of_getID g _ _
    { ID := (getID g ("pkg ~ " ++ pkgPath (some p)) true).1.1, PID := "", Label := p.name,
      Desc := pkgPath (some p), Attrs := ["package"], Type_ := NodePkg, Object := Object.pkg p }
    ⟨rfl, rfl, rfl⟩ rfl _ rfl

theorem grows_addPkgNode (g : StaticCallGraph) (pkg : Option Package) :
    Grows g (addPkgNode g pkg).2 := by
  cases pkg with
  | none => exact Grows.same g
  | some p => exact (addPkgNode_registers g p).grows

theorem binv_addPkgNode {g : StaticCallGraph} (h : BInv g) (pkg : Option Package) :
    BInv (addPkgNode g pkg).2 := by
  cases pkg with
  | none => exact h
  | some p => exact (addPkgNode_registers g p).binv h (by rw [pkgKey_head]; simp)

theorem addPkgNode_edges (g : StaticCallGraph) (pkg : Option Package) :
    (addPkgNode g pkg).2.Edges = g.Edges := by
  cases pkg with
  | none => rfl
  | some p => exact (addPkgNode_registers g p).edges


/-! ## `addRecvTypeNode` and `addStaticEdge` -/

theorem grows_insert_node {g g2 : StaticCallGraph} (h : Grows g g2) {key : String} {id : ID}
    (hnew : g.idMap.lookup key = none) (hreg : g2.idMap.lookup key = some id) (node : Node) :
    Grows g { g2 with Nodes := g2.Nodes.insert id (some node) } where
  idMap_mono := h.idMap_mono
  length_le := h.length_le
  nodes_mem := fun id1 h1 => mem_insert_of_mem _ _ (h.nodes_mem id1 h1)
  nodes := by
    intro id1
    rcases lookup_insert_cases g2.Nodes id (some node) id1 with ⟨h1, _⟩ | ⟨_, h2⟩
    · exact Or.inr ⟨key, hnew, by rw [h1]; exact hreg⟩
    · rcases h.nodes id1 with e | e
      · exact Or.inl (h2.trans e)
      · exact Or.inr e
  edges := h.edges

theorem grows_insert_edge {g g2 : StaticCallGraph} (h : Grows g g2) {key : String} {id : ID}
    (hnew : g.idMap.lookup key = none) (hreg : g2.idMap.lookup key = some id) (e : Edge) :
    Grows g { g2 with Edges := g2.Edges.insert id e } where
  idMap_mono := h.idMap_mono
  length_le := h.length_le
  nodes_mem := h.nodes_mem
  nodes := h.nodes
  edges := by
    intro id1
    rcases lookup_insert_cases g2.Edges id e id1 with ⟨h1, _⟩ | ⟨_, h2⟩
    · exact Or.inr ⟨key, hnew, by rw [h1]; exact hreg⟩
    · rcases h.edges id1 with e1 | e1
      · exact Or.inl (h2.trans e1)
      · exact Or.inr e1

theorem binv_insert_edge {g : StaticCallGraph} (h : BInv g) {x y : String} {id s t : ID}
    (hreg : g.idMap.lookup (callKey x y) = some id) (hs : g.idMap.lookup (funcKey x) = some s)
    (ht : g.idMap.lookup (funcKey y) = some t) (attrs : List String) :
    BInv { g with Edges := g.Edges.insert id { ID := id, Source := s, Target := t, Attrs := attrs } }
    where
  reg := h.reg
  nodes := h.nodes
  nonnil := h.nonnil
  edges := by
    intro id1 e he
    rcases lookup_insert_cases g.Edges id { ID := id, Source := s, Target := t, Attrs := attrs }
      id1 with ⟨h1, h2⟩ | ⟨_, h2⟩
    · dsimp only at he
      rw [h2] at he
      cases he
      subst h1
      exact ⟨x, y, hreg, hs, ht⟩
    · dsimp only at he
      rw [h2] at he
      exact h.edges id1 e he
  funcs := h.funcs

/-- The key under which `addRecvTypeNode` registers a receiver. -/
theorem recvKey_not_funcKey (p t x : String) : "recv ~ " ++ p ++ " ~ " ++ t ≠ funcKey x := by
  intro h
  have := congrArg (fun s : String => s.data.head?) h
  simp only [recvKey_head, funcKey_head] at this
  exact absurd this (by decide)

theorem callKey_not_funcKey (a b x : String) : callKey a b ≠ funcKey x :=
  fun h => funcKey_ne_callKey x a b h.symm

theorem addRecvTypeNode_cases (g : StaticCallGraph) (recv : Var) :
    (∃ id, g.idMap.lookup ("recv ~ " ++ pkgPath recv.pkg ++ " ~ " ++ recv.typeString) = some id ∧
      addRecvTypeNode g recv = (id, g)) ∨
    (g.idMap.lookup ("recv ~ " ++ pkgPath recv.pkg ++ " ~ " ++ recv.typeString) = none ∧
      ∃ node : Node, node.Type_ = NodeRecv ∧ node.Object = Object.var recv ∧
        node.ID = (getID g ("recv ~ " ++ pkgPath recv.pkg ++ " ~ " ++ recv.typeString) true).1.1 ∧
        addRecvTypeNode g recv =
          ((getID g ("recv ~ " ++ pkgPath recv.pkg ++ " ~ " ++ recv.typeString) true).1.1,
            { (addPkgNode (getID g ("recv ~ " ++ pkgPath recv.pkg ++ " ~ " ++ recv.typeString)
                true).2 recv.pkg).2 with
              Nodes := (addPkgNode (getID g ("recv ~ " ++ pkgPath recv.pkg ++ " ~ "
                  ++ recv.typeString) true).2 recv.pkg).2.Nodes.insert
                (getID g ("recv ~ " ++ pkgPath recv.pkg ++ " ~ " ++ recv.typeString) true).1.1
                (some node) })) := by
  by_cases h : (getID g ("recv ~ " ++ pkgPath recv.pkg ++ " ~ " ++ recv.typeString) true).1.2
      = false
  · left
    have hg := getID_old h
    have hs := getID_lookup_self g ("recv ~ " ++ pkgPath recv.pkg ++ " ~ " ++ recv.typeString) true
    rw [hg] at hs
    refine ⟨_, hs, ?_⟩
    simp only [addRecvTypeNode]
    rw [if_pos h, hg]
  · right
    refine ⟨getID_new h,
      { ID := (getID g ("recv ~ " ++ pkgPath recv.pkg ++ " ~ " ++ recv.typeString) true).1.1,
        PID := (addPkgNode (getID g ("recv ~ " ++ pkgPath recv.pkg ++ " ~ " ++ recv.typeString)
          true).2 recv.pkg).1,
        Label := (match afterLastDot recv.typeString.data with
          | some r => String.mk r
          | none => recv.typeString),
        Desc := "",
        Attrs := ["type"] ++ (if recv.embedded then ["embedded"] else [])
          ++ (if recv.isField then ["field"] else []),
        Type_ := NodeRecv, Object := Object.var recv }, rfl, rfl, rfl, ?_⟩
    simp only [addRecvTypeNode]
    exact (if_neg h).trans rfl

theorem grows_addRecvTypeNode (g : StaticCallGraph) (recv : Var) :
    Grows g (addRecvTypeNode g recv).2 := by
  rcases addRecvTypeNode_cases g recv with ⟨id, h1, h2⟩ | ⟨hnew, node, _, _, _, h2⟩
  · rw [h2]; exact Grows.same g
  · rw [h2]
    have g1 := grows_getID g ("recv ~ " ++ pkgPath recv.pkg ++ " ~ " ++ recv.typeString) true
    have g2 := grows_addPkgNode (getID g ("recv ~ " ++ pkgPath recv.pkg ++ " ~ "
      ++ recv.typeString) true).2 recv.pkg
    exact grows_insert_node (g1.andThen g2) hnew
      (g2.idMap_mono _ _ (getID_lookup_self g _ true)) node

theorem binv_addRecvTypeNode {g : StaticCallGraph} (h : BInv g) (recv : Var) :
    BInv (addRecvTypeNode g recv).2 := by
  rcases addRecvTypeNode_cases g recv with ⟨id, h1, h2⟩ | ⟨hnew, node, _, _, _, h2⟩
  · rw [h2]; exact h
  · rw [h2]
    have b1 := binv_getID h ("recv ~ " ++ pkgPath recv.pkg ++ " ~ " ++ recv.typeString) true
      (recvKey_not_funcKey _ _)
    have b2 := binv_addPkgNode b1 recv.pkg
    have g2 := grows_addPkgNode (getID g ("recv ~ " ++ pkgPath recv.pkg ++ " ~ "
      ++ recv.typeString) true).2 recv.pkg
    exact binv_insert_node b2 (g2.idMap_mono _ _ (getID_lookup_self g _ true))
      (by rw [recvKey_head]; simp) node

theorem addRecvTypeNode_edges (g : StaticCallGraph) (recv : Var) :
    (addRecvTypeNode g recv).2.Edges = g.Edges := by
  rcases addRecvTypeNode_cases g recv with ⟨id, h1, h2⟩ | ⟨hnew, node, _, _, _, h2⟩
  · rw [h2]
  · rw [h2]
    show (addPkgNode _ recv.pkg).2.Edges = g.Edges
    rw [addPkgNode_edges, getID_edges]

theorem addStaticEdge_cases (goroot : String → Bool) (g : StaticCallGraph) (a b : Func) :
    (∃ id, g.idMap.lookup (callKey (funName a) (funName b)) = some id ∧
      addStaticEdge goroot g a b = (id, g)) ∨
    (g.idMap.lookup (callKey (funName a) (funName b)) = none ∧
      addStaticEdge goroot g a b =
        ((getID g (callKey (funName a) (funName b)) true).1.1,
          { (addNode goroot (addNode goroot (getID g (callKey (funName a) (funName b)) true).2
              a).2 b).2 with
            Edges := (addNode goroot (addNode goroot
                (getID g (callKey (funName a) (funName b)) true).2 a).2 b).2.Edges.insert
              (getID g (callKey (funName a) (funName b)) true).1.1
              { ID := (getID g (callKey (funName a) (funName b)) true).1.1,
                Source := (addNode goroot (getID g (callKey (funName a) (funName b)) true).2 a).1,
                Target := (addNode goroot (addNode goroot
                  (getID g (callKey (funName a) (funName b)) true).2 a).2 b).1,
                Attrs := ["static"] } })) := by
  by_cases h : (getID g (callKey (funName a) (funName b)) true).1.2 = false
  · left
    have hg := getID_old h
    have hs := getID_lookup_self g (callKey (funName a) (funName b)) true
    rw [hg] at hs
    refine ⟨_, hs, ?_⟩
    have h0 : (getID g ("call " ++ funName a ++ " -> " ++ funName b) true).1.2 = false := h
    simp only [addStaticEdge]
    rw [if_pos h0]
    exact Prod.ext rfl hg
  · right
    refine ⟨getID_new h, ?_⟩
    have h0 : ¬ (getID g ("call " ++ funName a ++ " -> " ++ funName b) true).1.2 = false := h
    simp only [addStaticEdge]
    rw [if_neg h0]
    rfl

theorem grows_addStaticEdge (goroot : String → Bool) (g : StaticCallGraph) (a b : Func) :
    Grows g (addStaticEdge goroot g a b).2 := by
  rcases addStaticEdge_cases goroot g a b with ⟨id, h1, h2⟩ | ⟨hnew, h2⟩
  · rw [h2]; exact Grows.same g
  · rw [h2]
    have g1 := grows_getID g (callKey (funName a) (funName b)) true
    have g2 := (addNode_registers goroot (getID g (callKey (funName a) (funName b)) true).2 a).grows
    have g3 := (addNode_registers goroot (addNode goroot
      (getID g (callKey (funName a) (funName b)) true).2 a).2 b).grows
    exact grows_insert_edge ((g1.andThen g2).andThen g3) hnew
      (g3.idMap_mono _ _ (g2.idMap_mono _ _ (getID_lookup_self g _ true))) _

theorem binv_addStaticEdge (goroot : String → Bool) {g : StaticCallGraph} (h : BInv g)
    (a b : Func) : BInv (addStaticEdge goroot g a b).2 := by
  rcases addStaticEdge_cases goroot g a b with ⟨id, h1, h2⟩ | ⟨hnew, h2⟩
  · rw [h2]; exact h
  · rw [h2]
    have b1 := binv_getID h (callKey (funName a) (funName b)) true (callKey_not_funcKey _ _)
    have b2 := binv_addNode goroot b1 a
    have b3 := binv_addNode goroot b2 b
    have g2 := (addNode_registers goroot (getID g (callKey (funName a) (funName b)) true).2 a).grows
    have g3 := (addNode_registers goroot (addNode goroot
      (getID g (callKey (funName a) (funName b)) true).2 a).2 b).grows
    exact binv_insert_edge b3
      (g3.idMap_mono _ _ (g2.idMap_mono _ _ (getID_lookup_self g _ true)))
      (g3.idMap_mono _ _ (addNode_registers goroot _ a).registered)
      (addNode_registers goroot _ b).registered _

/-! ## Sequences of builder operations -/

theorem grows_apply (goroot : String → Bool) (g : StaticCallGraph) (op : Op) :
    Grows g (op.apply goroot g) := by
  cases op with
  | addNode f => exact (addNode_registers goroot g f).grows
  | addRecvTypeNode r => exact grows_addRecvTypeNode g r
  | addPkgNode p => exact grows_addPkgNode g p
  | addStaticEdge a b => exact grows_addStaticEdge goroot g a b

theorem binv_apply (goroot : String → Bool) {g : StaticCallGraph} (h : BInv g) (op : Op) :
    BInv (op.apply goroot g) := by
  cases op with
  | addNode f => exact binv_addNode goroot h f
  | addRecvTypeNode r => exact binv_addRecvTypeNode h r
  | addPkgNode p => exact binv_addPkgNode h p
  | addStaticEdge a b => exact binv_addStaticEdge goroot h a b

theorem runOps_cons (goroot : String → Bool) (op : Op) (ops : List Op) (g : StaticCallGraph) :
    runOps goroot (op :: ops) g = runOps goroot ops (op.apply goroot g) := rfl

theorem runOps_append (goroot : String → Bool) (ops1 ops2 : List Op) (g : StaticCallGraph) :
    runOps goroot (ops1 ++ ops2) g = runOps goroot ops2 (runOps goroot ops1 g) := by
  simp [runOps, List.foldl_append]

theorem grows_runOps (goroot : String → Bool) (ops : List Op) :
    ∀ g, Grows g (runOps goroot ops g) := by
  induction ops with
  | nil => exact fun g => Grows.same g
  | cons op ops ih => exact fun g => (grows_apply goroot g op).andThen (ih _)

theorem binv_runOps (goroot : String → Bool) (ops : List Op) :
    ∀ g, BInv g → BInv (runOps goroot ops g) := by
  induction ops with
  | nil => exact fun g h => h
  | cons op ops ih => exact fun g h => ih _ (binv_apply goroot h op)

/-- Under the invariant, with fewer than `2 ^ 64` registered names, two
names with the same id are the same name. -/
theorem BInv.injective {g : StaticCallGraph} (h : BInv g)
    (hlen : g.idMap.entries.length < 2 ^ 64) {a b : String} {id : ID}
    (ha : g.idMap.lookup a = some id) (hb : g.idMap.lookup b = some id) : a = b :=
  regInv_injective h.reg hlen ha hb rfl


/-! ## Entries that stay in place -/

/-- With fewer than `2 ^ 64` registered names, the node under the id of a
name registered before a sequence of operations is not touched by them. -/
theorem frame_nodes {g g1 : StaticCallGraph} (hg : Grows g g1) (hb : BInv g1)
    (hlen : g1.idMap.entries.length < 2 ^ 64) {n : String} {id : ID}
    (hn : g.idMap.lookup n = some id) : g1.Nodes.lookup id = g.Nodes.lookup id := by
  rcases hg.nodes id with h | ⟨m, hm, hm1⟩
  · exact h
  · have := hb.injective hlen hm1 (hg.idMap_mono n id hn)
    subst this
    rw [hm] at hn
    exact absurd hn (by simp)

theorem frame_edges {g g1 : StaticCallGraph} (hg : Grows g g1) (hb : BInv g1)
    (hlen : g1.idMap.entries.length < 2 ^ 64) {n : String} {id : ID}
    (hn : g.idMap.lookup n = some id) : g1.Edges.lookup id = g.Edges.lookup id := by
  rcases hg.edges id with h | ⟨m, hm, hm1⟩
  · exact h
  · have := hb.injective hlen hm1 (hg.idMap_mono n id hn)
    subst this
    rw [hm] at hn
    exact absurd hn (by simp)

/-! ## Function nodes -/

theorem funcNodes_newGraph : FuncNodes newGraph := by
  intro x id h
  simp [newGraph] at h

/-- Operations that register no function key keep `FuncNodes`. -/
theorem funcNodes_frame {g g1 : StaticCallGraph} (hg : Grows g g1) (hb : BInv g1)
    (hlen : g1.idMap.entries.length < 2 ^ 64)
    (hsame : ∀ x, g1.idMap.lookup (funcKey x) = g.idMap.lookup (funcKey x))
    (h : FuncNodes g) : FuncNodes g1 := by
  intro x id hx
  rw [hsame] at hx
  obtain ⟨node, h1, h2⟩ := h x id hx
  exact ⟨node, by rw [frame_nodes hg hb hlen hx]; exact h1, h2⟩

theorem funcNodes_addNode (goroot : String → Bool) {g : StaticCallGraph} (hb : BInv g)
    (h : FuncNodes g) (f : Func)
    (hlen : (addNode goroot g f).2.idMap.entries.length < 2 ^ 64) :
    FuncNodes (addNode goroot g f).2 := by
  have hr := addNode_registers goroot g f
  have hb1 := binv_addNode goroot hb f
  intro x id hx
  cases hold : g.idMap.lookup (funcKey x) with
  | some id0 =>
    have : id0 = id := by
      have := hr.grows.idMap_mono _ _ hold
      rw [this] at hx
      exact Option.some.inj hx
    subst this
    obtain ⟨node, h1, h2⟩ := h x id0 hold
    exact ⟨node, by rw [frame_nodes hr.grows hb1 hlen hold]; exact h1, h2⟩
  | none =>
    by_cases hk : funcKey x = funcKey (funName f)
    · have hxf : x = funName f := funcKey_injective hk
      rw [hk] at hold hx
      obtain ⟨node, hP, hid, hl⟩ := hr.node_of_new hold
      have : id = (addNode goroot g f).1 := by
        rw [hr.registered] at hx
        exact (Option.some.inj hx).symm
      subst this
      exact ⟨node, hl, hid, by rw [hxf]; exact hP.1, hP.2.1⟩
    · rw [hr.lookup_ne hk, hold] at hx
      exact absurd hx (by simp)

theorem funcKey_ne_pkgKey (x p : String) : funcKey x ≠ "pkg ~ " ++ p := by
  intro h
  have := congrArg (fun s : String => s.data.head?) h
  simp only [pkgKey_head, funcKey_head] at this
  exact absurd this (by decide)

theorem funcNodes_addPkgNode {g : StaticCallGraph} (hb : BInv g) (h : FuncNodes g)
    (pkg : Option Package) (hlen : (addPkgNode g pkg).2.idMap.entries.length < 2 ^ 64) :
    FuncNodes (addPkgNode g pkg).2 := by
  cases pkg with
  | none => exact h
  | some p =>
    exact funcNodes_frame (addPkgNode_registers g p).grows (binv_addPkgNode hb _) hlen
      (fun x => (addPkgNode_registers g p).lookup_ne (funcKey_ne_pkgKey x _)) h

theorem addPkgNode_lookup_funcKey (g : StaticCallGraph) (pkg : Option Package) (x : String) :
    (addPkgNode g pkg).2.idMap.lookup (funcKey x) = g.idMap.lookup (funcKey x) := by
  cases pkg with
  | none => rfl
  | some p => exact (addPkgNode_registers g p).lookup_ne (funcKey_ne_pkgKey x _)

theorem funcNodes_addRecvTypeNode {g : StaticCallGraph} (hb : BInv g) (h : FuncNodes g)
    (recv : Var) (hlen : (addRecvTypeNode g recv).2.idMap.entries.length < 2 ^ 64) :
    FuncNodes (addRecvTypeNode g recv).2 := by
  refine funcNodes_frame (grows_addRecvTypeNode g recv) (binv_addRecvTypeNode hb recv) hlen ?_ h
  intro x
  rcases addRecvTypeNode_cases g recv with ⟨id, h1, h2⟩ | ⟨hnew, node, _, _, _, h2⟩
  · rw [h2]
  · rw [h2]
    show (addPkgNode _ recv.pkg).2.idMap.lookup (funcKey x) = _
    rw [addPkgNode_lookup_funcKey]
    exact getID_lookup_ne g _ true (fun e => recvKey_not_funcKey _ _ x e.symm)

theorem funcNodes_addStaticEdge (goroot : String → Bool) {g : StaticCallGraph} (hb : BInv g)
    (h : FuncNodes g) (a b : Func)
    (hlen : (addStaticEdge goroot g a b).2.idMap.entries.length < 2 ^ 64) :
    FuncNodes (addStaticEdge goroot g a b).2 := by
  rcases addStaticEdge_cases goroot g a b with ⟨id, h1, h2⟩ | ⟨hnew, h2⟩
  · rw [h2]; exact h
  · rw [h2] at hlen ⊢
    have b1 := binv_getID hb (callKey (funName a) (funName b)) true (callKey_not_funcKey _ _)
    have b2 := binv_addNode goroot b1 a
    have g3 := (addNode_registers goroot (addNode goroot
      (getID g (callKey (funName a) (funName b)) true).2 a).2 b).grows
    have l3 : (addNode goroot (addNode goroot
        (getID g (callKey (funName a) (funName b)) true).2 a).2 b).2.idMap.entries.length
        < 2 ^ 64 := hlen
    have l2 := lt_of_le_of_lt g3.length_le l3
    have l1 := lt_of_le_of_lt
      (addNode_registers goroot (getID g (callKey (funName a) (funName b)) true).2 a).grows.length_le
      l2
    have f1 : FuncNodes (getID g (callKey (funName a) (funName b)) true).2 :=
      funcNodes_frame (grows_getID g _ true) b1 l1
        (fun x => getID_lookup_ne g _ true (funcKey_ne_callKey x _ _)) h
    have f2 := funcNodes_addNode goroot b1 f1 a l2
    have f3 := funcNodes_addNode goroot b2 f2 b l3
    exact f3

theorem funcNodes_apply (goroot : String → Bool) {g : StaticCallGraph} (hb : BInv g)
    (h : FuncNodes g) (op : Op) (hlen : (op.apply goroot g).idMap.entries.length < 2 ^ 64) :
    FuncNodes (op.apply goroot g) := by
  cases op with
  | addNode f => exact funcNodes_addNode goroot hb h f hlen
  | addRecvTypeNode r => exact funcNodes_addRecvTypeNode hb h r hlen
  | addPkgNode p => exact funcNodes_addPkgNode hb h p hlen
  | addStaticEdge a b => exact funcNodes_addStaticEdge goroot hb h a b hlen

theorem funcNodes_runOps (goroot : String → Bool) (ops : List Op) :
    ∀ g, BInv g → FuncNodes g → (runOps goroot ops g).idMap.entries.length < 2 ^ 64 →
      FuncNodes (runOps goroot ops g) := by
  induction ops with
  | nil => exact fun g _ h _ => h
  | cons op ops ih =>
    intro g hb h hlen
    rw [runOps_cons] at hlen ⊢
    have l1 := lt_of_le_of_lt (grows_runOps goroot ops (op.apply goroot g)).length_le hlen
    exact ih _ (binv_apply goroot hb op) (funcNodes_apply goroot hb h op l1) hlen


/-! ## Edge keys -/

/-- The separator `" -> "` splits a key in one way only when the part
before it has no `'>'`. -/
theorem arrow_split_unique : ∀ (a a1 b b1 : List Char), '>' ∉ a → '>' ∉ a1 →
    a ++ ([' ', '-', '>', ' '] ++ b) = a1 ++ ([' ', '-', '>', ' '] ++ b1) → a = a1 ∧ b = b1 := by
  intro a
  induction a with
  | nil =>
    intro a1 b b1 _ h1 h
    match a1, h1, h with
    | [], _, h => exact ⟨rfl, by simpa using h⟩
    | [c], _, h => simp at h
    | [c, d], _, h => simp at h
    | c :: d :: e :: t, h1, h =>
      simp at h
      simp at h1
      exact absurd h.2.2.1 h1.2.2.1
  | cons x a ih =>
    intro a1 b b1 h0 h1 h
    match a1, h1, h with
    | [], _, h =>
      match a, h0, h with
      | [], _, h => simp at h
      | [d], _, h => simp at h
      | d :: e :: t, h0, h =>
        simp at h
        simp at h0
        exact absurd h.2.2.1.symm h0.2.2.1
    | c :: t, h1, h =>
      simp only [List.cons_append, List.cons.injEq] at h
      have h0' : '>' ∉ a := fun hm => h0 (List.mem_cons_of_mem _ hm)
      have h1' : '>' ∉ t := fun hm => h1 (List.mem_cons_of_mem _ hm)
      obtain ⟨e1, e2⟩ := ih t b b1 h0' h1' h.2
      exact ⟨by rw [h.1, e1], e2⟩

theorem callKey_injective {x y x1 y1 : String} (hx : '>' ∉ x.data) (hx1 : '>' ∉ x1.data)
    (h : callKey x y = callKey x1 y1) : x = x1 ∧ y = y1 := by
  have hd := congrArg String.data h
  simp only [callKey, String.data_append, List.append_assoc] at hd
  have hd1 := List.append_cancel_left hd
  obtain ⟨e1, e2⟩ := arrow_split_unique _ _ _ _ hx hx1 hd1
  exact ⟨String.ext e1, String.ext e2⟩

/-- Without that condition two pairs of names can share a key. -/
theorem callKey_ambiguous : callKey "a" "b -> c" = callKey "a -> b" "c" := by
  decide

/-! ## Edges of registered edge keys -/

theorem callEdges_newGraph : CallEdges newGraph := by
  intro x y id _ h
  simp [newGraph] at h

/-- Operations that register no edge key keep `CallEdges`. -/
theorem callEdges_frame {g g1 : StaticCallGraph} (hg : Grows g g1) (hb : BInv g1)
    (hlen : g1.idMap.entries.length < 2 ^ 64)
    (hsame : ∀ x y, g1.idMap.lookup (callKey x y) = g.idMap.lookup (callKey x y))
    (h : CallEdges g) : CallEdges g1 := by
  intro x y id hx hxy
  rw [hsame] at hxy
  obtain ⟨e, h1, h2, h3, h4, h5⟩ := h x y id hx hxy
  exact ⟨e, by rw [frame_edges hg hb hlen hxy]; exact h1, h2, h3,
    hg.idMap_mono _ _ h4, hg.idMap_mono _ _ h5⟩

theorem callKey_ne_pkgKey (x y p : String) : callKey x y ≠ "pkg ~ " ++ p := by
  intro h
  have := congrArg (fun s : String => s.data.head?) h
  simp only [pkgKey_head, callKey_head] at this
  exact absurd this (by decide)

theorem callKey_ne_recvKey (x y p t : String) : callKey x y ≠ "recv ~ " ++ p ++ " ~ " ++ t := by
  intro h
  have := congrArg (fun s : String => s.data.head?) h
  simp only [recvKey_head, callKey_head] at this
  exact absurd this (by decide)

theorem addPkgNode_lookup_callKey (g : StaticCallGraph) (pkg : Option Package) (x y : String) :
    (addPkgNode g pkg).2.idMap.lookup (callKey x y) = g.idMap.lookup (callKey x y) := by
  cases pkg with
  | none => rfl
  | some p => exact (addPkgNode_registers g p).lookup_ne (callKey_ne_pkgKey x y _)

theorem addRecvTypeNode_lookup_callKey (g : StaticCallGraph) (recv : Var) (x y : String) :
    (addRecvTypeNode g recv).2.idMap.lookup (callKey x y) = g.idMap.lookup (callKey x y) := by
  rcases addRecvTypeNode_cases g recv with ⟨id, h1, h2⟩ | ⟨hnew, node, _, _, _, h2⟩
  · rw [h2]
  · rw [h2]
    show (addPkgNode _ recv.pkg).2.idMap.lookup (callKey x y) = _
    rw [addPkgNode_lookup_callKey]
    exact getID_lookup_ne g _ true (callKey_ne_recvKey x y _ _)

theorem callEdges_addStaticEdge (goroot : String → Bool) {g : StaticCallGraph} (hb : BInv g)
    (h : CallEdges g) (a b : Func) (ha : '>' ∉ (funName a).data)
    (hlen : (addStaticEdge goroot g a b).2.idMap.entries.length < 2 ^ 64) :
    CallEdges (addStaticEdge goroot g a b).2 := by
  have hgr := grows_addStaticEdge goroot g a b
  have hb1 := binv_addStaticEdge goroot hb a b
  rcases addStaticEdge_cases goroot g a b with ⟨id, h1, h2⟩ | ⟨hnew, h2⟩
  · rw [h2]; exact h
  · intro x y id hx hxy
    by_cases hk : callKey x y = callKey (funName a) (funName b)
    · obtain ⟨e1, e2⟩ := callKey_injective hx ha hk
      subst e1 e2
      have r2 := addNode_registers goroot (getID g (callKey (funName a) (funName b)) true).2 a
      have r3 := addNode_registers goroot (addNode goroot
        (getID g (callKey (funName a) (funName b)) true).2 a).2 b
      have hid : id = (getID g (callKey (funName a) (funName b)) true).1.1 := by
        have := r3.grows.idMap_mono _ _ (r2.grows.idMap_mono _ _
          (getID_lookup_self g (callKey (funName a) (funName b)) true))
        rw [h2] at hxy
        have e : (addNode goroot (addNode goroot
            (getID g (callKey (funName a) (funName b)) true).2 a).2 b).2.idMap.lookup
            (callKey (funName a) (funName b)) = some id := hxy
        rw [this] at e
        exact (Option.some.inj e).symm
      subst hid
      rw [h2]
      exact ⟨_, AList.lookup_insert _, rfl, rfl, r3.grows.idMap_mono _ _ r2.registered,
        r3.registered⟩
    · have hsame : (addStaticEdge goroot g a b).2.idMap.lookup (callKey x y)
          = g.idMap.lookup (callKey x y) := by
        rw [h2]
        show (addNode goroot (addNode goroot _ a).2 b).2.idMap.lookup (callKey x y) = _
        rw [(addNode_registers goroot _ b).lookup_ne (callKey_not_funcKey _ _ _),
          (addNode_registers goroot _ a).lookup_ne (callKey_not_funcKey _ _ _),
          getID_lookup_ne g _ true hk]
      rw [hsame] at hxy
      obtain ⟨e, h1, h3, h4, h5, h6⟩ := h x y id hx hxy
      exact ⟨e, by rw [frame_edges hgr hb1 hlen hxy]; exact h1, h3, h4,
        hgr.idMap_mono _ _ h5, hgr.idMap_mono _ _ h6⟩

theorem callEdges_apply (goroot : String → Bool) {g : StaticCallGraph} (hb : BInv g)
    (h : CallEdges g) (op : Op) (hop : op.CallerPlain)
    (hlen : (op.apply goroot g).idMap.entries.length < 2 ^ 64) :
    CallEdges (op.apply goroot g) := by
  cases op with
  | addNode f =>
    exact callEdges_frame (addNode_registers goroot g f).grows (binv_addNode goroot hb f) hlen
      (fun x y => (addNode_registers goroot g f).lookup_ne (callKey_not_funcKey _ _ _)) h
  | addRecvTypeNode r =>
    exact callEdges_frame (grows_addRecvTypeNode g r) (binv_addRecvTypeNode hb r) hlen
      (addRecvTypeNode_lookup_callKey g r) h
  | addPkgNode p =>
    exact callEdges_frame (grows_addPkgNode g p) (binv_addPkgNode hb p) hlen
      (addPkgNode_lookup_callKey g p) h
  | addStaticEdge a b => exact callEdges_addStaticEdge goroot hb h a b hop hlen

theorem callEdges_runOps (goroot : String → Bool) (ops : List Op) :
    ∀ g, BInv g → CallEdges g → (∀ op ∈ ops, op.CallerPlain) →
      (runOps goroot ops g).idMap.entries.length < 2 ^ 64 →
      CallEdges (runOps goroot ops g) := by
  induction ops with
  | nil => exact fun g _ h _ _ => h
  | cons op ops ih =>
    intro g hb h hops hlen
    rw [runOps_cons] at hlen ⊢
    have l1 := lt_of_le_of_lt (grows_runOps goroot ops (op.apply goroot g)).length_le hlen
    exact ih _ (binv_apply goroot hb op)
      (callEdges_apply goroot hb h op (hops op (List.mem_cons_self _ _)) l1)
      (fun o ho => hops o (List.mem_cons_of_mem _ ho)) hlen

/-- A static edge operation leaves its edge key registered. -/
theorem addStaticEdge_registered (goroot : String → Bool) (g : StaticCallGraph) (a b : Func) :
    (addStaticEdge goroot g a b).2.idMap.lookup (callKey (funName a) (funName b))
      = some (addStaticEdge goroot g a b).1 := by
  rcases addStaticEdge_cases goroot g a b with ⟨id, h1, h2⟩ | ⟨hnew, h2⟩
  · rw [h2]; exact h1
  · rw [h2]
    exact (addNode_registers goroot _ b).grows.idMap_mono _ _
      ((addNode_registers goroot _ a).grows.idMap_mono _ _ (getID_lookup_self g _ true))

theorem runOps_registered_call (goroot : String → Bool) (ops : List Op) (a b : Func) :
    ∀ g, Op.addStaticEdge a b ∈ ops →
      ∃ id, (runOps goroot ops g).idMap.lookup (callKey (funName a) (funName b)) = some id := by
  induction ops with
  | nil => intro g h; simp at h
  | cons op ops ih =>
    intro g h
    rw [runOps_cons]
    rcases List.mem_cons.mp h with e | hm
    · subst e
      exact ⟨_, (grows_runOps goroot ops _).idMap_mono _ _ (addStaticEdge_registered goroot g a b)⟩
    · exact ih _ hm

theorem runOps_registered_func (goroot : String → Bool) (ops : List Op) (f : Func) :
    ∀ g, Op.addNode f ∈ ops →
      ∃ id, (runOps goroot ops g).idMap.lookup (funcKey (funName f)) = some id := by
  induction ops with
  | nil => intro g h; simp at h
  | cons op ops ih =>
    intro g h
    rw [runOps_cons]
    rcases List.mem_cons.mp h with e | hm
    · subst e
      exact ⟨_, (grows_runOps goroot ops _).idMap_mono _ _
        (addNode_registers goroot g f).registered⟩
    · exact ih _ hm


/-! ## `NewStatic` as a sequence of builder operations -/

theorem onCalls_graph (goroot : String → Bool) (pe : Bool) (caller : Func) :
    ∀ (cs : List CallSite) (b b1 : Build), onCalls goroot pe caller cs b = Except.ok b1 →
      b1.graph = runOps goroot (callOps caller cs) b.graph := by
  intro cs
  induction cs with
  | nil =>
    intro b b1 h
    simp only [onCalls, Except.ok.injEq] at h
    rw [← h]; rfl
  | cons c cs ih =>
    intro b b1 h
    simp only [onCalls] at h
    cases hc : c.callee with
    | nil =>
      simp only [onCall, hc] at h
      simp only [callOps, hc]
      by_cases hp : pe = true
      · rw [if_pos hp] at h
        have := ih _ _ h
        exact this
      · rw [if_neg hp] at h
        have := ih _ _ h
        exact this
    | func f =>
      simp only [onCall, hc] at h
      simp only [callOps, hc, runOps_cons]
      have := ih _ _ h
      exact this
    | var v =>
      simp only [onCall, hc] at h
      simp only [callOps, hc]
      have := ih _ _ h
      exact this
    | builtin bi =>
      simp only [onCall, hc] at h
      simp only [callOps, hc]
      have := ih _ _ h
      exact this
    | other =>
      simp only [onCall, hc] at h
      exact absurd h (by simp)

theorem onDecl_graph (goroot : String → Bool) (pe : Bool) (flags : StaticFlags) (d : Decl)
    (b b1 : Build) (h : onDecl goroot pe flags b d = Except.ok b1) :
    b1.graph = runOps goroot (declOps flags d) b.graph := by
  simp only [onDecl] at h
  have := onCalls_graph goroot pe d.caller d.calls _ _ h
  rw [this, declOps, runOps_append]
  by_cases hf : flags.ShowOrphanedNode = true
  · simp only [hf, if_true]; rfl
  · simp only [hf]; rfl

theorem onDecls_graph (goroot : String → Bool) (pe : Bool) (flags : StaticFlags) :
    ∀ (ds : List Decl) (b b1 : Build), onDecls goroot pe flags ds b = Except.ok b1 →
      b1.graph = runOps goroot (buildOps flags ds) b.graph := by
  intro ds
  induction ds with
  | nil =>
    intro b b1 h
    simp only [onDecls, Except.ok.injEq] at h
    rw [← h]; rfl
  | cons d ds ih =>
    intro b b1 h
    simp only [onDecls] at h
    cases hd : onDecl goroot pe flags b d with
    | error e => rw [hd] at h; exact absurd h (by simp)
    | ok b2 =>
      rw [hd] at h
      rw [ih _ _ h, onDecl_graph goroot pe flags d b b2 hd, buildOps, runOps_append]

theorem NewStatic_graph (goroot : String → Bool) (pe : Bool) (opts : List StaticOption)
    (ds : List Decl) (b : Build) (h : NewStatic goroot pe opts ds = Except.ok b) :
    b.graph = runOps goroot (buildOps (applyOpts opts) ds) newGraph :=
  onDecls_graph goroot pe (applyOpts opts) ds _ b h

theorem mem_buildOps_of_orphan (flags : StaticFlags) (hf : flags.ShowOrphanedNode = true) :
    ∀ (ds : List Decl) (d : Decl), d ∈ ds → Op.addNode d.caller ∈ buildOps flags ds := by
  intro ds
  induction ds with
  | nil => intro d h; simp at h
  | cons d0 ds ih =>
    intro d h
    simp only [buildOps, List.mem_append]
    rcases List.mem_cons.mp h with e | hm
    · subst e
      left
      simp [declOps, hf]
    · exact Or.inr (ih d hm)


/-! ## Fresh names -/

theorem getID_fresh {g : StaticCallGraph} {n : String} (b : Bool)
    (h : g.idMap.lookup n = none) :
    getID g n b = ((idPrefix b ++ formatUint16 ((g.idCounter + 1) % 2 ^ 64), true),
      { g with idCounter := (g.idCounter + 1) % 2 ^ 64,
               idMap := g.idMap.insert n (idPrefix b ++ formatUint16 ((g.idCounter + 1) % 2 ^ 64)) })
    := by
  unfold getID
  rw [h]
  cases b <;> rfl

theorem addNode_fresh (goroot : String → Bool) {g : StaticCallGraph} {f : Func}
    (h : g.idMap.lookup (funcKey (funName f)) = none) :
    ∃ node : Node, node.Label = funName f ∧ node.Type_ = NodeFunc ∧
      addNode goroot g f = ("n" ++ formatUint16 ((g.idCounter + 1) % 2 ^ 64),
        { idCounter := (g.idCounter + 1) % 2 ^ 64,
          idMap := g.idMap.insert (funcKey (funName f))
            ("n" ++ formatUint16 ((g.idCounter + 1) % 2 ^ 64)),
          Nodes := g.Nodes.insert ("n" ++ formatUint16 ((g.idCounter + 1) % 2 ^ 64)) (some node),
          Edges := g.Edges }) := by
  rcases addNode_registers goroot g f with ⟨id, h1, _⟩ | ⟨_, node, hP, _, h2⟩
  · rw [h] at h1; exact absurd h1 (by simp)
  · refine ⟨node, hP.1, hP.2.1, ?_⟩
    rw [h2, getID_fresh true h]
    rfl

theorem addStaticEdge_fresh (goroot : String → Bool) {g : StaticCallGraph} {a b : Func}
    (h : g.idMap.lookup (callKey (funName a) (funName b)) = none) :
    addStaticEdge goroot g a b =
      ("n" ++ formatUint16 ((g.idCounter + 1) % 2 ^ 64),
        { (addNode goroot (addNode goroot
            { g with idCounter := (g.idCounter + 1) % 2 ^ 64,
                     idMap := g.idMap.insert (callKey (funName a) (funName b))
                       ("n" ++ formatUint16 ((g.idCounter + 1) % 2 ^ 64)) } a).2 b).2 with
          Edges := (addNode goroot (addNode goroot
            { g with idCounter := (g.idCounter + 1) % 2 ^ 64,
                     idMap := g.idMap.insert (callKey (funName a) (funName b))
                       ("n" ++ formatUint16 ((g.idCounter + 1) % 2 ^ 64)) } a).2 b).2.Edges.insert
              ("n" ++ formatUint16 ((g.idCounter + 1) % 2 ^ 64))
              { ID := "n" ++ formatUint16 ((g.idCounter + 1) % 2 ^ 64),
                Source := (addNode goroot
                  { g with idCounter := (g.idCounter + 1) % 2 ^ 64,
                           idMap := g.idMap.insert (callKey (funName a) (funName b))
                             ("n" ++ formatUint16 ((g.idCounter + 1) % 2 ^ 64)) } a).1,
                Target := (addNode goroot (addNode goroot
                  { g with idCounter := (g.idCounter + 1) % 2 ^ 64,
                           idMap := g.idMap.insert (callKey (funName a) (funName b))
                             ("n" ++ formatUint16 ((g.idCounter + 1) % 2 ^ 64)) } a).2 b).1,
                Attrs := ["static"] } }) := by
  rcases addStaticEdge_cases goroot g a b with ⟨id, h1, _⟩ | ⟨_, h2⟩
  · rw [h] at h1; exact absurd h1 (by simp)
  · rw [h2, getID_fresh true h]
    rfl

/-- The first static edge of a graph, between two functions of different
names: the edge gets the id `n1` and the two nodes the ids `n2` and `n3`. -/
theorem addStaticEdge_newGraph (goroot : String → Bool) (a b : Func)
    (hab : funName a ≠ funName b) :
    ∃ na nb : Node, na.Label = funName a ∧ nb.Label = funName b ∧
      addStaticEdge goroot newGraph a b = ("n1",
        { idCounter := 3,
          idMap := ((((∅ : GoMap ID).insert (callKey (funName a) (funName b)) "n1").insert
            (funcKey (funName a)) "n2").insert (funcKey (funName b)) "n3"),
          Nodes := ((∅ : GoMap (Option Node)).insert "n2" (some na)).insert "n3" (some nb),
          Edges := (∅ : GoMap Edge).insert "n1"
            { ID := "n1", Source := "n2", Target := "n3", Attrs := ["static"] } }) := by
  have h0 : newGraph.idMap.lookup (callKey (funName a) (funName b)) = none := by
    simp [newGraph]
  have e1 : "n" ++ formatUint16 ((newGraph.idCounter + 1) % 2 ^ 64) = "n1" := by decide
  rw [addStaticEdge_fresh goroot h0, e1]
  have h1 : (newGraph.idMap.insert (callKey (funName a) (funName b)) "n1").lookup
      (funcKey (funName a)) = none := by
    rw [AList.lookup_insert_ne (funcKey_ne_callKey _ _ _)]
    simp [newGraph]
  obtain ⟨na, hla, _, ha⟩ := @addNode_fresh goroot
    { idCounter := (newGraph.idCounter + 1) % 2 ^ 64,
      idMap := newGraph.idMap.insert (callKey (funName a) (funName b)) "n1",
      Nodes := newGraph.Nodes, Edges := newGraph.Edges } a h1
  have e2 : "n" ++ formatUint16 (((newGraph.idCounter + 1) % 2 ^ 64 + 1) % 2 ^ 64) = "n2" := by
    decide
  rw [ha]
  dsimp only
  rw [e2]
  have h2 : ((newGraph.idMap.insert (callKey (funName a) (funName b)) "n1").insert
      (funcKey (funName a)) "n2").lookup (funcKey (funName b)) = none := by
    rw [AList.lookup_insert_ne (fun e => hab (funcKey_injective e).symm),
      AList.lookup_insert_ne (funcKey_ne_callKey _ _ _)]
    simp [newGraph]
  obtain ⟨nb, hlb, _, hb⟩ := @addNode_fresh goroot
    { idCounter := ((newGraph.idCounter + 1) % 2 ^ 64 + 1) % 2 ^ 64,
      idMap := (newGraph.idMap.insert (callKey (funName a) (funName b)) "n1").insert
        (funcKey (funName a)) "n2",
      Nodes := newGraph.Nodes.insert "n2" (some na), Edges := newGraph.Edges } b h2
  have e3 : "n" ++ formatUint16
      ((((newGraph.idCounter + 1) % 2 ^ 64 + 1) % 2 ^ 64 + 1) % 2 ^ 64) = "n3" := by
    decide
  refine ⟨na, nb, hla, hlb, ?_⟩
  rw [hb]
  dsimp only
  rw [e3]
  rfl


/-! ## Properties of the registry and the builder -/

/-- C3 (idempotent dedup): for every graph state and every canonical name,
a second `getID` call with the same name returns the id of the first call,
reports `isNew = false`, and changes neither `idMap` nor `idCounter` (nor
anything else of the graph). -/
theorem getID_idempotent (g : StaticCallGraph) (name : String) (b1 b2 : Bool) :
    (getID (getID g name b1).2 name b2).1.1 = (getID g name b1).1.1 ∧
    (getID (getID g name b1).2 name b2).1.2 = false ∧
    (getID (getID g name b1).2 name b2).2.idMap = (getID g name b1).2.idMap ∧
    (getID (getID g name b1).2 name b2).2.idCounter = (getID g name b1).2.idCounter ∧
    (getID (getID g name b1).2 name b2).2 = (getID g name b1).2 := by
  have h := getID_of_lookup_some b2 (getID_lookup_self g name b1)
  simp [h]

/-- C4 (collision-free ids): for every sequence of `getID` calls on a graph
made by `newGraph` whose registry ends with fewer than `2 ^ 64` names (a Go
map cannot hold more), two calls with distinct names never return the same
id, and no two distinct names of the final `idMap` have the same id; the id
of a new name is the prefix followed by the hexadecimal rendering of the
incremented counter, which the call stores in `idCounter`. -/
theorem getID_collision_free (calls : List (String × Bool))
    (hlen : (runGetID calls newGraph).idMap.entries.length < 2 ^ 64) :
    (∀ p ∈ List.zip calls (getIDs calls newGraph), ∀ q ∈ List.zip calls (getIDs calls newGraph),
      p.1.1 ≠ q.1.1 → p.2 ≠ q.2) ∧
    (∀ a b ia ib, (runGetID calls newGraph).idMap.lookup a = some ia →
      (runGetID calls newGraph).idMap.lookup b = some ib → a ≠ b → ia ≠ ib) ∧
    (∀ (g : StaticCallGraph) (name : String) (isNode : Bool), g.idMap.lookup name = none →
      (getID g name isNode).1 =
        ((if isNode then "n" else "e") ++ formatUint16 ((g.idCounter + 1) % 2 ^ 64), true) ∧
      (getID g name isNode).2.idCounter = (g.idCounter + 1) % 2 ^ 64) := by
  have hinv := regInv_runGetID calls newGraph regInv_newGraph
  have key : ∀ a b ia ib, (runGetID calls newGraph).idMap.lookup a = some ia →
      (runGetID calls newGraph).idMap.lookup b = some ib → a ≠ b → ia ≠ ib :=
    fun a b ia ib ha hb hne hid => hne (regInv_injective hinv hlen ha hb hid)
  refine ⟨?_, key, ?_⟩
  · intro p hp q hq hne
    exact key _ _ _ _ (getIDs_registered calls newGraph p hp)
      (getIDs_registered calls newGraph q hq) hne
  · intro g name isNode hnew
    rw [getID_fresh isNode hnew]
    cases isNode <;> exact ⟨rfl, rfl⟩

/-- Witness of C4 on the calls `a` (node), `b` (edge), `a` again. -/
theorem getID_collision_free_witness :
    (runGetID [("a", true), ("b", false), ("a", false)] newGraph).idMap.entries.length < 2 ^ 64 ∧
    getIDs [("a", true), ("b", false), ("a", false)] newGraph = ["n1", "e2", "n1"] ∧
    (∀ a b ia ib,
      (runGetID [("a", true), ("b", false), ("a", false)] newGraph).idMap.lookup a = some ia →
      (runGetID [("a", true), ("b", false), ("a", false)] newGraph).idMap.lookup b = some ib →
      a ≠ b → ia ≠ ib) :=
  ⟨by decide, by decide,
    (getID_collision_free [("a", true), ("b", false), ("a", false)] (by decide)).2.1⟩

/-- C5 (namespace separation): in every graph state reached from `newGraph`
by `addNode`, `addRecvTypeNode`, `addPkgNode` and `addStaticEdge` whose
registry holds fewer than `2 ^ 64` names, no id is both a key of `Nodes` and
a key of `Edges`. -/
theorem namespace_separation (goroot : String → Bool) (ops : List Op)
    (hlen : (runOps goroot ops newGraph).idMap.entries.length < 2 ^ 64) :
    ∀ id, id ∈ (runOps goroot ops newGraph).Nodes → id ∉ (runOps goroot ops newGraph).Edges := by
  have hb := binv_runOps goroot ops newGraph binv_newGraph
  intro id hn he
  obtain ⟨name, h1, h2⟩ := hb.nodes id hn
  obtain ⟨e, hlk⟩ := Option.isSome_iff_exists.mp (AList.lookup_isSome.mpr he)
  obtain ⟨x, y, h3, _, _⟩ := hb.edges id e hlk
  have := hb.injective hlen h1 h3
  rw [this, callKey_head] at h2
  exact h2 rfl

/-- Witness of C5: a static edge, a receiver node and a package node. -/
theorem namespace_separation_witness :
    (runOps noGoroot [Op.addStaticEdge sampleA sampleB, Op.addRecvTypeNode sampleRecv,
      Op.addPkgNode (some samplePkg)] newGraph).idMap.entries.length < 2 ^ 64 ∧
    (runOps noGoroot [Op.addStaticEdge sampleA sampleB, Op.addRecvTypeNode sampleRecv,
      Op.addPkgNode (some samplePkg)] newGraph).Nodes.keys = ["n4", "n5", "n3", "n2"] ∧
    (runOps noGoroot [Op.addStaticEdge sampleA sampleB, Op.addRecvTypeNode sampleRecv,
      Op.addPkgNode (some samplePkg)] newGraph).Edges.keys = ["n1"] ∧
    ∀ id, id ∈ (runOps noGoroot [Op.addStaticEdge sampleA sampleB, Op.addRecvTypeNode sampleRecv,
        Op.addPkgNode (some samplePkg)] newGraph).Nodes →
      id ∉ (runOps noGoroot [Op.addStaticEdge sampleA sampleB, Op.addRecvTypeNode sampleRecv,
        Op.addPkgNode (some samplePkg)] newGraph).Edges :=
  ⟨by decide, by decide, by decide, namespace_separation noGoroot _ (by decide)⟩

theorem addStaticEdge_twice (goroot : String → Bool) (g : StaticCallGraph) (a b : Func) :
    addStaticEdge goroot (addStaticEdge goroot g a b).2 a b
      = ((addStaticEdge goroot g a b).1, (addStaticEdge goroot g a b).2) := by
  have hreg := addStaticEdge_registered goroot g a b
  rcases addStaticEdge_cases goroot (addStaticEdge goroot g a b).2 a b with
    ⟨id, h1, h2⟩ | ⟨hnew, _⟩
  · rw [hreg] at h1
    rw [h2, Option.some.inj h1]
  · rw [hreg] at hnew
    exact absurd hnew (by simp)

/-- C6 (edge collapsing): for every graph state and every caller and callee,
a second `addStaticEdge` for the same pair returns the same edge id and
leaves `Nodes` and `Edges` (the whole graph) unchanged; and `NewStatic` on a
declaration `a` with two calls of `b` followed by a declaration `b` without
calls, the two of different names, yields exactly two nodes, `n2` for `a`
and `n3` for `b`, and exactly one edge, from `n2` to `n3` with attributes
`["static"]`. -/
theorem edge_collapsing (goroot : String → Bool) (g : StaticCallGraph) (a b : Func) :
    ((addStaticEdge goroot (addStaticEdge goroot g a b).2 a b).1 = (addStaticEdge goroot g a b).1 ∧
      (addStaticEdge goroot (addStaticEdge goroot g a b).2 a b).2.Nodes
        = (addStaticEdge goroot g a b).2.Nodes ∧
      (addStaticEdge goroot (addStaticEdge goroot g a b).2 a b).2.Edges
        = (addStaticEdge goroot g a b).2.Edges ∧
      (addStaticEdge goroot (addStaticEdge goroot g a b).2 a b).2 = (addStaticEdge goroot g a b).2) ∧
    (funName a ≠ funName b → ∀ (printErrors : Bool) (s1 s2 : String),
      ∃ (bld : Build) (na nb : Node),
        NewStatic goroot printErrors []
          [{ caller := a, calls := [{ callee := CalleeObj.func b, shown := s1 },
                                    { callee := CalleeObj.func b, shown := s2 }] },
           { caller := b, calls := [] }] = Except.ok bld ∧
        bld.graph.Nodes.entries.length = 2 ∧
        bld.graph.Nodes.lookup "n2" = some (some na) ∧ na.Label = funName a ∧
        bld.graph.Nodes.lookup "n3" = some (some nb) ∧ nb.Label = funName b ∧
        bld.graph.Edges.entries = [⟨"n1", Edge.mk "n1" "n2" "n3" ["static"]⟩]) := by
  refine ⟨?_, ?_⟩
  · rw [addStaticEdge_twice]
    exact ⟨rfl, rfl, rfl, rfl⟩
  · intro hab pe s1 s2
    obtain ⟨na, nb, hla, hlb, hg⟩ := addStaticEdge_newGraph goroot a b hab
    refine ⟨{ graph := (addStaticEdge goroot newGraph a b).2, log := [] }, na, nb, ?_, ?_⟩
    · simp only [NewStatic, onDecls, onDecl, onCalls, onCall, applyOpts, List.foldl_nil]
      rw [addStaticEdge_twice]
      rfl
    · rw [hg]
      have hne : ("n2" : String) ≠ "n3" := by decide
      refine ⟨?_, ?_, hla, ?_, hlb, ?_⟩
      · dsimp only
        rw [entries_insert_of_lookup_none _ _ _ (by rw [AList.lookup_insert_ne hne.symm]; rfl)]
        rfl
      · dsimp only
        rw [AList.lookup_insert_ne hne, AList.lookup_insert]
      · exact AList.lookup_insert _
      · rfl

/-- Witness of C6 on the functions `A` and `B`. -/
theorem edge_collapsing_witness :
    funName sampleA ≠ funName sampleB ∧
    ∃ (bld : Build) (na nb : Node),
      NewStatic noGoroot false []
        [{ caller := sampleA, calls := [{ callee := CalleeObj.func sampleB, shown := "B()" },
                                        { callee := CalleeObj.func sampleB, shown := "B()" }] },
         { caller := sampleB, calls := [] }] = Except.ok bld ∧
      bld.graph.Nodes.entries.length = 2 ∧
      bld.graph.Nodes.lookup "n2" = some (some na) ∧ na.Label = funName sampleA ∧
      bld.graph.Nodes.lookup "n3" = some (some nb) ∧ nb.Label = funName sampleB ∧
      bld.graph.Edges.entries = [⟨"n1", Edge.mk "n1" "n2" "n3" ["static"]⟩] :=
  ⟨by decide, (edge_collapsing noGoroot newGraph sampleA sampleB).2 (by decide) false "B()" "B()"⟩


/-- C7 (edge-pair uniqueness): in every graph state reached from `newGraph`
by builder operations, with fewer than `2 ^ 64` registered names, no two
entries of `Edges` under different ids have the same `(Source, Target)`
pair; and when the caller names are free of `'>'` (so that the key
`call <caller> -> <callee>` determines the pair), for every caller and
callee passed to `addStaticEdge` the edge registered under their key is in
`Edges` and runs from the function node of the caller's name to that of the
callee's name. -/
theorem edge_pair_unique (goroot : String → Bool) (ops : List Op)
    (hlen : (runOps goroot ops newGraph).idMap.entries.length < 2 ^ 64) :
    (∀ id1 id2 e1 e2, (runOps goroot ops newGraph).Edges.lookup id1 = some e1 →
      (runOps goroot ops newGraph).Edges.lookup id2 = some e2 →
      e1.Source = e2.Source → e1.Target = e2.Target → id1 = id2) ∧
    ((∀ op ∈ ops, op.CallerPlain) →
      ∀ a b, Op.addStaticEdge a b ∈ ops → ∃ (id : ID) (e : Edge) (na nb : Node),
      (runOps goroot ops newGraph).idMap.lookup (callKey (funName a) (funName b)) = some id ∧
      (runOps goroot ops newGraph).Edges.lookup id = some e ∧
      (runOps goroot ops newGraph).Nodes.lookup e.Source = some (some na) ∧
      na.Label = funName a ∧ na.Type_ = NodeFunc ∧
      (runOps goroot ops newGraph).Nodes.lookup e.Target = some (some nb) ∧
      nb.Label = funName b ∧ nb.Type_ = NodeFunc) := by
  have hb := binv_runOps goroot ops newGraph binv_newGraph
  have hf := funcNodes_runOps goroot ops newGraph binv_newGraph funcNodes_newGraph hlen
  refine ⟨?_, ?_⟩
  · intro id1 id2 e1 e2 h1 h2 hs ht
    obtain ⟨x1, y1, k1, s1, t1⟩ := hb.edges id1 e1 h1
    obtain ⟨x2, y2, k2, s2, t2⟩ := hb.edges id2 e2 h2
    rw [hs] at s1
    rw [ht] at t1
    have ex : x1 = x2 := funcKey_injective (hb.injective hlen s1 s2)
    have ey : y1 = y2 := funcKey_injective (hb.injective hlen t1 t2)
    subst ex ey
    rw [k1] at k2
    exact Option.some.inj k2
  · intro hplain a b hab
    have hc := callEdges_runOps goroot ops newGraph binv_newGraph callEdges_newGraph hplain hlen
    obtain ⟨id, hid⟩ := runOps_registered_call goroot ops a b newGraph hab
    obtain ⟨e, he, _, _, hs, ht⟩ := hc _ _ id (hplain _ hab) hid
    obtain ⟨na, hna, _, hla, hta⟩ := hf _ _ hs
    obtain ⟨nb, hnb, _, hlb, htb⟩ := hf _ _ ht
    exact ⟨id, e, na, nb, hid, he, hna, hla, hta, hnb, hlb, htb⟩

/-- Witness of C7: `A` calls `B` at two call sites and `B` calls `A`. -/
theorem edge_pair_unique_witness :
    (runOps noGoroot [Op.addStaticEdge sampleA sampleB, Op.addStaticEdge sampleA sampleB,
      Op.addStaticEdge sampleB sampleA] newGraph).idMap.entries.length < 2 ^ 64 ∧
    (∀ op ∈ [Op.addStaticEdge sampleA sampleB, Op.addStaticEdge sampleA sampleB,
      Op.addStaticEdge sampleB sampleA], op.CallerPlain) ∧
    (runOps noGoroot [Op.addStaticEdge sampleA sampleB, Op.addStaticEdge sampleA sampleB,
      Op.addStaticEdge sampleB sampleA] newGraph).Edges.entries =
      [⟨"n4", Edge.mk "n4" "n3" "n2" ["static"]⟩, ⟨"n1", Edge.mk "n1" "n2" "n3" ["static"]⟩] ∧
    ∃ (id : ID) (e : Edge) (na nb : Node),
      (runOps noGoroot [Op.addStaticEdge sampleA sampleB, Op.addStaticEdge sampleA sampleB,
        Op.addStaticEdge sampleB sampleA] newGraph).idMap.lookup
          (callKey (funName sampleA) (funName sampleB)) = some id ∧
      (runOps noGoroot [Op.addStaticEdge sampleA sampleB, Op.addStaticEdge sampleA sampleB,
        Op.addStaticEdge sampleB sampleA] newGraph).Edges.lookup id = some e ∧
      (runOps noGoroot [Op.addStaticEdge sampleA sampleB, Op.addStaticEdge sampleA sampleB,
        Op.addStaticEdge sampleB sampleA] newGraph).Nodes.lookup e.Source = some (some na) ∧
      na.Label = funName sampleA ∧ na.Type_ = NodeFunc ∧
      (runOps noGoroot [Op.addStaticEdge sampleA sampleB, Op.addStaticEdge sampleA sampleB,
        Op.addStaticEdge sampleB sampleA] newGraph).Nodes.lookup e.Target = some (some nb) ∧
      nb.Label = funName sampleB ∧ nb.Type_ = NodeFunc :=
  have hplain : ∀ op ∈ [Op.addStaticEdge sampleA sampleB, Op.addStaticEdge sampleA sampleB,
      Op.addStaticEdge sampleB sampleA], op.CallerPlain := by
    intro op h
    simp only [List.mem_cons, List.mem_singleton, List.not_mem_nil, or_false] at h
    rcases h with rfl | rfl | rfl <;> (show '>' ∉ _; decide)
  ⟨by decide, hplain, by decide,
    (edge_pair_unique noGoroot [Op.addStaticEdge sampleA sampleB,
      Op.addStaticEdge sampleA sampleB, Op.addStaticEdge sampleB sampleA] (by decide)).2 hplain
      sampleA sampleB (List.mem_cons_self _ _)⟩

/-- C8 (endpoints exist): in every graph state reached from `newGraph` by
builder operations, the `Source` and the `Target` of every edge in `Edges`
are keys of `Nodes`, each holding a node. -/
theorem endpoints_exist (goroot : String → Bool) (ops : List Op) :
    ∀ id e, (runOps goroot ops newGraph).Edges.lookup id = some e →
      (e.Source ∈ (runOps goroot ops newGraph).Nodes ∧
        e.Target ∈ (runOps goroot ops newGraph).Nodes) ∧
      ∃ ns nt : Node, (runOps goroot ops newGraph).Nodes.lookup e.Source = some (some ns) ∧
        (runOps goroot ops newGraph).Nodes.lookup e.Target = some (some nt) := by
  have hb := binv_runOps goroot ops newGraph binv_newGraph
  intro id e he
  obtain ⟨x, y, _, hs, ht⟩ := hb.edges id e he
  obtain ⟨ns, hns⟩ := hb.funcs _ _ hs
  obtain ⟨nt, hnt⟩ := hb.funcs _ _ ht
  exact ⟨⟨mem_of_lookup hns, mem_of_lookup hnt⟩, ns, nt, hns, hnt⟩

/-- Witness of C8: the edge `n1` of the graph in which `A` calls `B`. -/
theorem endpoints_exist_witness :
    (runOps noGoroot [Op.addStaticEdge sampleA sampleB] newGraph).Edges.lookup "n1"
      = some (Edge.mk "n1" "n2" "n3" ["static"]) ∧
    ("n2" ∈ (runOps noGoroot [Op.addStaticEdge sampleA sampleB] newGraph).Nodes ∧
      "n3" ∈ (runOps noGoroot [Op.addStaticEdge sampleA sampleB] newGraph).Nodes) :=
  ⟨by decide,
    (endpoints_exist noGoroot [Op.addStaticEdge sampleA sampleB] "n1"
      (Edge.mk "n1" "n2" "n3" ["static"]) (by decide)).1⟩

/-- C9 (dynamic and builtin targets): `addDynamicEdge` and `addBuiltinEdge`
return the empty id and leave the graph as it is, and `NewStatic` on a
declaration whose call sites resolve to a variable and to a builtin returns
a graph without any edge: the code records no edge tagged `"dynamic"` or
`"builtin"`. -/
theorem dynamic_builtin_not_recorded (goroot : String → Bool) (printErrors : Bool)
    (g : StaticCallGraph) (caller : Func) (v : Var) (bi : Builtin) (s1 s2 : String) :
    addDynamicEdge g caller v = ("", g) ∧ addBuiltinEdge g caller bi = ("", g) ∧
    ∃ bld : Build,
      NewStatic goroot printErrors []
        [{ caller := caller, calls := [{ callee := CalleeObj.var v, shown := s1 },
                                       { callee := CalleeObj.builtin bi, shown := s2 }] }]
        = Except.ok bld ∧
      bld.graph = newGraph ∧ bld.graph.Edges.entries = [] :=
  ⟨rfl, rfl, { graph := newGraph, log := [] }, rfl, rfl, rfl⟩

/-- C10 (show orphaned callers): when `NewStatic` runs with
`ShowOrphanedNode` enabled and returns a graph (of fewer than `2 ^ 64`
registered names), every matched declaration, with or without call sites,
has its function node in the graph: the key of its name is registered, and
the node under that id is a `NodeFunc` node labelled with the name. -/
theorem show_orphaned (goroot : String → Bool) (printErrors : Bool) (opts : List StaticOption)
    (decls : List Decl) (bld : Build) (hflag : (applyOpts opts).ShowOrphanedNode = true)
    (hrun : NewStatic goroot printErrors opts decls = Except.ok bld)
    (hlen : bld.graph.idMap.entries.length < 2 ^ 64) :
    ∀ d ∈ decls, ∃ (id : ID) (node : Node),
      bld.graph.idMap.lookup (funcKey (funName d.caller)) = some id ∧
      bld.graph.Nodes.lookup id = some (some node) ∧ node.ID = id ∧
      node.Label = funName d.caller ∧ node.Type_ = NodeFunc := by
  have hg := NewStatic_graph goroot printErrors opts decls bld hrun
  rw [hg] at hlen ⊢
  have hf := funcNodes_runOps goroot _ newGraph binv_newGraph funcNodes_newGraph hlen
  intro d hd
  obtain ⟨id, hid⟩ := runOps_registered_func goroot _ d.caller newGraph
    (mem_buildOps_of_orphan _ hflag decls d hd)
  obtain ⟨node, h1, h2, h3, h4⟩ := hf _ _ hid
  exact ⟨id, node, hid, h1, h2, h3, h4⟩

/-- Witness of C10: the single declaration `A`, which has no call site. -/
theorem show_orphaned_witness :
    (applyOpts [WithShowOrphanedNode]).ShowOrphanedNode = true ∧
    ∃ bld : Build,
      NewStatic noGoroot false [WithShowOrphanedNode] [{ caller := sampleA, calls := [] }]
        = Except.ok bld ∧
      bld.graph.Edges.entries = [] ∧
      ∀ d ∈ [({ caller := sampleA, calls := [] } : Decl)], ∃ (id : ID) (node : Node),
        bld.graph.idMap.lookup (funcKey (funName d.caller)) = some id ∧
        bld.graph.Nodes.lookup id = some (some node) ∧ node.ID = id ∧
        node.Label = funName d.caller ∧ node.Type_ = NodeFunc :=
  ⟨rfl, { graph := (addNode noGoroot newGraph sampleA).2, log := [] }, rfl, by decide,
    show_orphaned noGoroot false [WithShowOrphanedNode] [{ caller := sampleA, calls := [] }]
      { graph := (addNode noGoroot newGraph sampleA).2, log := [] } rfl rfl (by decide)⟩


/-! ## The adjacency map of `SubGraph` -/

theorem outEdges_insert (m : GoMap (List Pair)) (k : ID) (v : List Pair) (s : ID) :
    outEdges (m.insert k v) s = if s = k then v else outEdges m s := by
  by_cases h : s = k
  · subst h; simp [outEdges]
  · simp [outEdges, AList.lookup_insert_ne h, h]

theorem outEdges_buildEdges (s : ID) : ∀ (es : List (Sigma fun _ : String => Edge))
    (m : GoMap (List Pair)),
    outEdges (buildEdges es m) s = outEdges m s ++
      es.filterMap (fun it => if it.2.Source = s then some (it.1, it.2.Target) else none) := by
  intro es
  induction es with
  | nil => intro m; simp [buildEdges]
  | cons it es ih =>
    intro m
    have hstep : buildEdges (it :: es) m = buildEdges es
        (m.insert it.2.Source (((m.lookup it.2.Source).getD []) ++ [(it.1, it.2.Target)])) := rfl
    rw [hstep, ih, outEdges_insert]
    by_cases h : it.2.Source = s
    · subst h
      simp [outEdges]
    · have h1 : ¬ s = it.2.Source := fun e => h e.symm
      simp [h, h1]

/-- The pairs of `edges[source]` are the edges of `g` that leave `source`. -/
theorem mem_outEdges (g : StaticCallGraph) (s : ID) (p : Pair) :
    p ∈ outEdges (buildEdges g.Edges.entries ∅) s ↔
      ∃ e, g.Edges.lookup p.1 = some e ∧ e.Source = s ∧ e.Target = p.2 := by
  rw [outEdges_buildEdges]
  have h0 : outEdges (∅ : GoMap (List Pair)) s = [] := rfl
  rw [h0, List.nil_append, List.mem_filterMap]
  constructor
  · rintro ⟨it, hit, hp⟩
    by_cases hs : it.2.Source = s
    · rw [if_pos hs] at hp
      cases hp
      refine ⟨it.2, ?_, hs, rfl⟩
      exact AList.mem_lookup_iff.mpr (by cases it; exact hit)
    · rw [if_neg hs] at hp
      exact absurd hp (by simp)
  · rintro ⟨e, he, hs, ht⟩
    refine ⟨⟨p.1, e⟩, AList.mem_lookup_iff.mp he, ?_⟩
    rw [if_pos hs, ht]

/-! ## The invariant of the traversal -/

theorem isSome_ptrAt_iff {V : Type} (m : GoMap (Option V)) (k : ID)
    (hv : ∀ v, m.lookup k = some v → v.isSome = true) :
    (ptrAt m k).isSome = true ↔ k ∈ m := by
  constructor
  · intro h
    cases h1 : m.lookup k with
    | none => simp [ptrAt, h1] at h
    | some v => exact mem_of_lookup h1
  · intro h
    obtain ⟨v, h1⟩ := Option.isSome_iff_exists.mp (AList.lookup_isSome.mpr h)
    have := hv v h1
    simp [ptrAt, h1, this]

theorem WInv.visited_iff {g : StaticCallGraph} {rootPred : Option Node → Bool} {w : Walk}
    (h : WInv g rootPred w) (id : ID) :
    (ptrAt w.subGraph.Nodes id).isSome = true ↔ id ∈ w.subGraph.Nodes :=
  isSome_ptrAt_iff _ _ (fun v hv => (h.nodes_val id v hv).1)

theorem Extends.self (w : Walk) : Extends w w := ⟨fun _ h => h, fun _ h => h⟩

theorem Extends.followedBy {w w1 w2 : Walk} (h1 : Extends w w1) (h2 : Extends w1 w2) :
    Extends w w2 :=
  ⟨fun id h => h2.1 id (h1.1 id h), fun id h => h2.2 id (h1.2 id h)⟩

theorem Done.mono {g : StaticCallGraph} {w w1 : Walk} {n : ID} (h : Done g w n)
    (he : Extends w w1) : Done g w1 n :=
  fun eid e h1 h2 => ⟨he.2 _ (h eid e h1 h2).1, he.1 _ (h eid e h1 h2).2⟩

theorem winv_start (g : StaticCallGraph) (rootPred : Option Node → Bool) :
    WInv g rootPred { subGraph := newGraph, expanded := [] } where
  nodes_val := by intro id v h; simp [newGraph] at h
  edges_val := by intro id e h; simp [newGraph] at h
  sound_nodes := by intro id h; exact absurd h (by simp [newGraph])
  sound_edges := by intro id h; exact absurd h (by simp [newGraph])
  expanded_iff := by intro id; simp [newGraph]
  expanded_nodup := List.nodup_nil

theorem copyEdge_nodes (g : StaticCallGraph) (eid : ID) (w : Walk) :
    (copyEdge g eid w).subGraph.Nodes = w.subGraph.Nodes := by
  unfold copyEdge
  cases g.Edges.lookup eid <;> rfl

theorem copyEdge_expanded (g : StaticCallGraph) (eid : ID) (w : Walk) :
    (copyEdge g eid w).expanded = w.expanded := by
  unfold copyEdge
  cases g.Edges.lookup eid <;> rfl

theorem copyEdge_extends (g : StaticCallGraph) (eid : ID) (w : Walk) :
    Extends w (copyEdge g eid w) := by
  refine ⟨by rw [copyEdge_nodes]; exact fun _ h => h, ?_⟩
  unfold copyEdge
  cases g.Edges.lookup eid with
  | none => exact fun _ h => h
  | some e => exact fun _ h => mem_insert_of_mem _ _ h

theorem copyEdge_mem (g : StaticCallGraph) {eid : ID} {e : Edge} (w : Walk)
    (h : g.Edges.lookup eid = some e) : eid ∈ (copyEdge g eid w).subGraph.Edges := by
  unfold copyEdge
  rw [h]
  exact mem_insert_self _ _ _

/-- Copying an edge that leaves a node of the subgraph keeps the invariant. -/
theorem winv_copyEdge {g : StaticCallGraph} {rootPred : Option Node → Bool} {w : Walk}
    (h : WInv g rootPred w) {eid : ID} {e : Edge} (he : g.Edges.lookup eid = some e)
    (hs : e.Source ∈ w.subGraph.Nodes) : WInv g rootPred (copyEdge g eid w) where
  nodes_val := by rw [copyEdge_nodes]; exact h.nodes_val
  edges_val := by
    intro id1 e1 h1
    unfold copyEdge at h1
    rw [he] at h1
    rcases lookup_insert_cases w.subGraph.Edges eid e id1 with ⟨k1, k2⟩ | ⟨_, k2⟩
    · dsimp only at h1
      rw [k2] at h1
      rw [k1, he, ← h1]
    · dsimp only at h1
      rw [k2] at h1
      exact h.edges_val id1 e1 h1
  sound_nodes := by rw [copyEdge_nodes]; exact h.sound_nodes
  sound_edges := by
    intro id1 h1
    unfold copyEdge at h1
    rw [he] at h1
    rcases (AList.mem_insert _).mp h1 with k | k
    · rw [k]; exact ⟨e, he, h.sound_nodes _ hs⟩
    · exact h.sound_edges id1 k
  expanded_iff := by rw [copyEdge_nodes, copyEdge_expanded]; exact h.expanded_iff
  expanded_nodup := by rw [copyEdge_expanded]; exact h.expanded_nodup

theorem markNode_extends (g : StaticCallGraph) (source : ID) (w : Walk) :
    Extends w (markNode g source w) :=
  ⟨fun _ h => mem_insert_of_mem _ _ h, fun _ h => h⟩

theorem markNode_mem (g : StaticCallGraph) (source : ID) (w : Walk) :
    source ∈ (markNode g source w).subGraph.Nodes :=
  mem_insert_self _ _ _

/-- Marking a reachable node of `g` that is not yet in the subgraph keeps
the invariant. -/
theorem winv_markNode {g : StaticCallGraph} {rootPred : Option Node → Bool} {w : Walk}
    (h : WInv g rootPred w) {source : ID} (hn : (ptrAt g.Nodes source).isSome = true)
    (hr : Reach g rootPred source) (hnew : source ∉ w.subGraph.Nodes) :
    WInv g rootPred (markNode g source w) where
  nodes_val := by
    intro id v hv
    rcases lookup_insert_cases w.subGraph.Nodes source (ptrAt g.Nodes source) id with
      ⟨k1, k2⟩ | ⟨_, k2⟩
    · have hv1 : (w.subGraph.Nodes.insert source (ptrAt g.Nodes source)).lookup id = some v := hv
      rw [k2] at hv1
      have hv2 : ptrAt g.Nodes source = v := Option.some.inj hv1
      subst hv2
      refine ⟨hn, ?_⟩
      rw [k1]
      cases hl : g.Nodes.lookup source with
      | none => simp [ptrAt, hl] at hn
      | some v0 => simp [ptrAt, hl]
    · have hv1 : (w.subGraph.Nodes.insert source (ptrAt g.Nodes source)).lookup id = some v := hv
      rw [k2] at hv1
      exact h.nodes_val id v hv1
  edges_val := h.edges_val
  sound_nodes := by
    intro id hid
    rcases (AList.mem_insert _).mp hid with k | k
    · rw [k]; exact hr
    · exact h.sound_nodes id k
  sound_edges := h.sound_edges
  expanded_iff := by
    intro id
    show id ∈ w.expanded ++ [source] ↔ id ∈ w.subGraph.Nodes.insert source _
    rw [List.mem_append, List.mem_singleton, AList.mem_insert, h.expanded_iff]
    tauto
  expanded_nodup := by
    show (w.expanded ++ [source]).Nodup
    rw [List.nodup_append]
    refine ⟨h.expanded_nodup, List.nodup_singleton _, ?_⟩
    intro a ha hb
    rw [List.mem_singleton] at hb
    subst hb
    exact hnew ((h.expanded_iff _).mp ha)


/-! ## What the traversal establishes -/

theorem target_isSome {g : StaticCallGraph} (hc : TargetsExist g) {eid : ID} {e : Edge}
    (he : g.Edges.lookup eid = some e) : (ptrAt g.Nodes e.Target).isSome = true :=
  hc.2 ⟨eid, e⟩ (AList.mem_lookup_iff.mp he)

theorem walkEdges_spec {g : StaticCallGraph} {rootPred : Option Node → Bool}
    (hc : TargetsExist g) (visit : ID → Walk → Option Walk)
    (hv : ∀ t w w1, visit t w = some w1 → (ptrAt g.Nodes t).isSome = true →
      Reach g rootPred t → WInv g rootPred w → DfsPost g rootPred t w w1)
    (source : ID) : ∀ (l : List Pair) (w w1 : Walk), walkEdges visit g l w = some w1 →
      (∀ p ∈ l, ∃ e, g.Edges.lookup p.1 = some e ∧ e.Source = source ∧ e.Target = p.2) →
      source ∈ w.subGraph.Nodes → WInv g rootPred w →
      WInv g rootPred w1 ∧ Extends w w1 ∧
      (∀ p ∈ l, p.1 ∈ w1.subGraph.Edges ∧ p.2 ∈ w1.subGraph.Nodes) ∧
      (∀ n, n ∈ w1.subGraph.Nodes → n ∉ w.subGraph.Nodes → Done g w1 n) := by
  intro l
  induction l with
  | nil =>
    intro w w1 h _ _ hw
    simp only [walkEdges, Option.some.injEq] at h
    subst h
    exact ⟨hw, Extends.self _, by simp, fun n h1 h2 => absurd h1 h2⟩
  | cons p rest ih =>
    intro w w1 h hl hs hw
    simp only [walkEdges] at h
    obtain ⟨e, he, hes, het⟩ := hl p (List.mem_cons_self _ _)
    have hwc := winv_copyEdge hw he (by rw [hes]; exact hs)
    cases hvis : visit p.2 (copyEdge g p.1 w) with
    | none => rw [hvis] at h; exact absurd h (by simp)
    | some w2 =>
      rw [hvis] at h
      have hreach : Reach g rootPred p.2 := by
        rw [← het]
        exact Reach.step p.1 e (by rw [hes]; exact hw.sound_nodes _ hs) he
      have hpost := hv p.2 _ w2 hvis (by rw [← het]; exact target_isSome hc he) hreach hwc
      have hext2 : Extends w w2 := (copyEdge_extends g p.1 w).followedBy hpost.ext
      obtain ⟨i1, i2, i3, i4⟩ := ih w2 w1 h (fun q hq => hl q (List.mem_cons_of_mem _ hq))
        (hext2.1 _ hs) hpost.inv
      refine ⟨i1, hext2.followedBy i2, ?_, ?_⟩
      · intro q hq
        rcases List.mem_cons.mp hq with rfl | hq
        · exact ⟨i2.2 _ (hpost.ext.2 _ (copyEdge_mem g w he)), i2.1 _ hpost.mem⟩
        · exact i3 q hq
      · intro n hn hnw
        by_cases h2 : n ∈ w2.subGraph.Nodes
        · exact (hpost.done n h2 (by rw [copyEdge_nodes]; exact hnw)).mono i2
        · exact i4 n hn h2

theorem dfs_spec {g : StaticCallGraph} {rootPred : Option Node → Bool} (hc : TargetsExist g) :
    ∀ (fuel : Nat) (t : ID) (w w1 : Walk),
      dfs g (buildEdges g.Edges.entries ∅) fuel t w = some w1 →
      (ptrAt g.Nodes t).isSome = true → Reach g rootPred t → WInv g rootPred w →
      DfsPost g rootPred t w w1 := by
  intro fuel
  induction fuel with
  | zero => intro t w w1 h; simp [dfs] at h
  | succ fuel ih =>
    intro t w w1 h hn hr hw
    simp only [dfs] at h
    by_cases hvis : (ptrAt w.subGraph.Nodes t).isSome = true
    · rw [if_pos hvis] at h
      cases h
      exact ⟨hw, Extends.self _, (hw.visited_iff t).mp hvis, fun n h1 h2 => absurd h1 h2⟩
    · rw [if_neg hvis] at h
      have hnew : t ∉ w.subGraph.Nodes := fun hm => hvis ((hw.visited_iff t).mpr hm)
      have hw1 := winv_markNode hw hn hr hnew
      obtain ⟨i1, i2, i3, i4⟩ := walkEdges_spec hc _ ih t _ _ w1 h
        (fun p hp => (mem_outEdges g t p).mp hp) (markNode_mem g t w) hw1
      refine ⟨i1, (markNode_extends g t w).followedBy i2, i2.1 _ (markNode_mem g t w), ?_⟩
      intro n hn1 hn2
      by_cases e : n = t
      · subst e
        intro eid e he hes
        exact i3 (eid, e.Target) ((mem_outEdges g n _).mpr ⟨e, he, hes, rfl⟩)
      · refine i4 n hn1 ?_
        intro hm
        rcases (AList.mem_insert _).mp hm with k | k
        · exact e k
        · exact hn2 k

theorem walkRoots_spec {g : StaticCallGraph} {rootPred : Option Node → Bool}
    (visit : ID → Walk → Option Walk)
    (hv : ∀ t w w1, visit t w = some w1 → (ptrAt g.Nodes t).isSome = true →
      Reach g rootPred t → WInv g rootPred w → DfsPost g rootPred t w w1) :
    ∀ (l : List ID) (w w1 : Walk), walkRoots visit l w = some w1 →
      (∀ r ∈ l, (ptrAt g.Nodes r).isSome = true ∧ Reach g rootPred r) → WInv g rootPred w →
      WInv g rootPred w1 ∧ Extends w w1 ∧ (∀ r ∈ l, r ∈ w1.subGraph.Nodes) ∧
      (∀ n, n ∈ w1.subGraph.Nodes → n ∉ w.subGraph.Nodes → Done g w1 n) := by
  intro l
  induction l with
  | nil =>
    intro w w1 h _ hw
    simp only [walkRoots, Option.some.injEq] at h
    subst h
    exact ⟨hw, Extends.self _, by simp, fun n h1 h2 => absurd h1 h2⟩
  | cons r rest ih =>
    intro w w1 h hl hw
    simp only [walkRoots] at h
    cases hvis : visit r w with
    | none => rw [hvis] at h; exact absurd h (by simp)
    | some w2 =>
      rw [hvis] at h
      obtain ⟨hr1, hr2⟩ := hl r (List.mem_cons_self _ _)
      have hpost := hv r w w2 hvis hr1 hr2 hw
      obtain ⟨i1, i2, i3, i4⟩ := ih w2 w1 h (fun q hq => hl q (List.mem_cons_of_mem _ hq))
        hpost.inv
      refine ⟨i1, hpost.ext.followedBy i2, ?_, ?_⟩
      · intro q hq
        rcases List.mem_cons.mp hq with rfl | hq
        · exact i2.1 _ hpost.mem
        · exact i3 q hq
      · intro n hn hnw
        by_cases h2 : n ∈ w2.subGraph.Nodes
        · exact (hpost.done n h2 hnw).mono i2
        · exact i4 n hn h2

/-! ## Termination of the traversal -/

theorem unvisited_mono (g : StaticCallGraph) {w w1 : Walk} (h : Extends w w1) :
    unvisited g w1 ⊆ unvisited g w := by
  intro k hk
  simp only [unvisited, Finset.mem_filter] at hk ⊢
  exact ⟨hk.1, fun hm => hk.2 (h.1 k hm)⟩

theorem unvisited_copyEdge (g : StaticCallGraph) (eid : ID) (w : Walk) :
    unvisited g (copyEdge g eid w) = unvisited g w := by
  simp only [unvisited, copyEdge_nodes]

theorem unvisited_markNode_lt (g : StaticCallGraph) {source : ID} {w : Walk}
    (hn : (ptrAt g.Nodes source).isSome = true) (hnew : source ∉ w.subGraph.Nodes) :
    (unvisited g (markNode g source w)).card < (unvisited g w).card := by
  apply Finset.card_lt_card
  rw [Finset.ssubset_iff_of_subset (unvisited_mono g (markNode_extends g source w))]
  refine ⟨source, ?_, ?_⟩
  · simp only [unvisited, Finset.mem_filter, List.mem_toFinset]
    refine ⟨?_, hnew⟩
    cases hl : g.Nodes.lookup source with
    | none => simp [ptrAt, hl] at hn
    | some v => exact AList.mem_keys.mp (mem_of_lookup hl)
  · simp only [unvisited, Finset.mem_filter, not_and, not_not]
    exact fun _ => markNode_mem g source w

theorem unvisited_card_le (g : StaticCallGraph) (w : Walk) :
    (unvisited g w).card ≤ g.Nodes.entries.length := by
  have h1 : (unvisited g w).card ≤ g.Nodes.keys.toFinset.card :=
    Finset.card_le_card (Finset.filter_subset _ _)
  have h2 : g.Nodes.keys.toFinset.card ≤ g.Nodes.keys.length := List.toFinset_card_le _
  have h3 : g.Nodes.keys.length = g.Nodes.entries.length := by
    simp [AList.keys, List.keys]
  omega

theorem walkEdges_terminates {g : StaticCallGraph} {rootPred : Option Node → Bool}
    (hc : TargetsExist g) (visit : ID → Walk → Option Walk) (fuel : Nat)
    (hv : ∀ t w w1, visit t w = some w1 → (ptrAt g.Nodes t).isSome = true →
      Reach g rootPred t → WInv g rootPred w → DfsPost g rootPred t w w1)
    (ht : ∀ t w, (ptrAt g.Nodes t).isSome = true → Reach g rootPred t → WInv g rootPred w →
      (unvisited g w).card < fuel → ∃ w1, visit t w = some w1)
    (source : ID) : ∀ (l : List Pair) (w : Walk),
      (∀ p ∈ l, ∃ e, g.Edges.lookup p.1 = some e ∧ e.Source = source ∧ e.Target = p.2) →
      source ∈ w.subGraph.Nodes → WInv g rootPred w → (unvisited g w).card < fuel →
      ∃ w1, walkEdges visit g l w = some w1 := by
  intro l
  induction l with
  | nil => intro w _ _ _ _; exact ⟨w, rfl⟩
  | cons p rest ih =>
    intro w hl hs hw hlt
    obtain ⟨e, he, hes, het⟩ := hl p (List.mem_cons_self _ _)
    have hwc := winv_copyEdge hw he (by rw [hes]; exact hs)
    have hreach : Reach g rootPred p.2 := by
      rw [← het]
      exact Reach.step p.1 e (by rw [hes]; exact hw.sound_nodes _ hs) he
    have hsome : (ptrAt g.Nodes p.2).isSome = true := by
      rw [← het]; exact target_isSome hc he
    obtain ⟨w2, hvis⟩ := ht p.2 (copyEdge g p.1 w) hsome hreach hwc
      (by rw [unvisited_copyEdge]; exact hlt)
    have hpost := hv p.2 _ w2 hvis hsome hreach hwc
    have hext2 : Extends w w2 := (copyEdge_extends g p.1 w).followedBy hpost.ext
    obtain ⟨w1, h1⟩ := ih w2 (fun q hq => hl q (List.mem_cons_of_mem _ hq)) (hext2.1 _ hs)
      hpost.inv (lt_of_le_of_lt (Finset.card_le_card (unvisited_mono g hext2)) hlt)
    refine ⟨w1, ?_⟩
    simp only [walkEdges, hvis]
    exact h1

theorem dfs_terminates {g : StaticCallGraph} {rootPred : Option Node → Bool}
    (hc : TargetsExist g) : ∀ (fuel : Nat) (t : ID) (w : Walk),
      (ptrAt g.Nodes t).isSome = true → Reach g rootPred t → WInv g rootPred w →
      (unvisited g w).card < fuel →
      ∃ w1, dfs g (buildEdges g.Edges.entries ∅) fuel t w = some w1 := by
  intro fuel
  induction fuel with
  | zero => intro t w _ _ _ h; omega
  | succ fuel ih =>
    intro t w hn hr hw hlt
    simp only [dfs]
    by_cases hvis : (ptrAt w.subGraph.Nodes t).isSome = true
    · rw [if_pos hvis]; exact ⟨w, rfl⟩
    · rw [if_neg hvis]
      have hnew : t ∉ w.subGraph.Nodes := fun hm => hvis ((hw.visited_iff t).mpr hm)
      have hw1 := winv_markNode hw hn hr hnew
      have hlt1 := unvisited_markNode_lt g hn hnew
      exact walkEdges_terminates hc _ fuel (dfs_spec hc fuel) ih t _ _
        (fun p hp => (mem_outEdges g t p).mp hp) (markNode_mem g t w) hw1 (by omega)

theorem walkRoots_terminates {g : StaticCallGraph} {rootPred : Option Node → Bool}
    (visit : ID → Walk → Option Walk) (fuel : Nat)
    (hv : ∀ t w w1, visit t w = some w1 → (ptrAt g.Nodes t).isSome = true →
      Reach g rootPred t → WInv g rootPred w → DfsPost g rootPred t w w1)
    (ht : ∀ t w, (ptrAt g.Nodes t).isSome = true → Reach g rootPred t → WInv g rootPred w →
      (unvisited g w).card < fuel → ∃ w1, visit t w = some w1) :
    ∀ (l : List ID) (w : Walk),
      (∀ r ∈ l, (ptrAt g.Nodes r).isSome = true ∧ Reach g rootPred r) → WInv g rootPred w →
      (unvisited g w).card < fuel → ∃ w1, walkRoots visit l w = some w1 := by
  intro l
  induction l with
  | nil => intro w _ _ _; exact ⟨w, rfl⟩
  | cons r rest ih =>
    intro w hl hw hlt
    obtain ⟨hr1, hr2⟩ := hl r (List.mem_cons_self _ _)
    obtain ⟨w2, hvis⟩ := ht r w hr1 hr2 hw hlt
    have hpost := hv r w w2 hvis hr1 hr2 hw
    obtain ⟨w1, h1⟩ := ih w2 (fun q hq => hl q (List.mem_cons_of_mem _ hq)) hpost.inv
      (lt_of_le_of_lt (Finset.card_le_card (unvisited_mono g hpost.ext)) hlt)
    refine ⟨w1, ?_⟩
    simp only [walkRoots, hvis]
    exact h1


/-! ## `SubGraph` -/

theorem mem_findRoots (g : StaticCallGraph) (rootPred : Option Node → Bool) (r : ID) :
    r ∈ findRoots g rootPred ↔ ∃ v, g.Nodes.lookup r = some v ∧ rootPred v = true := by
  simp only [findRoots, List.mem_filterMap]
  constructor
  · rintro ⟨it, hit, hp⟩
    by_cases hr : rootPred it.2 = true
    · rw [if_pos hr] at hp
      cases hp
      exact ⟨it.2, AList.mem_lookup_iff.mpr (by cases it; exact hit), hr⟩
    · rw [if_neg hr] at hp
      exact absurd hp (by simp)
  · rintro ⟨v, hv, hp⟩
    exact ⟨⟨r, v⟩, AList.mem_lookup_iff.mp hv, by simp [hp]⟩

theorem root_isSome {g : StaticCallGraph} (hc : TargetsExist g) {r : ID} {v : Option Node}
    (h : g.Nodes.lookup r = some v) : (ptrAt g.Nodes r).isSome = true := by
  have := hc.1 ⟨r, v⟩ (AList.mem_lookup_iff.mp h)
  simpa [ptrAt, h] using this

/-- On a graph whose edge targets exist, the traversal returns with any
fuel above the number of nodes; its final state satisfies the invariant,
holds every root, and holds all outgoing edges of each of its nodes. -/
theorem subGraphWalk_spec (g : StaticCallGraph) (rootPred : Option Node → Bool)
    (hc : TargetsExist g) (fuel : Nat) (hf : g.Nodes.entries.length < fuel) :
    ∃ w, SubGraphWalk fuel g rootPred = some w ∧ WInv g rootPred w ∧
      (∀ r ∈ findRoots g rootPred, r ∈ w.subGraph.Nodes) ∧
      (∀ n, n ∈ w.subGraph.Nodes → Done g w n) := by
  have hroots : ∀ r ∈ findRoots g rootPred,
      (ptrAt g.Nodes r).isSome = true ∧ Reach g rootPred r := by
    intro r hr
    obtain ⟨v, hv, hp⟩ := (mem_findRoots g rootPred r).mp hr
    exact ⟨root_isSome hc hv, Reach.root r v hv hp⟩
  have h0 := winv_start g rootPred
  obtain ⟨w, hw⟩ := walkRoots_terminates _ fuel (dfs_spec hc fuel) (dfs_terminates hc fuel)
    (findRoots g rootPred) _ hroots h0 (lt_of_le_of_lt (unvisited_card_le g _) hf)
  obtain ⟨i1, _, i3, i4⟩ := walkRoots_spec _ (dfs_spec hc fuel) (findRoots g rootPred) _ w hw
    hroots h0
  exact ⟨w, hw, i1, i3, fun n hn => i4 n hn (by simp [newGraph])⟩

/-- A closed set of nodes that holds the roots holds every reachable node. -/
theorem reach_mem_of_done {g : StaticCallGraph} {rootPred : Option Node → Bool} {w : Walk}
    (hroots : ∀ r ∈ findRoots g rootPred, r ∈ w.subGraph.Nodes)
    (hdone : ∀ n, n ∈ w.subGraph.Nodes → Done g w n) {id : ID} (h : Reach g rootPred id) :
    id ∈ w.subGraph.Nodes := by
  induction h with
  | root id v hv hp => exact hroots id ((mem_findRoots g rootPred id).mpr ⟨v, hv, hp⟩)
  | step eid e _ he ih => exact (hdone _ ih eid e he rfl).2

/-- The guard of `dfs`: on a node that is marked visited the call returns
at once and leaves the state as it is. -/
theorem dfs_visited (g : StaticCallGraph) (edges : GoMap (List Pair)) (fuel : Nat) (source : ID)
    (w : Walk) (h : (ptrAt w.subGraph.Nodes source).isSome = true) :
    dfs g edges (fuel + 1) source w = some w := by
  simp only [dfs]
  rw [if_pos h]

/-- Every graph the builder makes has the shape `SubGraph` relies on. -/
theorem targetsExist_of_binv {g : StaticCallGraph} (h : BInv g) : TargetsExist g := by
  constructor
  · intro it hit
    have hl : g.Nodes.lookup it.1 = some it.2 := AList.mem_lookup_iff.mpr (by cases it; exact hit)
    cases hv : it.2 with
    | none => exact absurd hv (h.nonnil it.1 it.2 hl)
    | some n => rfl
  · intro it hit
    have hl : g.Edges.lookup it.1 = some it.2 := AList.mem_lookup_iff.mpr (by cases it; exact hit)
    obtain ⟨x, y, _, _, ht⟩ := h.edges it.1 it.2 hl
    obtain ⟨node, hn⟩ := h.funcs _ _ ht
    simp [ptrAt, hn]

theorem targetsExist_runOps (goroot : String → Bool) (ops : List Op) :
    TargetsExist (runOps goroot ops newGraph) :=
  targetsExist_of_binv (binv_runOps goroot ops newGraph binv_newGraph)


/-! ## Properties of `SubGraph` -/

/-- C1 (subgraph correctness): for every graph of the data model, in which
every entry of `Nodes` holds a node and the `Target` of every edge is a key
of `Nodes` (every graph the builder makes is one, `targetsExist_runOps`),
and for every root predicate, `SubGraph` returns (with any recursion depth
above the number of nodes) a graph whose `Nodes` contain a key if and only
if it is reachable from a root over the edges of the graph, a root being
reachable from itself, and whose `Edges` contain a key if and only if it is
an edge that lies on such a path; the entries are those of the graph. -/
theorem subGraph_correct (g : StaticCallGraph) (rootPred : Option Node → Bool)
    (hc : TargetsExist g) (fuel : Nat) (hf : g.Nodes.entries.length < fuel) :
    ∃ sg, SubGraph fuel g rootPred = some sg ∧
      (∀ id, id ∈ sg.Nodes ↔ Reach g rootPred id) ∧
      (∀ eid, eid ∈ sg.Edges ↔ OnPath g rootPred eid) ∧
      (∀ id v, sg.Nodes.lookup id = some v → g.Nodes.lookup id = some v) ∧
      (∀ eid e, sg.Edges.lookup eid = some e → g.Edges.lookup eid = some e) := by
  obtain ⟨w, hw, hinv, hroots, hdone⟩ := subGraphWalk_spec g rootPred hc fuel hf
  refine ⟨w.subGraph, by simp [SubGraph, hw], ?_, ?_, ?_, hinv.edges_val⟩
  · exact fun id => ⟨hinv.sound_nodes id, reach_mem_of_done hroots hdone⟩
  · intro eid
    refine ⟨hinv.sound_edges eid, ?_⟩
    rintro ⟨e, he, hr⟩
    exact (hdone _ (reach_mem_of_done hroots hdone hr) eid e he rfl).1
  · exact fun id v hv => (hinv.nodes_val id v hv).2

/-- Witness of C1: the mutual recursion of `A` and `B`, from the root `A`. -/
theorem subGraph_correct_witness :
    TargetsExist mutualAB ∧ mutualAB.Nodes.entries.length < 3 ∧
    ∃ sg, SubGraph 3 mutualAB (labelIs "A") = some sg ∧
      (∀ id, id ∈ sg.Nodes ↔ Reach mutualAB (labelIs "A") id) ∧
      (∀ eid, eid ∈ sg.Edges ↔ OnPath mutualAB (labelIs "A") eid) ∧
      (∀ id v, sg.Nodes.lookup id = some v → mutualAB.Nodes.lookup id = some v) ∧
      (∀ eid e, sg.Edges.lookup eid = some e → mutualAB.Edges.lookup eid = some e) :=
  ⟨by decide, by decide, subGraph_correct mutualAB (labelIs "A") (by decide) 3 (by decide)⟩

theorem danglingLoop_dfs_X : ∀ (fuel : Nat) (w : Walk),
    (ptrAt w.subGraph.Nodes "X").isSome = false →
    dfs danglingLoop (buildEdges danglingLoop.Edges.entries ∅) fuel "X" w = none := by
  intro fuel
  induction fuel with
  | zero => intro w _; rfl
  | succ fuel ih =>
    intro w hw
    have hout : outEdges (buildEdges danglingLoop.Edges.entries ∅) "X" = [("e2", "X")] := by
      decide
    have hgx : ptrAt danglingLoop.Nodes "X" = none := by decide
    simp only [dfs, hw, hout, walkEdges]
    rw [ih]
    · rfl
    · rw [copyEdge_nodes]
      show (ptrAt (w.subGraph.Nodes.insert "X" (ptrAt danglingLoop.Nodes "X")) "X").isSome = false
      rw [hgx]
      simp [ptrAt]

/-- Outside the data model: on the hand-made value with the node `A`, an
edge from `A` to `X` and an edge from `X` to `X`, where `X` is not a key of
`Nodes`, `SubGraph` with root `A` returns no graph, whatever the recursion
depth: the check `subGraph.Nodes[source] != nil` never holds for `X`. No run
of the builder makes such a value. -/
theorem subGraph_diverges_on_dangling_loop :
    ¬ ∃ (fuel : Nat) (sg : StaticCallGraph), SubGraph fuel danglingLoop (labelIs "A") = some sg := by
  rintro ⟨fuel, sg, h⟩
  have hroots : findRoots danglingLoop (labelIs "A") = ["A"] := by decide
  have hnone : SubGraphWalk fuel danglingLoop (labelIs "A") = none := by
    simp only [SubGraphWalk, hroots, walkRoots]
    cases fuel with
    | zero => rfl
    | succ fuel =>
      have hout : outEdges (buildEdges danglingLoop.Edges.entries ∅) "A" = [("e1", "X")] := by
        decide
      have hvis : (ptrAt ({ subGraph := newGraph, expanded := [] } : Walk).subGraph.Nodes "A").isSome
          = false := by decide
      simp only [dfs, hvis, hout, walkEdges]
      rw [danglingLoop_dfs_X fuel _ (by decide)]
      rfl
  simp [SubGraph, hnone] at h

theorem danglingCycle_dfs : ∀ (fuel : Nat) (w : Walk),
    (ptrAt w.subGraph.Nodes "X").isSome = false → (ptrAt w.subGraph.Nodes "Y").isSome = false →
    dfs danglingCycle (buildEdges danglingCycle.Edges.entries ∅) fuel "X" w = none ∧
    dfs danglingCycle (buildEdges danglingCycle.Edges.entries ∅) fuel "Y" w = none := by
  intro fuel
  induction fuel with
  | zero => intro w _ _; exact ⟨rfl, rfl⟩
  | succ fuel ih =>
    intro w hx hy
    have houtx : outEdges (buildEdges danglingCycle.Edges.entries ∅) "X" = [("e2", "Y")] := by
      decide
    have houty : outEdges (buildEdges danglingCycle.Edges.entries ∅) "Y" = [("e3", "X")] := by
      decide
    have hgx : ptrAt danglingCycle.Nodes "X" = none := by decide
    have hgy : ptrAt danglingCycle.Nodes "Y" = none := by decide
    have hxy : ("X" : String) ≠ "Y" := by decide
    constructor
    · simp only [dfs, hx, houtx, walkEdges]
      rw [(ih _ ?_ ?_).2]
      · rfl
      · rw [copyEdge_nodes]
        show (ptrAt (w.subGraph.Nodes.insert "X" (ptrAt danglingCycle.Nodes "X")) "X").isSome
          = false
        rw [hgx]
        simp [ptrAt]
      · rw [copyEdge_nodes]
        show (ptrAt (w.subGraph.Nodes.insert "X" (ptrAt danglingCycle.Nodes "X")) "Y").isSome
          = false
        simp only [ptrAt, AList.lookup_insert_ne hxy.symm]
        exact hy
    · simp only [dfs, hy, houty, walkEdges]
      rw [(ih _ ?_ ?_).1]
      · rfl
      · rw [copyEdge_nodes]
        show (ptrAt (w.subGraph.Nodes.insert "Y" (ptrAt danglingCycle.Nodes "Y")) "X").isSome
          = false
        simp only [ptrAt, AList.lookup_insert_ne hxy]
        exact hx
      · rw [copyEdge_nodes]
        show (ptrAt (w.subGraph.Nodes.insert "Y" (ptrAt danglingCycle.Nodes "Y")) "Y").isSome
          = false
        rw [hgy]
        simp [ptrAt]

/-- C2 (cycle termination): for every graph of the data model, in which
every entry of `Nodes` holds a node and the `Target` of every edge is a key
of `Nodes` (every graph the builder makes is one, `targetsExist_runOps`),
cyclic or not, and every root predicate, the traversal of `SubGraph` returns
(with any recursion depth above the number of nodes) and has expanded each
node of the result exactly once; a call of `dfs` on a node that is marked
visited returns at once without changing the state; and on the mutual
recursion of `A` and `B` with root `A`, `SubGraph` yields exactly 2 nodes
and 2 edges. -/
theorem subGraph_terminates (g : StaticCallGraph) (rootPred : Option Node → Bool)
    (hc : TargetsExist g) (fuel : Nat) (hf : g.Nodes.entries.length < fuel) :
    (∃ w, SubGraphWalk fuel g rootPred = some w ∧ SubGraph fuel g rootPred = some w.subGraph ∧
      w.expanded.Nodup ∧ (∀ id, id ∈ w.expanded ↔ id ∈ w.subGraph.Nodes)) ∧
    (∀ (edges : GoMap (List Pair)) (depth : Nat) (source : ID) (w : Walk),
      (ptrAt w.subGraph.Nodes source).isSome = true →
      dfs g edges (depth + 1) source w = some w) ∧
    (∃ sg, SubGraph 3 mutualAB (labelIs "A") = some sg ∧ sg.Nodes.entries.length = 2 ∧
      sg.Edges.entries.length = 2) := by
  obtain ⟨w, hw, hinv, _, _⟩ := subGraphWalk_spec g rootPred hc fuel hf
  refine ⟨⟨w, hw, by simp [SubGraph, hw], hinv.expanded_nodup, hinv.expanded_iff⟩,
    fun edges depth source w h => dfs_visited g edges depth source w h, ?_⟩
  exact ⟨_, rfl, by decide, by decide⟩

/-- Witness of C2: the mutual recursion of `A` and `B`, from the root `A`. -/
theorem subGraph_terminates_witness :
    TargetsExist mutualAB ∧ mutualAB.Nodes.entries.length < 3 ∧
    (SubGraphWalk 3 mutualAB (labelIs "A")).map Walk.expanded = some ["n2", "n3"] ∧
    ∃ w, SubGraphWalk 3 mutualAB (labelIs "A") = some w ∧
      SubGraph 3 mutualAB (labelIs "A") = some w.subGraph ∧
      w.expanded.Nodup ∧ (∀ id, id ∈ w.expanded ↔ id ∈ w.subGraph.Nodes) :=
  ⟨by decide, by decide, by decide,
    (subGraph_terminates mutualAB (labelIs "A") (by decide) 3 (by decide)).1⟩

/-- Outside the data model: on the hand-made value with the node `A`, an
edge from `A` to `X` and edges from `X` to `Y` and from `Y` to `X`, where
`X` and `Y` are not keys of `Nodes`, the traversal from the root `A` does
not return, whatever the recursion depth; and on the value with two edges
from `A` to such an `X` it expands `X` twice. No run of the builder makes
such a value. -/
theorem subGraph_diverges_on_dangling_cycle :
    (¬ ∃ (fuel : Nat) (sg : StaticCallGraph),
      SubGraph fuel danglingCycle (labelIs "A") = some sg) ∧
    (SubGraphWalk 3 danglingTwice (labelIs "A")).map Walk.expanded = some ["A", "X", "X"] := by
  refine ⟨?_, by decide⟩
  rintro ⟨fuel, sg, h⟩
  have hroots : findRoots danglingCycle (labelIs "A") = ["A"] := by decide
  have hnone : SubGraphWalk fuel danglingCycle (labelIs "A") = none := by
    simp only [SubGraphWalk, hroots, walkRoots]
    cases fuel with
    | zero => rfl
    | succ fuel =>
      have hout : outEdges (buildEdges danglingCycle.Edges.entries ∅) "A" = [("e1", "X")] := by
        decide
      have hvis : (ptrAt ({ subGraph := newGraph, expanded := [] } : Walk).subGraph.Nodes "A").isSome
          = false := by decide
      simp only [dfs, hvis, hout, walkEdges]
      rw [(danglingCycle_dfs fuel _ (by decide) (by decide)).1]
      rfl
  simp [SubGraph, hnone] at h


/-! ## Call sites that `NewStatic` skips or rejects -/

theorem onCall_nil (goroot : String → Bool) (pe : Bool) (caller : Func) (b : Build)
    (c : CallSite) (h : c.callee = CalleeObj.nil) :
    ∃ b1, onCall goroot pe caller b c = Except.ok b1 ∧ b1.graph = b.graph ∧
      b1.log = b.log ++ (if pe then ["empty callee object: " ++ c.shown] else []) := by
  cases pe with
  | true =>
    exact ⟨{ b with log := b.log ++ ["empty callee object: " ++ c.shown] },
      by simp [onCall, h], rfl, rfl⟩
  | false => exact ⟨b, by simp [onCall, h], rfl, by simp⟩

/-- The graph that `onCalls` returns depends on the graph it starts from
only, and call sites of nil callee object do not change it. -/
theorem onCalls_dropUnresolved (goroot : String → Bool) (pe : Bool) (caller : Func) :
    ∀ (cs : List CallSite) (b b1 : Build), b.graph = b1.graph →
      (onCalls goroot pe caller cs b).map Build.graph
        = (onCalls goroot pe caller (resolvedCalls cs) b1).map Build.graph := by
  intro cs
  induction cs with
  | nil => intro b b1 h; simp [resolvedCalls, onCalls, Except.map, h]
  | cons c cs ih =>
    intro b b1 h
    cases hc : c.callee with
    | nil =>
      obtain ⟨b2, h2, hg, _⟩ := onCall_nil goroot pe caller b c hc
      have hr : resolvedCalls (c :: cs) = resolvedCalls cs := by
        simp [resolvedCalls, hc]
      rw [hr]
      simp only [onCalls, h2]
      exact ih b2 b1 (hg.trans h)
    | func f =>
      have hr : resolvedCalls (c :: cs) = c :: resolvedCalls cs := by
        simp [resolvedCalls, hc]
      rw [hr]
      simp only [onCalls, onCall, hc]
      exact ih _ _ (by rw [h])
    | var v =>
      have hr : resolvedCalls (c :: cs) = c :: resolvedCalls cs := by
        simp [resolvedCalls, hc]
      rw [hr]
      simp only [onCalls, onCall, hc]
      exact ih _ _ (by rw [h])
    | builtin bi =>
      have hr : resolvedCalls (c :: cs) = c :: resolvedCalls cs := by
        simp [resolvedCalls, hc]
      rw [hr]
      simp only [onCalls, onCall, hc]
      exact ih _ _ (by rw [h])
    | other =>
      have hr : resolvedCalls (c :: cs) = c :: resolvedCalls cs := by
        simp [resolvedCalls, hc]
      rw [hr]
      simp only [onCalls, onCall, hc]

theorem onDecls_dropUnresolved (goroot : String → Bool) (pe : Bool) (flags : StaticFlags) :
    ∀ (ds : List Decl) (b b1 : Build), b.graph = b1.graph →
      (onDecls goroot pe flags ds b).map Build.graph
        = (onDecls goroot pe flags (ds.map dropUnresolved) b1).map Build.graph := by
  intro ds
  induction ds with
  | nil => intro b b1 h; simp [onDecls, Except.map, h]
  | cons d ds ih =>
    intro b b1 h
    simp only [List.map_cons, onDecls, onDecl]
    have hstep := onCalls_dropUnresolved goroot pe d.caller d.calls
      (if flags.ShowOrphanedNode then { b with graph := (addNode goroot b.graph d.caller).2 } else b)
      (if flags.ShowOrphanedNode then
        { b1 with graph := (addNode goroot b1.graph (dropUnresolved d).caller).2 } else b1)
      (by
        by_cases hf : flags.ShowOrphanedNode = true
        · simp only [hf, if_true, dropUnresolved]; rw [h]
        · simp only [hf]; exact h)
    have hcalls : (dropUnresolved d).calls = resolvedCalls d.calls := rfl
    have hcaller : (dropUnresolved d).caller = d.caller := rfl
    rw [hcalls, hcaller]
    rw [hcaller] at hstep
    cases h1 : onCalls goroot pe d.caller d.calls
        (if flags.ShowOrphanedNode then { b with graph := (addNode goroot b.graph d.caller).2 }
          else b) with
    | error e =>
      rw [h1] at hstep
      cases h2 : onCalls goroot pe d.caller (resolvedCalls d.calls)
          (if flags.ShowOrphanedNode then
            { b1 with graph := (addNode goroot b1.graph d.caller).2 } else b1) with
      | error e2 =>
        rw [h2] at hstep
        simp only [Except.map] at hstep ⊢
        exact hstep
      | ok b3 => rw [h2] at hstep; simp [Except.map] at hstep
    | ok b2 =>
      rw [h1] at hstep
      cases h2 : onCalls goroot pe d.caller (resolvedCalls d.calls)
          (if flags.ShowOrphanedNode then
            { b1 with graph := (addNode goroot b1.graph d.caller).2 } else b1) with
      | error e2 => rw [h2] at hstep; simp [Except.map] at hstep
      | ok b3 =>
        rw [h2] at hstep
        simp only [Except.map, Except.ok.injEq] at hstep
        exact ih b2 b3 hstep

theorem onCalls_log (goroot : String → Bool) (pe : Bool) (caller : Func) :
    ∀ (cs : List CallSite) (b b1 : Build), onCalls goroot pe caller cs b = Except.ok b1 →
      b1.log = b.log ++ (if pe then callDiagnostics cs else []) := by
  intro cs
  induction cs with
  | nil =>
    intro b b1 h
    simp only [onCalls, Except.ok.injEq] at h
    subst h
    cases pe <;> simp [callDiagnostics]
  | cons c cs ih =>
    intro b b1 h
    simp only [onCalls] at h
    cases hc : c.callee with
    | nil =>
      obtain ⟨b2, h2, _, hl⟩ := onCall_nil goroot pe caller b c hc
      rw [h2] at h
      rw [ih b2 b1 h, hl]
      cases pe <;> simp [callDiagnostics, hc]
    | func f =>
      simp only [onCall, hc] at h
      have := ih _ b1 h
      rw [this]
      cases pe <;> simp [callDiagnostics, hc]
    | var v =>
      simp only [onCall, hc] at h
      have := ih _ b1 h
      rw [this]
      cases pe <;> simp [callDiagnostics, hc]
    | builtin bi =>
      simp only [onCall, hc] at h
      have := ih _ b1 h
      rw [this]
      cases pe <;> simp [callDiagnostics, hc]
    | other =>
      simp only [onCall, hc] at h
      exact absurd h (by simp)

theorem onDecls_log (goroot : String → Bool) (pe : Bool) (flags : StaticFlags) :
    ∀ (ds : List Decl) (b b1 : Build), onDecls goroot pe flags ds b = Except.ok b1 →
      b1.log = b.log ++ (if pe then declDiagnostics ds else []) := by
  intro ds
  induction ds with
  | nil =>
    intro b b1 h
    simp only [onDecls, Except.ok.injEq] at h
    subst h
    cases pe <;> simp [declDiagnostics]
  | cons d ds ih =>
    intro b b1 h
    simp only [onDecls] at h
    cases hd : onDecl goroot pe flags b d with
    | error e => rw [hd] at h; exact absurd h (by simp)
    | ok b2 =>
      rw [hd] at h
      have h2 := onCalls_log goroot pe d.caller d.calls _ b2 hd
      have hl : (if flags.ShowOrphanedNode then
          ({ b with graph := (addNode goroot b.graph d.caller).2 } : Build) else b).log = b.log := by
        by_cases hf : flags.ShowOrphanedNode = true
        · simp only [hf, if_true]
        · simp only [hf]; rfl
      rw [ih b2 b1 h, h2, hl]
      cases pe <;> simp [declDiagnostics]

theorem onCall_error_iff (goroot : String → Bool) (pe : Bool) (caller : Func) (b : Build)
    (c : CallSite) :
    (∃ e, onCall goroot pe caller b c = Except.error e) ↔ c.callee = CalleeObj.other := by
  cases hc : c.callee <;> simp [onCall, hc]
  · cases pe <;> simp

theorem onCall_error_msg (goroot : String → Bool) (pe : Bool) (caller : Func) (b : Build)
    (c : CallSite) (e : String) (h : onCall goroot pe caller b c = Except.error e) :
    e = "unreachable" := by
  cases hc : c.callee <;> simp [onCall, hc] at h
  · cases pe <;> simp at h
  · exact h.symm

theorem onCalls_error_iff (goroot : String → Bool) (pe : Bool) (caller : Func) :
    ∀ (cs : List CallSite) (b : Build),
      (∃ e, onCalls goroot pe caller cs b = Except.error e) ↔
        ∃ c ∈ cs, c.callee = CalleeObj.other := by
  intro cs
  induction cs with
  | nil => intro b; simp [onCalls]
  | cons c cs ih =>
    intro b
    simp only [onCalls, List.mem_cons, exists_eq_or_imp]
    cases h1 : onCall goroot pe caller b c with
    | error e =>
      have := (onCall_error_iff goroot pe caller b c).mp ⟨e, h1⟩
      simp [this]
    | ok b2 =>
      have hne : ¬ c.callee = CalleeObj.other := by
        intro ho
        obtain ⟨e, he⟩ := (onCall_error_iff goroot pe caller b c).mpr ho
        rw [h1] at he
        exact absurd he (by simp)
      simp only [hne, false_or]
      exact ih b2

theorem onCalls_error_msg (goroot : String → Bool) (pe : Bool) (caller : Func) :
    ∀ (cs : List CallSite) (b : Build) (e : String),
      onCalls goroot pe caller cs b = Except.error e → e = "unreachable" := by
  intro cs
  induction cs with
  | nil => intro b e h; simp [onCalls] at h
  | cons c cs ih =>
    intro b e h
    simp only [onCalls] at h
    cases h1 : onCall goroot pe caller b c with
    | error e1 =>
      rw [h1] at h
      simp only [Except.error.injEq] at h
      rw [← h]
      exact onCall_error_msg goroot pe caller b c e1 h1
    | ok b2 =>
      rw [h1] at h
      exact ih b2 e h

theorem onDecls_error_iff (goroot : String → Bool) (pe : Bool) (flags : StaticFlags) :
    ∀ (ds : List Decl) (b : Build),
      (∃ e, onDecls goroot pe flags ds b = Except.error e) ↔
        ∃ d ∈ ds, ∃ c ∈ d.calls, c.callee = CalleeObj.other := by
  intro ds
  induction ds with
  | nil => intro b; simp [onDecls]
  | cons d ds ih =>
    intro b
    simp only [onDecls, List.mem_cons, exists_eq_or_imp]
    cases h1 : onDecl goroot pe flags b d with
    | error e =>
      have : ∃ c ∈ d.calls, c.callee = CalleeObj.other :=
        (onCalls_error_iff goroot pe d.caller d.calls _).mp ⟨e, h1⟩
      simp [this]
    | ok b2 =>
      have hne : ¬ ∃ c ∈ d.calls, c.callee = CalleeObj.other := by
        intro ho
        obtain ⟨e, he⟩ := (onCalls_error_iff goroot pe d.caller d.calls _).mpr ho
        have he2 : onDecl goroot pe flags b d = Except.error e := he
        rw [h1] at he2
        exact absurd he2 (by simp)
      simp only [hne, false_or]
      exact ih b2

theorem onDecls_error_msg (goroot : String → Bool) (pe : Bool) (flags : StaticFlags) :
    ∀ (ds : List Decl) (b : Build) (e : String),
      onDecls goroot pe flags ds b = Except.error e → e = "unreachable" := by
  intro ds
  induction ds with
  | nil => intro b e h; simp [onDecls] at h
  | cons d ds ih =>
    intro b e h
    simp only [onDecls] at h
    cases h1 : onDecl goroot pe flags b d with
    | error e1 =>
      rw [h1] at h
      simp only [Except.error.injEq] at h
      rw [← h]
      exact onCalls_error_msg goroot pe d.caller d.calls _ e1 h1
    | ok b2 =>
      rw [h1] at h
      exact ih b2 e h


/-! ## Properties of the error handling of `NewStatic` -/

/-- C11 (unresolvable target is skipped): a matched call site whose callee
object is nil leaves the graph as it is and the callback returns normally,
so processing continues; and for every list of matched declarations the
outcome of `NewStatic`, the graph or the panic, is the outcome on the same
declarations with the call sites of nil callee object removed. -/
theorem unresolvable_skipped (goroot : String → Bool) (printErrors : Bool)
    (opts : List StaticOption) (decls : List Decl) :
    (∀ (caller : Func) (b : Build) (c : CallSite), c.callee = CalleeObj.nil →
      ∃ b1, onCall goroot printErrors caller b c = Except.ok b1 ∧ b1.graph = b.graph) ∧
    (NewStatic goroot printErrors opts decls).map Build.graph
      = (NewStatic goroot printErrors opts (decls.map dropUnresolved)).map Build.graph := by
  refine ⟨?_, ?_⟩
  · intro caller b c hc
    obtain ⟨b1, h1, h2, _⟩ := onCall_nil goroot printErrors caller b c hc
    exact ⟨b1, h1, h2⟩
  · exact onDecls_dropUnresolved goroot printErrors (applyOpts opts) decls _ _ rfl

/-- C12 (diagnostics, amended): when `NewStatic` returns, the lines it has
written to the error log are, with `PrintErrors` enabled, exactly one line
`empty callee object: ...` for each skipped call site of nil callee object,
in match order, and with `PrintErrors` disabled, none. -/
theorem diagnostics_when_enabled (goroot : String → Bool) (printErrors : Bool)
    (opts : List StaticOption) (decls : List Decl) (bld : Build)
    (hrun : NewStatic goroot printErrors opts decls = Except.ok bld) :
    bld.log = if printErrors then declDiagnostics decls else [] := by
  have := onDecls_log goroot printErrors (applyOpts opts) decls _ bld hrun
  simpa using this

/-- Witness of C12: with `PrintErrors` enabled, `A` with an unresolvable
call and a call of `B`. -/
theorem diagnostics_when_enabled_witness :
    ∃ bld : Build,
      NewStatic noGoroot true []
        [{ caller := sampleA, calls := [{ callee := CalleeObj.nil, shown := "f() at a.go:3" },
                                        { callee := CalleeObj.func sampleB, shown := "B()" }] }]
        = Except.ok bld ∧
      bld.log = ["empty callee object: f() at a.go:3"] ∧
      bld.log = if true then declDiagnostics
        [{ caller := sampleA, calls := [{ callee := CalleeObj.nil, shown := "f() at a.go:3" },
                                        { callee := CalleeObj.func sampleB, shown := "B()" }] }]
        else [] :=
  ⟨{ graph := (addStaticEdge noGoroot newGraph sampleA sampleB).2,
     log := ["empty callee object: f() at a.go:3"] }, rfl, rfl,
    diagnostics_when_enabled noGoroot true [] _ _ rfl⟩

/-- Counterexample to C12 as stated: with `PrintErrors` disabled, `NewStatic`
skips the unresolvable call site of `A` and returns the empty graph without
having written any diagnostic. -/
theorem silent_skip_without_printErrors :
    NewStatic noGoroot false []
      [{ caller := sampleA, calls := [{ callee := CalleeObj.nil, shown := "f() at a.go:3" }] }]
      = Except.ok { graph := newGraph, log := [] } := by
  rfl

/-- C13 (unclassifiable callee is fatal): for a non-nil callee object the
callback panics if and only if the object is neither a function, nor a
variable, nor a builtin; `NewStatic` panics if and only if some matched call
site has such a callee, the panic message is `unreachable`, and then no
graph is returned, so no edge is recorded for such an object. -/
theorem unclassifiable_fatal (goroot : String → Bool) (printErrors : Bool)
    (opts : List StaticOption) (decls : List Decl) :
    (∀ (caller : Func) (b : Build) (c : CallSite), c.callee ≠ CalleeObj.nil →
      ((∃ e, onCall goroot printErrors caller b c = Except.error e) ↔
        ∀ (f : Func) (v : Var) (bi : Builtin), c.callee ≠ CalleeObj.func f ∧
          c.callee ≠ CalleeObj.var v ∧ c.callee ≠ CalleeObj.builtin bi)) ∧
    ((∃ e, NewStatic goroot printErrors opts decls = Except.error e) ↔
      ∃ d ∈ decls, ∃ c ∈ d.calls, c.callee = CalleeObj.other) ∧
    (∀ e, NewStatic goroot printErrors opts decls = Except.error e → e = "unreachable") ∧
    ((∃ d ∈ decls, ∃ c ∈ d.calls, c.callee = CalleeObj.other) →
      ∀ bld, NewStatic goroot printErrors opts decls ≠ Except.ok bld) := by
  refine ⟨?_, onDecls_error_iff goroot printErrors (applyOpts opts) decls _,
    fun e h => onDecls_error_msg goroot printErrors (applyOpts opts) decls _ e h, ?_⟩
  · intro caller b c hnil
    rw [onCall_error_iff]
    constructor
    · intro h f v bi
      rw [h]
      exact ⟨by simp, by simp, by simp⟩
    · intro h
      cases hc : c.callee with
      | nil => exact absurd hc hnil
      | func f => exact absurd hc (h f ⟨none, "", false, false⟩ ⟨""⟩).1
      | var v => exact absurd hc (h ⟨"", none, none, false⟩ v ⟨""⟩).2.1
      | builtin bi => exact absurd hc (h ⟨"", none, none, false⟩ ⟨none, "", false, false⟩ bi).2.2
      | other => rfl
  · intro h bld hok
    obtain ⟨e, he⟩ := (onDecls_error_iff goroot printErrors (applyOpts opts) decls _).mpr h
    have he2 : NewStatic goroot printErrors opts decls = Except.error e := he
    rw [hok] at he2
    exact absurd he2 (by simp)


/-! ## The adapter -/

theorem mainPackages_foldl (l : List (Option SSAPackage)) :
    ∀ init : List (Option SSAPackage),
      l.foldl (fun mains p => if isMain p then mains ++ [p] else mains) init
        = init ++ l.filter isMain := by
  induction l with
  | nil => intro init; simp
  | cons p rest ih =>
    intro init
    rw [List.foldl_cons, ih]
    by_cases h : isMain p = true
    · simp [h, List.filter_cons]
    · simp [h, List.filter_cons]

theorem isMain_iff (p : Option SSAPackage) :
    isMain p = true ↔ ∃ q, p = some q ∧ q.pkgName = "main" ∧ q.Func "main" ≠ none := by
  cases p with
  | none => simp [isMain]
  | some q =>
    simp only [isMain, Bool.and_eq_true, beq_iff_eq, Option.some.injEq, exists_eq_left']
    rw [Option.isSome_iff_ne_none]

/-- C15 (entry-point discovery): `mainPackages` returns the packages of
`Pkgs` that pass its test, in the order of `Pkgs`: a package is returned if
and only if it is a non-nil package of `Pkgs` whose name is `main` and which
has a function named `main`, as often as it occurs in `Pkgs`; every other
package is left out. -/
theorem mainPackages_spec {P : Type} (c : SSACallGraph P) :
    mainPackages c = c.Pkgs.filter isMain ∧
    (∀ p, p ∈ mainPackages c ↔
      p ∈ c.Pkgs ∧ ∃ q, p = some q ∧ q.pkgName = "main" ∧ q.Func "main" ≠ none) ∧
    List.Sublist (mainPackages c) c.Pkgs ∧
    (∀ p, (mainPackages c).count p = if isMain p then c.Pkgs.count p else 0) := by
  have h : mainPackages c = c.Pkgs.filter isMain := by
    simp [mainPackages, mainPackages_foldl]
  refine ⟨h, ?_, ?_, ?_⟩
  · intro p
    rw [h, List.mem_filter, isMain_iff]
  · rw [h]
    exact List.filter_sublist _
  · intro p
    rw [h]
    by_cases hp : isMain p = true
    · rw [if_pos hp, List.count_filter hp]
    · rw [if_neg hp]
      exact List.count_eq_zero.mpr (fun hm => hp (List.mem_filter.mp hm).2)

theorem callGraph_unsupported {P Fs G : Type} (s : Strategies P Fs G) (c : SSACallGraph P)
    {algo : Algo} (h : Unsupported algo) :
    CallGraph s c algo = ([], Except.error "unsupported algo") := by
  obtain ⟨h0, h1, h2, h3⟩ := h
  simp [CallGraph, h0, h1, h2, h3]

/-- For a supported value the record of calls is empty only in the `RTA`
case with a nil package in `Mains`, and otherwise begins with a strategy. -/
theorem callGraph_supported {P Fs G : Type} (s : Strategies P Fs G) (c : SSACallGraph P)
    {algo : Algo} (h : ¬ Unsupported algo) :
    (CallGraph s c algo).1 ≠ [] ∨
      (algo = RTA ∧ rtaRoots c.Mains [] = none ∧
        CallGraph s c algo = ([], Except.error "nil pointer dereference")) := by
  by_cases h0 : algo = Static
  · left
    subst h0
    simp only [CallGraph, if_true]
    split <;> simp
  by_cases h1 : algo = CHA
  · left
    subst h1
    simp only [CallGraph, if_neg h0, if_true]
    split <;> simp
  by_cases h2 : algo = RTA
  · subst h2
    cases hr : rtaRoots c.Mains [] with
    | none =>
      right
      refine ⟨rfl, rfl, ?_⟩
      simp only [CallGraph, if_neg h0, if_neg h1, if_true, hr]
    | some roots =>
      left
      simp only [CallGraph, if_neg h0, if_neg h1, if_true, hr]
      split <;> simp
  by_cases h3 : algo = VTA
  · left
    subst h3
    simp only [CallGraph, if_neg h0, if_neg h1, if_neg h2, if_true]
    split
    · simp
    · split
      · simp
      · split <;> simp
  exact absurd ⟨h0, h1, h2, h3⟩ h

/-- An error of `CallGraph` after some call is the error of an external
function or the dereference of the nil result of `rta.Analyze`. -/
theorem callGraph_error_origin {P Fs G : Type} (s : Strategies P Fs G) (c : SSACallGraph P)
    (algo : Algo) (msg : String) (hs : s.Avoids msg) (hm : msg ≠ "nil pointer dereference")
    (h : (CallGraph s c algo).2 = Except.error msg) : (CallGraph s c algo).1 = [] := by
  obtain ⟨a1, a2, a3, a4, a5, a6⟩ := hs
  by_cases h0 : algo = Static
  · subst h0
    simp only [CallGraph, if_true] at h
    split at h
    · rename_i e he
      simp only at h
      rw [Except.error.inj h] at he
      exact absurd he (a1 _)
    · exact absurd h (a6 _)
  by_cases h1 : algo = CHA
  · subst h1
    simp only [CallGraph, if_neg h0, if_true] at h
    split at h
    · rename_i e he
      simp only at h
      rw [Except.error.inj h] at he
      exact absurd he (a2 _)
    · exact absurd h (a6 _)
  by_cases h2 : algo = RTA
  · subst h2
    cases hr : rtaRoots c.Mains [] with
    | none => simp only [CallGraph, if_neg h0, if_neg h1, if_true, hr]
    | some roots =>
      simp only [CallGraph, if_neg h0, if_neg h1, if_true, hr] at h
      split at h
      · rename_i e he
        simp only at h
        rw [Except.error.inj h] at he
        exact absurd he (a3 _ _)
      · simp only [Except.error.injEq] at h
        exact absurd h.symm hm
      · exact absurd h (a6 _)
  by_cases h3 : algo = VTA
  · subst h3
    simp only [CallGraph, if_neg h0, if_neg h1, if_neg h2, if_true] at h
    split at h
    · rename_i e he
      simp only at h
      rw [Except.error.inj h] at he
      exact absurd he (a5 _)
    · split at h
      · rename_i e he
        simp only at h
        rw [Except.error.inj h] at he
        exact absurd he (a2 _)
      · split at h
        · rename_i e he
          simp only at h
          rw [Except.error.inj h] at he
          exact absurd he (a4 _ _)
        · exact absurd h (a6 _)
  simp [CallGraph, h0, h1, h2, h3]

/-- C14 (unsupported strategy is rejected): `CallGraph(algo)` panics with
`unsupported algo` before any call of an external function if and only if
`algo` is none of `Static`, `CHA`, `RTA`, `VTA`; in that case it has called
none of the external functions and returns no graph. When no external
function panics with that very message, the panic `unsupported algo` occurs
if and only if `algo` is none of the four values. For each of the four
values the strategy of that value is called, and the graph is the result of
`DeleteSyntheticNodes` on its graph; the only run on a supported value
without a call is the `RTA` case with a nil package in `Mains`, and the
`RTA` case also panics, with the message of a nil pointer dereference, when
`rta.Analyze` returns nil. -/
theorem unsupported_algo_rejected {P Fs G : Type} (s : Strategies P Fs G) (c : SSACallGraph P)
    (algo : Algo) :
    (CallGraph s c algo = ([], Except.error "unsupported algo") ↔ Unsupported algo) ∧
    (Unsupported algo →
      (CallGraph s c algo).1 = [] ∧ ∀ cg, (CallGraph s c algo).2 ≠ Except.ok cg) ∧
    (s.Avoids "unsupported algo" →
      ((CallGraph s c algo).2 = Except.error "unsupported algo" ↔ Unsupported algo)) ∧
    (¬ Unsupported algo → (CallGraph s c algo).1 = [] →
      algo = RTA ∧ rtaRoots c.Mains [] = none ∧
        (CallGraph s c algo).2 = Except.error "nil pointer dereference") ∧
    (∀ cg, s.staticCallGraph c.Prog = Except.ok cg →
      CallGraph s c Static
        = (["static.CallGraph", "DeleteSyntheticNodes"], s.deleteSyntheticNodes cg)) ∧
    (∀ cg, s.chaCallGraph c.Prog = Except.ok cg →
      CallGraph s c CHA = (["cha.CallGraph", "DeleteSyntheticNodes"], s.deleteSyntheticNodes cg)) ∧
    (∀ fs cha cg, s.allFunctions c.Prog = Except.ok fs → s.chaCallGraph c.Prog = Except.ok cha →
      s.vtaCallGraph fs cha = Except.ok cg →
      CallGraph s c VTA
        = (["ssautil.AllFunctions", "cha.CallGraph", "vta.CallGraph", "DeleteSyntheticNodes"],
            s.deleteSyntheticNodes cg)) ∧
    (∀ roots, rtaRoots c.Mains [] = some roots →
      (∀ cg, s.rtaAnalyze roots true = Except.ok (some cg) →
        CallGraph s c RTA
          = (["rta.Analyze", "DeleteSyntheticNodes"], s.deleteSyntheticNodes cg)) ∧
      (s.rtaAnalyze roots true = Except.ok none →
        CallGraph s c RTA = (["rta.Analyze"], Except.error "nil pointer dereference"))) := by
  have hiff : CallGraph s c algo = ([], Except.error "unsupported algo") ↔ Unsupported algo := by
    constructor
    · intro h
      by_contra hn
      rcases callGraph_supported s c hn with h1 | ⟨_, _, h1⟩
      · exact h1 (by rw [h])
      · rw [h1] at h
        exact absurd (Except.error.inj (Prod.ext_iff.mp h).2) (by decide)
    · exact callGraph_unsupported s c
  refine ⟨hiff, ?_, ?_, ?_, ?_, ?_, ?_, ?_⟩
  · intro h
    rw [callGraph_unsupported s c h]
    exact ⟨rfl, fun cg hc => by cases hc⟩
  · intro hs
    constructor
    · intro h
      have h1 := callGraph_error_origin s c algo _ hs (by decide) h
      exact hiff.mp (Prod.ext h1 h)
    · intro h
      rw [callGraph_unsupported s c h]
  · intro hn h1
    rcases callGraph_supported s c hn with h2 | ⟨h2, h3, h4⟩
    · exact absurd h1 h2
    · exact ⟨h2, h3, by rw [h4]⟩
  · intro cg h
    simp [CallGraph, h]
  · intro cg h
    simp [CallGraph, CHA, Static, h]
  · intro fs cha cg h1 h2 h3
    simp [CallGraph, VTA, RTA, CHA, Static, h1, h2, h3]
  · intro roots hr
    constructor
    · intro cg h
      simp [CallGraph, RTA, CHA, Static, hr, h]
    · intro h
      simp [CallGraph, RTA, CHA, Static, hr, h]

/-- Witness of C14: on an adapter without main packages the `RTA` case
calls `rta.Analyze` without a root and panics at its nil result, with the
message of a nil pointer dereference; the value `4` is rejected without a
call. -/
theorem unsupported_algo_rejected_witness :
    CallGraph sampleStrategies sampleNoMains RTA
      = (["rta.Analyze"], Except.error "nil pointer dereference") ∧
    CallGraph sampleStrategies sampleNoMains 4 = ([], Except.error "unsupported algo") ∧
    CallGraph sampleStrategies sampleOneMain RTA
      = (["rta.Analyze", "DeleteSyntheticNodes"], Except.ok ["rta", "init", "main"]) :=
  ⟨(unsupported_algo_rejected sampleStrategies sampleNoMains RTA).2.2.2.2.2.2.2 [] rfl |>.2 rfl,
    (unsupported_algo_rejected sampleStrategies sampleNoMains 4).1.mpr
      ⟨by decide, by decide, by decide, by decide⟩,
    (unsupported_algo_rejected sampleStrategies sampleOneMain RTA).2.2.2.2.2.2.2 _ rfl |>.1 _ rfl⟩


/-! ## Kinds of nodes and `Dot` -/

theorem kinds_newGraph : Kinds newGraph := by
  intro id v h
  simp [newGraph] at h

theorem kinds_of_nodes_eq {g g1 : StaticCallGraph} (h : Kinds g) (he : g1.Nodes = g.Nodes) :
    Kinds g1 := by
  intro id v hv
  rw [he] at hv
  exact h id v hv

theorem kinds_insert {g : StaticCallGraph} (h : Kinds g) (id : ID) {node : Node}
    (hk : KindMatches node) : Kinds { g with Nodes := g.Nodes.insert id (some node) } := by
  intro id1 v hv
  rcases lookup_insert_cases g.Nodes id (some node) id1 with ⟨_, h1⟩ | ⟨_, h1⟩
  · have hv1 : (g.Nodes.insert id (some node)).lookup id1 = some v := hv
    rw [h1] at hv1
    exact ⟨node, (Option.some.inj hv1).symm, hk⟩
  · have hv1 : (g.Nodes.insert id (some node)).lookup id1 = some v := hv
    rw [h1] at hv1
    exact h id1 v hv1

theorem Registers.kinds {g : StaticCallGraph} {key : String} {P : Node → Prop}
    {r : ID × StaticCallGraph} (h : Registers g key P r) (hP : ∀ node, P node → KindMatches node)
    (hg : Kinds g) : Kinds r.2 := by
  rcases h with ⟨id, _, h2⟩ | ⟨_, node, hn, _, h2⟩
  · rw [h2]; exact hg
  · rw [h2]
    exact kinds_insert (kinds_of_nodes_eq hg (getID_nodes g key true)) _ (hP node hn)

theorem kinds_addNode (goroot : String → Bool) {g : StaticCallGraph} (h : Kinds g) (f : Func) :
    Kinds (addNode goroot g f).2 :=
  (addNode_registers goroot g f).kinds (fun _ hn => Or.inl ⟨hn.2.1, f, hn.2.2⟩) h

theorem kinds_addPkgNode {g : StaticCallGraph} (h : Kinds g) (pkg : Option Package) :
    Kinds (addPkgNode g pkg).2 := by
  cases pkg with
  | none => exact h
  | some p =>
    exact (addPkgNode_registers g p).kinds (fun _ hn => Or.inr (Or.inr ⟨hn.2.1, p, hn.2.2⟩)) h

theorem kinds_addRecvTypeNode {g : StaticCallGraph} (h : Kinds g) (recv : Var) :
    Kinds (addRecvTypeNode g recv).2 := by
  rcases addRecvTypeNode_cases g recv with ⟨id, _, h2⟩ | ⟨_, node, ht, ho, _, h2⟩
  · rw [h2]; exact h
  · rw [h2]
    exact kinds_insert
      (kinds_addPkgNode (kinds_of_nodes_eq h (getID_nodes g _ true)) recv.pkg) _
      (Or.inr (Or.inl ⟨ht, recv, ho⟩))

theorem kinds_addStaticEdge (goroot : String → Bool) {g : StaticCallGraph} (h : Kinds g)
    (a b : Func) : Kinds (addStaticEdge goroot g a b).2 := by
  rcases addStaticEdge_cases goroot g a b with ⟨id, _, h2⟩ | ⟨_, h2⟩
  · rw [h2]; exact h
  · rw [h2]
    exact kinds_of_nodes_eq
      (kinds_addNode goroot (kinds_addNode goroot
        (kinds_of_nodes_eq h (getID_nodes g _ true)) a) b) rfl

theorem kinds_apply (goroot : String → Bool) {g : StaticCallGraph} (h : Kinds g) (op : Op) :
    Kinds (op.apply goroot g) := by
  cases op with
  | addNode f => exact kinds_addNode goroot h f
  | addRecvTypeNode r => exact kinds_addRecvTypeNode h r
  | addPkgNode p => exact kinds_addPkgNode h p
  | addStaticEdge a b => exact kinds_addStaticEdge goroot h a b

theorem kinds_runOps (goroot : String → Bool) (ops : List Op) :
    ∀ g, Kinds g → Kinds (runOps goroot ops g) := by
  induction ops with
  | nil => exact fun g h => h
  | cons op ops ih => exact fun g h => ih _ (kinds_apply goroot h op)

/-- The body of the first loop of `Dot` does not panic on a node whose kind
matches its symbol. -/
theorem dotNode_ok (quote : String → String) (id : ID) {node : Node} (h : KindMatches node) :
    ∃ line, dotNode quote id (some node) = Except.ok line := by
  rcases h with ⟨ht, f, ho⟩ | ⟨ht, v, ho⟩ | ⟨ht, p, ho⟩
  · simp only [dotNode, ht, ho, if_true]
    exact ⟨_, rfl⟩
  · have h1 : ¬ NodeRecv = NodeFunc := by decide
    simp only [dotNode, ht, h1, if_false, if_true]
    exact ⟨_, rfl⟩
  · have h1 : ¬ NodePkg = NodeFunc := by decide
    have h2 : ¬ NodePkg = NodeRecv := by decide
    simp only [dotNode, ht, h1, h2, if_false, if_true]
    exact ⟨_, rfl⟩

theorem dotNodes_ok (quote : String → String) :
    ∀ (l : List (Sigma fun _ : String => Option Node)) (dot : String),
      (∀ it ∈ l, ∃ node, it.2 = some node ∧ KindMatches node) →
      ∃ s, dotNodes quote l dot = Except.ok s := by
  intro l
  induction l with
  | nil => intro dot _; exact ⟨dot, rfl⟩
  | cons it rest ih =>
    intro dot h
    obtain ⟨node, hn, hk⟩ := h it (List.mem_cons_self _ _)
    obtain ⟨line, hl⟩ := dotNode_ok quote it.1 hk
    obtain ⟨s, hs⟩ := ih (dot ++ line) (fun x hx => h x (List.mem_cons_of_mem _ hx))
    refine ⟨s, ?_⟩
    simp only [dotNodes, hn, hl]
    exact hs

theorem dot_ok_of_kinds (quote : String → String) {g : StaticCallGraph} (h : Kinds g) :
    ∃ s, Dot quote g = Except.ok s := by
  obtain ⟨s, hs⟩ := dotNodes_ok quote g.Nodes.entries dotHeader (by
    intro it hit
    exact h it.1 it.2 (AList.mem_lookup_iff.mpr (by cases it; exact hit)))
  simp only [Dot, hs]
  exact ⟨_, rfl⟩

/-- C16 (kind matches symbol): in every graph state reached from `newGraph`
by `addNode`, `addRecvTypeNode`, `addPkgNode` and `addStaticEdge`, every
entry of `Nodes` holds a node whose `Type` is `NodeFunc`, `NodeRecv` or
`NodePkg` and whose `Object` is a function, a receiver variable or a
package accordingly; hence `Dot` returns its text on such a graph: it
reaches neither `panic("unreached")` nor a failing type assertion. -/
theorem kind_matches_symbol (goroot : String → Bool) (ops : List Op) :
    (∀ id v, (runOps goroot ops newGraph).Nodes.lookup id = some v →
      ∃ node, v = some node ∧
        ((node.Type_ = NodeFunc ∧ ∃ f, node.Object = Object.func f) ∨
         (node.Type_ = NodeRecv ∧ ∃ r, node.Object = Object.var r) ∨
         (node.Type_ = NodePkg ∧ ∃ p, node.Object = Object.pkg p))) ∧
    (∀ quote : String → String, ∃ s, Dot quote (runOps goroot ops newGraph) = Except.ok s) :=
  ⟨kinds_runOps goroot ops newGraph kinds_newGraph,
    fun quote => dot_ok_of_kinds quote (kinds_runOps goroot ops newGraph kinds_newGraph)⟩


/-! ## The graph does not shrink -/

/-- C17 (the graph never shrinks): for every graph state of a run, reached
from `newGraph` by builder operations, and every builder operation after
which the registry holds fewer than `2 ^ 64` names, every node and every
edge present before the call is present after it under the same id with
the same fields, and every `idMap` entry keeps its id; and for every graph
state whatever, every `idMap` entry keeps its id and every key of `Nodes`
stays a key. -/
theorem never_shrinks (goroot : String → Bool) (ops : List Op) (op : Op)
    (hlen : (op.apply goroot (runOps goroot ops newGraph)).idMap.entries.length < 2 ^ 64) :
    (∀ id v, (runOps goroot ops newGraph).Nodes.lookup id = some v →
      (op.apply goroot (runOps goroot ops newGraph)).Nodes.lookup id = some v) ∧
    (∀ id e, (runOps goroot ops newGraph).Edges.lookup id = some e →
      (op.apply goroot (runOps goroot ops newGraph)).Edges.lookup id = some e) ∧
    (∀ n id, (runOps goroot ops newGraph).idMap.lookup n = some id →
      (op.apply goroot (runOps goroot ops newGraph)).idMap.lookup n = some id) ∧
    (∀ (g : StaticCallGraph) (o : Op),
      (∀ n id, g.idMap.lookup n = some id → (o.apply goroot g).idMap.lookup n = some id) ∧
      (∀ id, id ∈ g.Nodes → id ∈ (o.apply goroot g).Nodes)) := by
  have hb := binv_runOps goroot ops newGraph binv_newGraph
  have hb1 := binv_apply goroot hb op
  have hg := grows_apply goroot (runOps goroot ops newGraph) op
  refine ⟨?_, ?_, hg.idMap_mono, fun g o => ⟨(grows_apply goroot g o).idMap_mono,
    (grows_apply goroot g o).nodes_mem⟩⟩
  · intro id v hv
    obtain ⟨name, hn, _⟩ := hb.nodes id (mem_of_lookup hv)
    rw [frame_nodes hg hb1 hlen hn]
    exact hv
  · intro id e he
    obtain ⟨x, y, hn, _, _⟩ := hb.edges id e he
    rw [frame_edges hg hb1 hlen hn]
    exact he

/-- Witness of C17: after `A` calls `B`, adding the edge from `B` to `A`
keeps the node `n2`. -/
theorem never_shrinks_witness :
    ((Op.addStaticEdge sampleB sampleA).apply noGoroot
      (runOps noGoroot [Op.addStaticEdge sampleA sampleB] newGraph)).idMap.entries.length
      < 2 ^ 64 ∧
    (runOps noGoroot [Op.addStaticEdge sampleA sampleB] newGraph).Edges.lookup "n1"
      = some (Edge.mk "n1" "n2" "n3" ["static"]) ∧
    ((Op.addStaticEdge sampleB sampleA).apply noGoroot
      (runOps noGoroot [Op.addStaticEdge sampleA sampleB] newGraph)).Edges.lookup "n1"
      = some (Edge.mk "n1" "n2" "n3" ["static"]) :=
  ⟨by decide, by decide,
    (never_shrinks noGoroot [Op.addStaticEdge sampleA sampleB]
      (Op.addStaticEdge sampleB sampleA) (by decide)).2.1 "n1" _ (by decide)⟩

/-- Outside the states of a run: in the hand-made state that holds the node
of `B` under the id `n1` with an empty registry and the counter at 0,
`addNode` for `A` receives the id `n1` and replaces that node. The builder
starts from `newGraph` and its methods are not exported, so no run reaches
such a state. -/
theorem addNode_overwrites_stray_node :
    strayNode.Nodes.lookup "n1" = some (some (sampleNode "n1" sampleB)) ∧
    ((Op.addNode sampleA).apply noGoroot strayNode).Nodes.lookup "n1"
      ≠ some (some (sampleNode "n1" sampleB)) ∧
    (((Op.addNode sampleA).apply noGoroot strayNode).Nodes.lookup "n1").map
      (fun v => v.map (fun n => n.Label)) = some (some "A") := by
  refine ⟨by decide, by decide, by decide⟩


/-! ## Prefixes of the ids -/

theorem head_prefixed (b : Bool) (n : Nat) :
    (idPrefix b ++ formatUint16 n).data.head? = some (if b then 'n' else 'e') := by
  cases b <;> simp [idPrefix, String.data_append]

theorem getID_fresh_head {g : StaticCallGraph} {n : String} (b : Bool)
    (h : g.idMap.lookup n = none) :
    (getID g n b).1.1.data.head? = some (if b then 'n' else 'e') := by
  rw [getID_fresh b h]
  exact head_prefixed b _

/-- Every registered id begins with `n`. -/
theorem nstart_getID {g : StaticCallGraph}
    (h : ∀ name id, g.idMap.lookup name = some id → id.data.head? = some 'n') (n : String) :
    ∀ name id, (getID g n true).2.idMap.lookup name = some id → id.data.head? = some 'n' := by
  intro name id hl
  by_cases hk : name = n
  · subst hk
    rw [getID_lookup_self] at hl
    cases hold : g.idMap.lookup name with
    | some id0 =>
      rw [getID_of_lookup_some true hold] at hl
      rw [← Option.some.inj hl]
      exact h name id0 hold
    | none =>
      rw [← Option.some.inj hl]
      exact getID_fresh_head true hold
  · rw [getID_lookup_ne g n true hk] at hl
    exact h name id hl

theorem Registers.nstart {g : StaticCallGraph} {key : String} {P : Node → Prop}
    {r : ID × StaticCallGraph} (hr : Registers g key P r)
    (h : ∀ name id, g.idMap.lookup name = some id → id.data.head? = some 'n') :
    ∀ name id, r.2.idMap.lookup name = some id → id.data.head? = some 'n' := by
  rcases hr with ⟨id, _, h2⟩ | ⟨_, node, _, _, h2⟩
  · rw [h2]; exact h
  · rw [h2]; exact nstart_getID h key

theorem nstart_addPkgNode {g : StaticCallGraph}
    (h : ∀ name id, g.idMap.lookup name = some id → id.data.head? = some 'n')
    (pkg : Option Package) :
    ∀ name id, (addPkgNode g pkg).2.idMap.lookup name = some id → id.data.head? = some 'n' := by
  cases pkg with
  | none => exact h
  | some p => exact (addPkgNode_registers g p).nstart h

theorem nstart_apply (goroot : String → Bool) {g : StaticCallGraph}
    (h : ∀ name id, g.idMap.lookup name = some id → id.data.head? = some 'n') (op : Op) :
    ∀ name id, (op.apply goroot g).idMap.lookup name = some id → id.data.head? = some 'n' := by
  cases op with
  | addNode f => exact (addNode_registers goroot g f).nstart h
  | addPkgNode p => exact nstart_addPkgNode h p
  | addRecvTypeNode r =>
    rcases addRecvTypeNode_cases g r with ⟨id, _, h2⟩ | ⟨_, node, _, _, _, h2⟩
    · show ∀ name id, (addRecvTypeNode g r).2.idMap.lookup name = some id → _
      rw [h2]; exact h
    · show ∀ name id, (addRecvTypeNode g r).2.idMap.lookup name = some id → _
      rw [h2]
      exact nstart_addPkgNode (nstart_getID h _) r.pkg
  | addStaticEdge a b =>
    rcases addStaticEdge_cases goroot g a b with ⟨id, _, h2⟩ | ⟨_, h2⟩
    · show ∀ name id, (addStaticEdge goroot g a b).2.idMap.lookup name = some id → _
      rw [h2]; exact h
    · show ∀ name id, (addStaticEdge goroot g a b).2.idMap.lookup name = some id → _
      rw [h2]
      exact (addNode_registers goroot _ b).nstart
        ((addNode_registers goroot _ a).nstart (nstart_getID h _))

theorem nstart_runOps (goroot : String → Bool) (ops : List Op) :
    ∀ g, (∀ name id, g.idMap.lookup name = some id → id.data.head? = some 'n') →
      ∀ name id, (runOps goroot ops g).idMap.lookup name = some id →
        id.data.head? = some 'n' := by
  induction ops with
  | nil => exact fun g h => h
  | cons op ops ih => exact fun g h => ih _ (nstart_apply goroot h op)

/-- C18 (prefixes of the ids): what the code does. For a name that is not
yet registered `getID` returns an id that begins with `n` when `isNode` is
true and with `e` when it is false; in every graph made by the builder
operations every key of `Nodes` begins with `n`, and every key of `Edges`
begins with `n` as well, not with `e`, because `addStaticEdge` asks for its
id with `isNode = true`: the first edge of a graph has the id `n1`. -/
theorem edge_ids_begin_with_n (goroot : String → Bool) (ops : List Op) :
    (∀ (g : StaticCallGraph) (name : String) (isNode : Bool), g.idMap.lookup name = none →
      (getID g name isNode).1.1.data.head? = some (if isNode then 'n' else 'e')) ∧
    (∀ id, id ∈ (runOps goroot ops newGraph).Nodes → id.data.head? = some 'n') ∧
    (∀ id, id ∈ (runOps goroot ops newGraph).Edges → id.data.head? = some 'n') ∧
    (addStaticEdge noGoroot newGraph sampleA sampleB).1 = "n1" ∧
    (runOps noGoroot [Op.addStaticEdge sampleA sampleB] newGraph).Edges.keys = ["n1"] := by
  have hb := binv_runOps goroot ops newGraph binv_newGraph
  have hn := nstart_runOps goroot ops newGraph (by intro name id h; simp [newGraph] at h)
  refine ⟨fun g name isNode h => getID_fresh_head isNode h, ?_, ?_, by decide, by decide⟩
  · intro id hid
    obtain ⟨name, h1, _⟩ := hb.nodes id hid
    exact hn name id h1
  · intro id hid
    obtain ⟨e, he⟩ := Option.isSome_iff_exists.mp (AList.lookup_isSome.mpr hid)
    obtain ⟨x, y, h1, _, _⟩ := hb.edges id e he
    exact hn _ id h1


/-! ## Normalisation of names -/

theorem removeAllAux_of_not_occurs (pat : List Char) :
    ∀ l : List Char, occursIn pat l = false → removeAllAux pat 0 l = l := by
  intro l
  induction l with
  | nil => intro _; rfl
  | cons c cs ih =>
    intro h
    simp only [occursIn, Bool.or_eq_false_iff] at h
    simp only [removeAllAux, h.1, Bool.false_eq_true, if_false, ih h.2]

theorem removeAllAux_skip (pat : List Char) (x : List Char) :
    ∀ (l : List Char) (k : Nat), l.length = k →
      removeAllAux pat k (l ++ x) = removeAllAux pat 0 x := by
  intro l
  induction l with
  | nil => intro k h; simp at h; subst h; rfl
  | cons c cs ih =>
    intro k h
    cases k with
    | zero => simp at h
    | succ k =>
      simp only [List.length_cons, Nat.add_right_cancel_iff] at h
      simp only [List.cons_append, removeAllAux]
      exact ih k h

theorem isPrefixOf_append_self (pat x : List Char) : pat.isPrefixOf (pat ++ x) = true := by
  induction pat with
  | nil => simp [List.isPrefixOf]
  | cons c cs ih => simp [List.isPrefixOf, ih]

/-- An occurrence at the front is removed, and the pass goes on behind it. -/
theorem removeAllAux_prefix (c : Char) (cs x : List Char) :
    removeAllAux (c :: cs) 0 ((c :: cs) ++ x) = removeAllAux (c :: cs) 0 x := by
  have hp : (c :: cs).isPrefixOf (c :: (cs ++ x)) = true := isPrefixOf_append_self (c :: cs) x
  have h2 : removeAllAux (c :: cs) 0 (c :: (cs ++ x)) =
      if (c :: cs).isPrefixOf (c :: (cs ++ x)) then
        removeAllAux (c :: cs) ((c :: cs).length - 1) (cs ++ x)
      else c :: removeAllAux (c :: cs) 0 (cs ++ x) := rfl
  rw [List.cons_append, h2, if_pos hp]
  exact removeAllAux_skip (c :: cs) x cs _ (by simp)

theorem removeAllAux_length_le (pat : List Char) :
    ∀ (l : List Char) (k : Nat), (removeAllAux pat k l).length ≤ l.length - k := by
  intro l
  induction l with
  | nil => intro k; simp [removeAllAux]
  | cons c cs ih =>
    intro k
    cases k with
    | succ k =>
      simp only [removeAllAux, List.length_cons]
      have := ih k
      omega
    | zero =>
      simp only [removeAllAux]
      split
      · have := ih (pat.length - 1)
        simp only [List.length_cons]
        omega
      · have := ih 0
        simp only [List.length_cons]
        omega

/-- A pass over a list in which the pattern occurs returns a shorter list. -/
theorem removeAllAux_length_lt (c0 : Char) (ps : List Char) :
    ∀ l : List Char, occursIn (c0 :: ps) l = true →
      (removeAllAux (c0 :: ps) 0 l).length < l.length := by
  intro l
  induction l with
  | nil => intro h; simp [occursIn] at h
  | cons c cs ih =>
    intro h
    simp only [removeAllAux]
    split
    · have := removeAllAux_length_le (c0 :: ps) cs ((c0 :: ps).length - 1)
      simp only [List.length_cons] at this ⊢
      omega
    · rename_i hp
      simp only [occursIn, Bool.or_eq_true] at h
      rcases h with h | h
      · exact absurd h hp
      · have := ih h
        simp only [List.length_cons]
        omega

theorem placeholder_data : placeholder.data =
    'c' :: ['o', 'm', 'm', 'a', 'n', 'd', '-', 'l', 'i', 'n', 'e', '-', 'a', 'r', 'g', 'u', 'm',
      'e', 'n', 't', 's', '.'] := by
  decide

theorem removeAll_eq_self_iff (s : String) :
    removeAll s placeholder = s ↔ ¬ HasPlaceholder s := by
  constructor
  · intro h hp
    have hd := congrArg String.data h
    simp only [removeAll] at hd
    have hlt : (removeAllAux placeholder.data 0 s.data).length < s.data.length := by
      rw [placeholder_data]
      apply removeAllAux_length_lt
      rw [← placeholder_data]
      exact hp
    rw [hd] at hlt
    exact absurd hlt (lt_irrefl _)
  · intro h
    have h1 : occursIn placeholder.data s.data = false := by
      simpa [HasPlaceholder] using h
    simp only [removeAll, removeAllAux_of_not_occurs _ _ h1]

theorem removeAll_placeholder_append (x : String) :
    removeAll (placeholder ++ x) placeholder = removeAll x placeholder := by
  simp only [removeAll, String.data_append]
  rw [placeholder_data, removeAllAux_prefix]

theorem removeAllAux_cons_of_no_match (pat : List Char) (c : Char) (cs : List Char)
    (h : ¬ pat <+: c :: cs) :
    removeAllAux pat 0 (c :: cs) = c :: removeAllAux pat 0 cs := by
  have h1 : pat.isPrefixOf (c :: cs) = false := by
    cases hb : pat.isPrefixOf (c :: cs) with
    | false => rfl
    | true => exact absurd (List.isPrefixOf_iff_prefix.mp hb) h
  simp only [removeAllAux, h1, Bool.false_eq_true, if_false]

/-- An occurrence of the pattern is a split of the list whose second part
begins with the pattern. -/
theorem occursIn_split (pat : List Char) (hp : pat ≠ []) :
    ∀ l : List Char, occursIn pat l = true → ∃ x y, l = x ++ y ∧ pat <+: y := by
  intro l
  induction l with
  | nil =>
    intro h
    cases pat with
    | nil => exact absurd rfl hp
    | cons a as => simp [occursIn] at h
  | cons c cs ih =>
    intro h
    simp only [occursIn, Bool.or_eq_true] at h
    rcases h with h | h
    · exact ⟨[], c :: cs, rfl, List.isPrefixOf_iff_prefix.mp h⟩
    · obtain ⟨x, y, hxy, hpre⟩ := ih h
      exact ⟨c :: x, y, by rw [hxy]; rfl, hpre⟩

/-- The pass that finds the leftmost occurrence behind `a` keeps `a`,
removes the occurrence and goes on behind it. -/
theorem removeAllAux_leftmost (c0 : Char) (ps : List Char) (b : List Char) :
    ∀ a : List Char, occursIn (c0 :: ps) (a ++ (c0 :: ps).dropLast) = false →
      removeAllAux (c0 :: ps) 0 (a ++ (c0 :: ps) ++ b) = a ++ removeAllAux (c0 :: ps) 0 b := by
  intro a
  induction a with
  | nil =>
    intro _
    simp only [List.nil_append]
    exact removeAllAux_prefix c0 ps b
  | cons c a ih =>
    intro h
    rw [List.cons_append] at h
    simp only [occursIn, Bool.or_eq_false_iff] at h
    have hnp : ¬ (c0 :: ps) <+: c :: (a ++ (c0 :: ps) ++ b) := by
      intro hpre
      have h1 : (c :: (a ++ (c0 :: ps).dropLast)) <+: c :: (a ++ (c0 :: ps) ++ b) := by
        have h2 : (c0 :: ps).dropLast <+: (c0 :: ps) := List.dropLast_prefix _
        obtain ⟨t, ht⟩ := h2
        refine ⟨t ++ b, ?_⟩
        conv_rhs => rw [← ht]
        simp
      have h3 : (c0 :: ps) <+: c :: (a ++ (c0 :: ps).dropLast) := by
        apply List.prefix_of_prefix_length_le hpre h1
        simp only [List.length_cons, List.length_append, List.length_dropLast]
        omega
      have h4 := List.isPrefixOf_iff_prefix.mpr h3
      rw [h.1] at h4
      exact absurd h4 (by decide)
    have hstep := removeAllAux_cons_of_no_match (c0 :: ps) c (a ++ (c0 :: ps) ++ b) hnp
    simp only [List.cons_append] at hstep ⊢
    rw [hstep, ih h.2]

/-- The reading of `guardedFrom` by splits: the character before an
occurrence is not in `excl`. -/
theorem guardedFrom_split (pat excl : List Char) (hp : pat ≠ []) :
    ∀ (l : List Char) (prev : Option Char), guardedFrom pat excl prev l = true →
      (∀ d, prev = some d → pat <+: l → d ∉ excl) ∧
      (∀ x c y, l = x ++ c :: y → pat <+: y → c ∉ excl) := by
  intro l
  induction l with
  | nil =>
    intro prev _
    refine ⟨fun d _ hpre => absurd (List.prefix_nil.mp hpre) hp, fun x c y h _ => ?_⟩
    exact absurd h (by simp)
  | cons c0 cs ih =>
    intro prev h
    simp only [guardedFrom, Bool.and_eq_true, Bool.or_eq_true, Bool.not_eq_true'] at h
    obtain ⟨h1, h2⟩ := h
    have ih2 := ih (some c0) h2
    constructor
    · intro d hd hpre
      have hb := List.isPrefixOf_iff_prefix.mpr hpre
      rcases h1 with h1 | h1
      · rw [hb] at h1
        exact absurd h1 (by decide)
      · subst hd
        simpa using h1
    · intro x c y hl hpre
      cases x with
      | nil =>
        simp only [List.nil_append, List.cons.injEq] at hl
        obtain ⟨hc, hy⟩ := hl
        subst hc
        subst hy
        exact ih2.1 c0 rfl hpre
      | cons x0 xs =>
        simp only [List.cons_append, List.cons.injEq] at hl
        exact ih2.2 xs c y hl.2 hpre

/-- The invariant of the pass over a guarded list: when no occurrence
begins in the part written so far and every occurrence follows a character
outside the pattern without its last character, the result contains no
occurrence. -/
theorem removeAllAux_guarded (c0 : Char) (ps excl : List Char)
    (hD : ∀ c ∈ (c0 :: ps).dropLast, c ∈ excl) :
    ∀ (n : Nat) (s out : List Char), s.length ≤ n →
      (∀ x y, out ++ s = x ++ y → x.length < out.length → ¬ (c0 :: ps) <+: y) →
      (∀ x c y, out ++ s = x ++ c :: y → (c0 :: ps) <+: y → c ∉ excl) →
      ∀ x y, out ++ removeAllAux (c0 :: ps) 0 s = x ++ y → ¬ (c0 :: ps) <+: y := by
  intro n
  induction n with
  | zero =>
    intro s out hs hA _ x y hxy hpre
    have hs0 : s = [] := List.length_eq_zero.mp (Nat.le_zero.mp hs)
    subst hs0
    simp only [removeAllAux, List.append_nil] at hxy hA
    by_cases hx : x.length < out.length
    · exact hA x y hxy hx hpre
    · have hl := congrArg List.length hxy
      simp only [List.length_append] at hl
      have hy : y = [] := List.length_eq_zero.mp (by omega)
      subst hy
      exact absurd (List.prefix_nil.mp hpre) (by simp)
  | succ n ih =>
    intro s out hs hA hG
    cases s with
    | nil =>
      intro x y hxy hpre
      simp only [removeAllAux, List.append_nil] at hxy hA
      by_cases hx : x.length < out.length
      · exact hA x y hxy hx hpre
      · have hl := congrArg List.length hxy
        simp only [List.length_append] at hl
        have hy : y = [] := List.length_eq_zero.mp (by omega)
        subst hy
        exact absurd (List.prefix_nil.mp hpre) (by simp)
    | cons c cs =>
      by_cases hm : (c0 :: ps) <+: c :: cs
      · obtain ⟨s1, hs1⟩ := hm
        rw [← hs1, removeAllAux_prefix]
        rw [← hs1] at hA hG hs
        have hlen : s1.length ≤ n := by
          simp only [List.length_append, List.length_cons] at hs
          omega
        have hA1 : ∀ x y, out ++ s1 = x ++ y → x.length < out.length → ¬ (c0 :: ps) <+: y := by
          intro x y hxy hx hpre
          rcases List.append_eq_append_iff.mp hxy with ⟨a1, h1, _⟩ | ⟨u, h1, h2⟩
          · rw [h1] at hx
            simp only [List.length_append] at hx
            omega
          · subst h2
            by_cases hl : (c0 :: ps).length ≤ u.length
            · have h3 : (c0 :: ps) <+: u :=
                List.prefix_of_prefix_length_le hpre (List.prefix_append u s1) hl
              refine hA x (u ++ ((c0 :: ps) ++ s1)) ?_ hx
                (h3.trans (List.prefix_append u _))
              rw [h1, List.append_assoc]
            · have h3 : u <+: (c0 :: ps) :=
                List.prefix_of_prefix_length_le (List.prefix_append u s1) hpre (by omega)
              have hu : u ≠ [] := by
                intro hu
                rw [hu] at h1
                simp only [List.append_nil] at h1
                rw [h1] at hx
                exact absurd hx (lt_irrefl _)
              obtain ⟨t, ht⟩ := h3
              have htn : t ≠ [] := by
                intro h0
                rw [h0, List.append_nil] at ht
                rw [ht] at hl
                exact hl (le_refl _)
              have hmem : u.getLast hu ∈ (c0 :: ps).dropLast := by
                rw [← ht, List.dropLast_append_of_ne_nil _ htn]
                exact List.mem_append_left _ (List.getLast_mem hu)
              refine hG (x ++ u.dropLast) (u.getLast hu) ((c0 :: ps) ++ s1) ?_
                (List.prefix_append _ _) (hD _ hmem)
              rw [h1]
              conv_lhs => rw [← List.dropLast_append_getLast hu]
              simp
        refine ih s1 out hlen hA1 ?_
        intro x d y hxy hpre
        rcases List.append_eq_append_iff.mp hxy with ⟨a1, h1, h2⟩ | ⟨u, h1, h2⟩
        · refine hG (out ++ (c0 :: ps) ++ a1) d y ?_ hpre
          rw [h2]
          simp
        · cases u with
          | nil =>
            simp only [List.nil_append] at h2
            simp only [List.append_nil] at h1
            refine hG (out ++ (c0 :: ps)) d y ?_ hpre
            rw [← h2]
            simp
          | cons u0 us =>
            simp only [List.cons_append, List.cons.injEq] at h2
            obtain ⟨hd, hy⟩ := h2
            subst hd
            cases us with
            | nil =>
              simp only [List.nil_append] at hy
              subst hy
              refine hG x d ((c0 :: ps) ++ y) ?_ (List.prefix_append _ _)
              rw [h1]
              simp
            | cons u1 us1 =>
              exfalso
              refine hA1 (x ++ [d]) y ?_ ?_ hpre
              · rw [hxy]
                simp
              · rw [h1]
                simp
      · rw [removeAllAux_cons_of_no_match _ _ _ hm]
        have hlen : cs.length ≤ n := by
          simp only [List.length_cons] at hs
          omega
        have heq : out ++ c :: cs = (out ++ [c]) ++ cs := by simp
        have heq1 : ∀ r : List Char, out ++ c :: r = (out ++ [c]) ++ r := by
          intro r
          simp
        rw [heq1]
        refine ih cs (out ++ [c]) hlen ?_ ?_
        · intro x y hxy hx hpre
          rw [← heq] at hxy
          simp only [List.length_append, List.length_singleton] at hx
          by_cases hx1 : x.length < out.length
          · exact hA x y hxy hx1 hpre
          · have hxl : out.length = x.length := by omega
            obtain ⟨h1, h2⟩ := List.append_inj hxy hxl
            rw [← h2] at hpre
            exact hm hpre
        · intro x d y hxy hpre
          rw [← heq] at hxy
          exact hG x d y hxy hpre

theorem placeholderStem_data : placeholderStem.data = placeholder.data.dropLast := by
  decide

/-- On a guarded name the pass leaves no occurrence of the qualifier. -/
theorem removeAll_guarded (s : String) (h : Guarded s) :
    ¬ HasPlaceholder (removeAll s placeholder) := by
  intro hp
  have hne : placeholder.data ≠ [] := by decide
  obtain ⟨x, y, hxy, hpre⟩ := occursIn_split placeholder.data hne _ hp
  have hg := (guardedFrom_split placeholder.data placeholderStem.data hne s.data none h).2
  rw [placeholder_data] at hg hpre
  refine removeAllAux_guarded 'c' _ placeholderStem.data ?_ s.data.length s.data [] (le_refl _)
    (fun x y _ hx => absurd hx (Nat.not_lt_zero _)) ?_ x y ?_ hpre
  · intro c hc
    rw [placeholderStem_data, placeholder_data]
    exact hc
  · intro x1 c y1 h1 h2
    exact hg x1 c y1 h1 h2
  · rw [List.nil_append, ← placeholder_data]
    exact hxy

theorem removeAll_leftmost (a b : String) (h : ¬ HasPlaceholder (a ++ placeholderStem)) :
    removeAll (a ++ placeholder ++ b) placeholder = a ++ removeAll b placeholder := by
  have h1 : occursIn placeholder.data (a.data ++ placeholder.data.dropLast) = false := by
    have h2 : occursIn placeholder.data (a ++ placeholderStem).data = false := by
      simpa [HasPlaceholder] using h
    rw [String.data_append, placeholderStem_data] at h2
    exact h2
  apply String.ext
  simp only [removeAll, String.data_append]
  rw [placeholder_data] at h1 ⊢
  exact removeAllAux_leftmost 'c' _ b.data a.data h1

/-- C19 (normalisation, amended): `funName` removes the occurrences of the
placeholder qualifier that one pass from left to right finds: a full name
without occurrence is returned as it is, and when the leftmost occurrence
stands between `a` and `b` the result is `a` followed by the result for `b`.
Normalising the returned name again returns it unchanged if and only if it
contains no occurrence of the qualifier. This is so for every full name in
which each occurrence stands at the front or follows a character that does
not occur in `command-line-arguments`: on these names the returned name
contains no occurrence and `funName` is idempotent. -/
theorem funName_idempotent_iff (f : Func) :
    (¬ HasPlaceholder f.fullName → funName f = f.fullName) ∧
    (∀ a b : String, ¬ HasPlaceholder (a ++ placeholderStem) →
      f.fullName = a ++ placeholder ++ b →
      funName f = a ++ funName { f with fullName := b }) ∧
    (funName { f with fullName := funName f } = funName f ↔ ¬ HasPlaceholder (funName f)) ∧
    (Guarded f.fullName →
      ¬ HasPlaceholder (funName f) ∧ funName { f with fullName := funName f } = funName f) := by
  refine ⟨fun h => (removeAll_eq_self_iff f.fullName).mpr h, ?_, removeAll_eq_self_iff (funName f),
    ?_⟩
  · intro a b ha hf
    show removeAll f.fullName placeholder = a ++ removeAll b placeholder
    rw [hf]
    exact removeAll_leftmost a b ha
  · intro hg
    have h1 : ¬ HasPlaceholder (funName f) := removeAll_guarded f.fullName hg
    exact ⟨h1, (removeAll_eq_self_iff (funName f)).mpr h1⟩

/-- Witness of C19: the method `M` of the pointer receiver `*T` has a
guarded full name; its normalised name is `(*T).M`, and normalising that
name again returns it. -/
theorem funName_idempotent_iff_witness :
    Guarded samplePtrMethod.fullName ∧ funName samplePtrMethod = "(*T).M" ∧
    funName { samplePtrMethod with fullName := funName samplePtrMethod }
      = funName samplePtrMethod :=
  ⟨by unfold Guarded; decide, by decide,
    ((funName_idempotent_iff samplePtrMethod).2.2.2 (by unfold Guarded; decide)).2⟩

/-- Counterexample to C19 as stated: for the function `A` of the package
`command-line-command-line-arguments.arguments`, `funName` returns
`command-line-arguments.A`, which contains the qualifier, and normalising
that name again returns `A`. -/
theorem funName_not_idempotent :
    funName sampleNested = "command-line-arguments.A" ∧
    HasPlaceholder (funName sampleNested) ∧
    funName { sampleNested with fullName := funName sampleNested } = "A" ∧
    funName { sampleNested with fullName := funName sampleNested } ≠ funName sampleNested := by
  refine ⟨by decide, ?_, by decide, by decide⟩
  show occursIn placeholder.data (funName sampleNested).data = true
  decide


/-! ## Nodes without edges -/

theorem Registers.mem_nodes {g : StaticCallGraph} {key : String} {P : Node → Prop}
    {r : ID × StaticCallGraph} (hr : Registers g key P r) {id : ID} (h : id ∈ r.2.Nodes) :
    id ∈ g.Nodes ∨ id = r.1 := by
  rcases hr with ⟨id0, _, h2⟩ | ⟨_, node, _, _, h2⟩
  · rw [h2] at h; exact Or.inl h
  · rw [h2] at h ⊢
    rcases (AList.mem_insert _).mp h with k | k
    · exact Or.inr k
    · rw [getID_nodes] at k
      exact Or.inl k

theorem incident_newGraph : Incident newGraph := by
  intro id h
  exact absurd h (by simp [newGraph])

/-- A static edge keeps every node incident to an edge, while the registry
holds fewer than `2 ^ 64` names. -/
theorem incident_addStaticEdge (goroot : String → Bool) {g : StaticCallGraph} (hb : BInv g)
    (h : Incident g) (a b : Func)
    (hlen : (addStaticEdge goroot g a b).2.idMap.entries.length < 2 ^ 64) :
    Incident (addStaticEdge goroot g a b).2 := by
  have hgr := grows_addStaticEdge goroot g a b
  have hb1 := binv_addStaticEdge goroot hb a b
  have hold : ∀ id, id ∈ g.Nodes → ∃ eid e,
      (addStaticEdge goroot g a b).2.Edges.lookup eid = some e ∧
        (e.Source = id ∨ e.Target = id) := by
    intro id hid
    obtain ⟨eid, e, he, hst⟩ := h id hid
    obtain ⟨x, y, hn, _, _⟩ := hb.edges eid e he
    exact ⟨eid, e, by rw [frame_edges hgr hb1 hlen hn]; exact he, hst⟩
  rcases addStaticEdge_cases goroot g a b with ⟨id0, _, h2⟩ | ⟨_, h2⟩
  · rw [h2]; exact h
  · intro id hid
    have hid3 : id ∈ (addNode goroot (addNode goroot
        (getID g (callKey (funName a) (funName b)) true).2 a).2 b).2.Nodes := by
      rw [h2] at hid; exact hid
    have hnew : ∃ e, (addStaticEdge goroot g a b).2.Edges.lookup
        (getID g (callKey (funName a) (funName b)) true).1.1 = some e ∧
        e.Source = (addNode goroot (getID g (callKey (funName a) (funName b)) true).2 a).1 ∧
        e.Target = (addNode goroot (addNode goroot
          (getID g (callKey (funName a) (funName b)) true).2 a).2 b).1 := by
      rw [h2]
      exact ⟨_, AList.lookup_insert _, rfl, rfl⟩
    obtain ⟨e0, he0, hs0, ht0⟩ := hnew
    rcases (addNode_registers goroot _ b).mem_nodes hid3 with k | k
    · rcases (addNode_registers goroot _ a).mem_nodes k with k1 | k1
      · rw [getID_nodes] at k1
        exact hold id k1
      · exact ⟨_, e0, he0, Or.inl (hs0.trans k1.symm)⟩
    · exact ⟨_, e0, he0, Or.inr (ht0.trans k.symm)⟩

theorem incident_runOps (goroot : String → Bool) (ops : List Op) :
    ∀ g, BInv g → Incident g → (∀ op ∈ ops, op.IsEdge) →
      (runOps goroot ops g).idMap.entries.length < 2 ^ 64 → Incident (runOps goroot ops g) := by
  induction ops with
  | nil => exact fun g _ h _ _ => h
  | cons op ops ih =>
    intro g hb h hops hlen
    rw [runOps_cons] at hlen ⊢
    have l1 := lt_of_le_of_lt (grows_runOps goroot ops (op.apply goroot g)).length_le hlen
    have hop := hops op (List.mem_cons_self _ _)
    refine ih _ (binv_apply goroot hb op) ?_ (fun o ho => hops o (List.mem_cons_of_mem _ ho)) hlen
    cases op with
    | addStaticEdge a b => exact incident_addStaticEdge goroot hb h a b l1
    | addNode f => exact absurd hop (by simp [Op.IsEdge])
    | addRecvTypeNode r => exact absurd hop (by simp [Op.IsEdge])
    | addPkgNode p => exact absurd hop (by simp [Op.IsEdge])

theorem callOps_isEdge (caller : Func) : ∀ (cs : List CallSite), ∀ op ∈ callOps caller cs,
    op.IsEdge := by
  intro cs
  induction cs with
  | nil => intro op h; simp [callOps] at h
  | cons c cs ih =>
    intro op h
    cases hc : c.callee with
    | func f =>
      simp only [callOps, hc, List.mem_cons] at h
      rcases h with rfl | h
      · trivial
      · exact ih op h
    | nil => simp only [callOps, hc] at h; exact ih op h
    | var v => simp only [callOps, hc] at h; exact ih op h
    | builtin bi => simp only [callOps, hc] at h; exact ih op h
    | other => simp only [callOps, hc] at h; exact ih op h

theorem buildOps_isEdge (flags : StaticFlags) (hf : flags.ShowOrphanedNode = false) :
    ∀ (ds : List Decl), ∀ op ∈ buildOps flags ds, op.IsEdge := by
  intro ds
  induction ds with
  | nil => intro op h; simp [buildOps] at h
  | cons d ds ih =>
    intro op h
    simp only [buildOps, declOps, hf, List.mem_append] at h
    rcases h with (h | h) | h
    · simp at h
    · exact callOps_isEdge d.caller d.calls op h
    · exact ih op h

/-- C20 (no orphans without the flag): when `NewStatic` runs with
`ShowOrphanedNode` disabled and returns a graph (of fewer than `2 ^ 64`
registered names), every key of `Nodes` is the `Source` or the `Target` of
an edge in `Edges`; in particular a graph built from declarations without
any call site that resolves to a function has no node at all. -/
theorem no_orphans_without_flag (goroot : String → Bool) (printErrors : Bool)
    (opts : List StaticOption) (decls : List Decl) (bld : Build)
    (hflag : (applyOpts opts).ShowOrphanedNode = false)
    (hrun : NewStatic goroot printErrors opts decls = Except.ok bld)
    (hlen : bld.graph.idMap.entries.length < 2 ^ 64) :
    (∀ id, id ∈ bld.graph.Nodes →
      ∃ eid e, bld.graph.Edges.lookup eid = some e ∧ (e.Source = id ∨ e.Target = id)) ∧
    (bld.graph.Edges.entries = [] → bld.graph.Nodes.entries = []) := by
  have hg := NewStatic_graph goroot printErrors opts decls bld hrun
  rw [hg] at hlen ⊢
  have hinc := incident_runOps goroot _ newGraph binv_newGraph incident_newGraph
    (buildOps_isEdge _ hflag decls) hlen
  refine ⟨hinc, ?_⟩
  intro he
  cases hn : (runOps goroot (buildOps (applyOpts opts) decls) newGraph).Nodes.entries with
  | nil => rfl
  | cons it rest =>
    have hmem : it.1 ∈ (runOps goroot (buildOps (applyOpts opts) decls) newGraph).Nodes := by
      apply mem_of_lookup (v := it.2)
      apply AList.mem_lookup_iff.mpr
      rw [hn]
      exact List.mem_cons_self _ _
    obtain ⟨eid, e, hl, _⟩ := hinc it.1 hmem
    have := AList.mem_lookup_iff.mp hl
    rw [he] at this
    simp at this

/-- Witness of C20: `A` calls `B`, and `B` has no call site. -/
theorem no_orphans_without_flag_witness :
    (applyOpts []).ShowOrphanedNode = false ∧
    ∃ bld : Build,
      NewStatic noGoroot false []
        [{ caller := sampleA, calls := [{ callee := CalleeObj.func sampleB, shown := "B()" }] },
         { caller := sampleB, calls := [] }] = Except.ok bld ∧
      bld.graph.idMap.entries.length < 2 ^ 64 ∧
      bld.graph.Nodes.keys = ["n3", "n2"] ∧
      ∀ id, id ∈ bld.graph.Nodes →
        ∃ eid e, bld.graph.Edges.lookup eid = some e ∧ (e.Source = id ∨ e.Target = id) :=
  ⟨rfl, { graph := (addStaticEdge noGoroot newGraph sampleA sampleB).2, log := [] }, rfl,
    by decide, by decide,
    (no_orphans_without_flag noGoroot false []
      [{ caller := sampleA, calls := [{ callee := CalleeObj.func sampleB, shown := "B()" }] },
       { caller := sampleB, calls := [] }]
      { graph := (addStaticEdge noGoroot newGraph sampleA sampleB).2, log := [] }
      rfl rfl (by decide)).1⟩

end Callgraph
